import Mathlib

/-!
Verification of the bbcdisasm two-pass 6502 disassembly engine
(`disassemble.go`, `opcodes.go`) against its natural-language specification.

The Go code is shallowly embedded: byte buffers become `List Nat` (each entry
a byte value), Go `uint` arithmetic is `Nat` with an explicit `% 2^64` at the
operations where wrap-around can occur (the `uint(boff)` conversion of a
negative branch offset and the sums it flows into), Go maps become
association lists with the insertion discipline of the source, and the
`walk` loop is modelled with explicit fuel so that termination is a provable
statement rather than an assumption.
-/

set_option maxHeartbeats 1000000
set_option maxRecDepth 10000

namespace BbcDisasm

/-- Width of Go's `uint` on the targeted 64-bit platform. -/
def W : Nat := 2 ^ 64

/-- Upper-case hexadecimal digit character, mirroring Go's `%X` verb
(also used for decimal digits, where only `0`-`9` arise). -/
def digitCh (n : Nat) : Char :=
  if n < 10 then Char.ofNat ('0'.toNat + n) else Char.ofNat ('A'.toNat + (n - 10))

/-- Lower-case hexadecimal digit character, mirroring Go's `%x` verb. -/
def digitChLower (n : Nat) : Char :=
  if n < 10 then Char.ofNat ('0'.toNat + n) else Char.ofNat ('a'.toNat + (n - 10))

/-- The two characters printed by Go's `%02X` for a byte value. -/
def hex2Chars (n : Nat) : List Char :=
  [digitCh (n / 16 % 16), digitCh (n % 16)]

/-- The four characters printed by Go's `%04X` for a 16-bit value. -/
def hex4Chars (n : Nat) : List Char :=
  [digitCh (n / 4096 % 16), digitCh (n / 256 % 16), digitCh (n / 16 % 16), digitCh (n % 16)]

/-- Decimal digit characters of `n`, most significant first (Go's `%d`). -/
def natDecChars (n : Nat) : List Char :=
  if _h : n < 10 then [digitCh n]
  else natDecChars (n / 10) ++ [digitCh (n % 10)]
termination_by n
decreasing_by exact Nat.div_lt_self (by omega) (by omega)

/-- Characters printed by Go's `%+d`: an explicit sign then decimal digits. -/
def intDecSignedChars (i : Int) : List Char :=
  (if i < 0 then '-' else '+') :: natDecChars i.natAbs

def hex2 (n : Nat) : String := String.mk (hex2Chars n)

def hex4 (n : Nat) : String := String.mk (hex4Chars n)

def natDec (n : Nat) : String := String.mk (natDecChars n)

/-- `labelFormatString = "label_%d"` applied to an index. -/
def labelName (i : Nat) : String := String.mk ('l' :: 'a' :: 'b' :: 'e' :: 'l' :: '_' :: natDecChars i)

/-- Addressing modes of 6502 instructions (`opcodes.go`). -/
inductive AddressingMode where
  | NoMode        -- `None` in the source
  | Accumulator
  | Immediate
  | Absolute
  | ZeroPage
  | ZeroPageX
  | ZeroPageY
  | ZeroPageRel
  | Indirect
  | AbsoluteX
  | AbsoluteY
  | IndirectX
  | IndirectY
  | IndirectZP
  deriving DecidableEq, Repr

/-- A 6502 opcode record (`opcodes.go`): byte value, mnemonic, total
instruction length in bytes, addressing mode. -/
structure Opcode where
  value : Nat
  name : String
  length : Nat
  addrMode : AddressingMode
  deriving DecidableEq, Repr

def OpJMPAbsolute : Nat := 0x4C
def OpJMPIndirect : Nat := 0x6C
def OpJSRAbsolute : Nat := 0x20

open AddressingMode in
/-- Part 1 of the `OpCodes` table (split only to keep elaboration fast). -/
def opCodesChunk0 : List Opcode := [
  ⟨0x69, "ADC", 2, Immediate⟩,
  ⟨0x65, "ADC", 2, ZeroPage⟩,
  ⟨0x75, "ADC", 2, ZeroPageX⟩,
  ⟨0x6D, "ADC", 3, Absolute⟩,
  ⟨0x7D, "ADC", 3, AbsoluteX⟩,
  ⟨0x79, "ADC", 3, AbsoluteY⟩,
  ⟨0x61, "ADC", 2, IndirectX⟩,
  ⟨0x71, "ADC", 2, IndirectY⟩,
  ⟨0x72, "ADC", 2, IndirectZP⟩,
  ⟨0x0B, "ANC", 2, Immediate⟩,
  ⟨0x2B, "ANC", 2, Immediate⟩,
  ⟨0x29, "AND", 2, Immediate⟩,
  ⟨0x25, "AND", 2, ZeroPage⟩,
  ⟨0x35, "AND", 2, ZeroPageX⟩,
  ⟨0x2D, "AND", 3, Absolute⟩,
  ⟨0x3D, "AND", 3, AbsoluteX⟩,
  ⟨0x39, "AND", 3, AbsoluteY⟩,
  ⟨0x21, "AND", 2, IndirectX⟩,
  ⟨0x31, "AND", 2, IndirectY⟩,
  ⟨0x32, "AND", 2, IndirectZP⟩,
  ⟨0x0A, "ASL", 1, Accumulator⟩,
  ⟨0x06, "ASL", 2, ZeroPage⟩,
  ⟨0x16, "ASL", 2, ZeroPageX⟩,
  ⟨0x0E, "ASL", 3, Absolute⟩]

open AddressingMode in
/-- Part 2 of the `OpCodes` table (split only to keep elaboration fast). -/
def opCodesChunk1 : List Opcode := [
  ⟨0x1E, "ASL", 3, AbsoluteX⟩,
  ⟨0x0F, "BBR0", 3, NoMode⟩,
  ⟨0x1F, "BBR1", 3, NoMode⟩,
  ⟨0x2F, "BBR2", 3, NoMode⟩,
  ⟨0x3F, "BBR3", 3, NoMode⟩,
  ⟨0x4F, "BBR4", 3, NoMode⟩,
  ⟨0x5F, "BBR5", 3, NoMode⟩,
  ⟨0x6F, "BBR6", 3, NoMode⟩,
  ⟨0x7F, "BBR7", 3, NoMode⟩,
  ⟨0x8F, "BBS0", 3, NoMode⟩,
  ⟨0x9F, "BBS1", 3, NoMode⟩,
  ⟨0xAF, "BBS2", 3, NoMode⟩,
  ⟨0xBF, "BBS3", 3, NoMode⟩,
  ⟨0xCF, "BBS4", 3, NoMode⟩,
  ⟨0xDF, "BBS5", 3, NoMode⟩,
  ⟨0xEF, "BBS6", 3, NoMode⟩,
  ⟨0xFF, "BBS7", 3, NoMode⟩,
  ⟨0x24, "BIT", 2, ZeroPage⟩,
  ⟨0x2C, "BIT", 3, Absolute⟩,
  ⟨0x10, "BPL", 2, NoMode⟩,
  ⟨0x30, "BMI", 2, NoMode⟩,
  ⟨0x50, "BVC", 2, NoMode⟩,
  ⟨0x70, "BVS", 2, NoMode⟩,
  ⟨0x80, "BRA", 2, NoMode⟩]

open AddressingMode in
/-- Part 3 of the `OpCodes` table (split only to keep elaboration fast). -/
def opCodesChunk2 : List Opcode := [
  ⟨0x90, "BCC", 2, NoMode⟩,
  ⟨0xB0, "BCS", 2, NoMode⟩,
  ⟨0xD0, "BNE", 2, NoMode⟩,
  ⟨0xF0, "BEQ", 2, NoMode⟩,
  ⟨0x00, "BRK", 1, NoMode⟩,
  ⟨0xC9, "CMP", 2, Immediate⟩,
  ⟨0xC5, "CMP", 2, ZeroPage⟩,
  ⟨0xD5, "CMP", 2, ZeroPageX⟩,
  ⟨0xCD, "CMP", 3, Absolute⟩,
  ⟨0xDD, "CMP", 3, AbsoluteX⟩,
  ⟨0xD9, "CMP", 3, AbsoluteY⟩,
  ⟨0xC1, "CMP", 2, IndirectX⟩,
  ⟨0xD1, "CMP", 2, IndirectY⟩,
  ⟨0xE0, "CPX", 2, Immediate⟩,
  ⟨0xE4, "CPX", 2, ZeroPage⟩,
  ⟨0xEC, "CPX", 3, Absolute⟩,
  ⟨0xC0, "CPY", 2, Immediate⟩,
  ⟨0xC4, "CPY", 2, ZeroPage⟩,
  ⟨0xCC, "CPY", 3, Absolute⟩,
  ⟨0xC6, "DEC", 2, ZeroPage⟩,
  ⟨0xD6, "DEC", 2, ZeroPageX⟩,
  ⟨0xCE, "DEC", 3, Absolute⟩,
  ⟨0xDE, "DEC", 3, AbsoluteX⟩,
  ⟨0x49, "EOR", 2, Immediate⟩]

open AddressingMode in
/-- Part 4 of the `OpCodes` table (split only to keep elaboration fast). -/
def opCodesChunk3 : List Opcode := [
  ⟨0x45, "EOR", 2, ZeroPage⟩,
  ⟨0x55, "EOR", 2, ZeroPageX⟩,
  ⟨0x4D, "EOR", 3, Absolute⟩,
  ⟨0x5D, "EOR", 3, AbsoluteX⟩,
  ⟨0x59, "EOR", 3, AbsoluteY⟩,
  ⟨0x41, "EOR", 2, IndirectX⟩,
  ⟨0x51, "EOR", 2, IndirectY⟩,
  ⟨0x18, "CLC", 1, NoMode⟩,
  ⟨0x38, "SEC", 1, NoMode⟩,
  ⟨0x58, "CLI", 1, NoMode⟩,
  ⟨0x78, "SEI", 1, NoMode⟩,
  ⟨0xB8, "CLV", 1, NoMode⟩,
  ⟨0xD8, "CLD", 1, NoMode⟩,
  ⟨0xF8, "SED", 1, NoMode⟩,
  ⟨0xE6, "INC", 2, ZeroPage⟩,
  ⟨0xF6, "INC", 2, ZeroPageX⟩,
  ⟨0xEE, "INC", 3, Absolute⟩,
  ⟨0xFE, "INC", 3, AbsoluteX⟩,
  ⟨0x4C, "JMP", 3, Absolute⟩,
  ⟨0x6C, "JMP", 3, Indirect⟩,
  ⟨0x20, "JSR", 3, Absolute⟩,
  ⟨0xA9, "LDA", 2, Immediate⟩,
  ⟨0xA5, "LDA", 2, ZeroPage⟩,
  ⟨0xB5, "LDA", 2, ZeroPageX⟩]

open AddressingMode in
/-- Part 5 of the `OpCodes` table (split only to keep elaboration fast). -/
def opCodesChunk4 : List Opcode := [
  ⟨0xAD, "LDA", 3, Absolute⟩,
  ⟨0xBD, "LDA", 3, AbsoluteX⟩,
  ⟨0xB9, "LDA", 3, AbsoluteY⟩,
  ⟨0xA1, "LDA", 2, IndirectX⟩,
  ⟨0xB1, "LDA", 2, IndirectY⟩,
  ⟨0xA2, "LDX", 2, Immediate⟩,
  ⟨0xA6, "LDX", 2, ZeroPage⟩,
  ⟨0xB6, "LDX", 2, ZeroPageY⟩,
  ⟨0xAE, "LDX", 3, Absolute⟩,
  ⟨0xBE, "LDX", 3, AbsoluteY⟩,
  ⟨0xA0, "LDY", 2, Immediate⟩,
  ⟨0xA4, "LDY", 2, ZeroPage⟩,
  ⟨0xB4, "LDY", 2, ZeroPageX⟩,
  ⟨0xAC, "LDY", 3, Absolute⟩,
  ⟨0xBC, "LDY", 3, AbsoluteX⟩,
  ⟨0x4A, "LSR", 1, Accumulator⟩,
  ⟨0x46, "LSR", 2, ZeroPage⟩,
  ⟨0x56, "LSR", 2, ZeroPageX⟩,
  ⟨0x4E, "LSR", 3, Absolute⟩,
  ⟨0x5E, "LSR", 3, AbsoluteX⟩,
  ⟨0xEA, "NOP", 1, NoMode⟩,
  ⟨0x09, "ORA", 2, Immediate⟩,
  ⟨0x05, "ORA", 2, ZeroPage⟩,
  ⟨0x15, "ORA", 2, ZeroPageX⟩]

open AddressingMode in
/-- Part 6 of the `OpCodes` table (split only to keep elaboration fast). -/
def opCodesChunk5 : List Opcode := [
  ⟨0x0D, "ORA", 3, Absolute⟩,
  ⟨0x1D, "ORA", 3, AbsoluteX⟩,
  ⟨0x19, "ORA", 3, AbsoluteY⟩,
  ⟨0x01, "ORA", 2, IndirectX⟩,
  ⟨0x11, "ORA", 2, IndirectY⟩,
  ⟨0xAA, "TAX", 1, NoMode⟩,
  ⟨0x8A, "TXA", 1, NoMode⟩,
  ⟨0xCA, "DEX", 1, NoMode⟩,
  ⟨0xE8, "INX", 1, NoMode⟩,
  ⟨0xA8, "TAY", 1, NoMode⟩,
  ⟨0x98, "TYA", 1, NoMode⟩,
  ⟨0x88, "DEY", 1, NoMode⟩,
  ⟨0xC8, "INY", 1, NoMode⟩,
  ⟨0x07, "RMB0", 2, ZeroPage⟩,
  ⟨0x17, "RMB1", 2, ZeroPage⟩,
  ⟨0x27, "RMB2", 2, ZeroPage⟩,
  ⟨0x37, "RMB3", 2, ZeroPage⟩,
  ⟨0x47, "RMB4", 2, ZeroPage⟩,
  ⟨0x57, "RMB5", 2, ZeroPage⟩,
  ⟨0x67, "RMB6", 2, ZeroPage⟩,
  ⟨0x77, "RMB7", 2, ZeroPage⟩,
  ⟨0x2A, "ROL", 1, Accumulator⟩,
  ⟨0x26, "ROL", 2, ZeroPage⟩,
  ⟨0x36, "ROL", 2, ZeroPageX⟩]

open AddressingMode in
/-- Part 7 of the `OpCodes` table (split only to keep elaboration fast). -/
def opCodesChunk6 : List Opcode := [
  ⟨0x2E, "ROL", 3, Absolute⟩,
  ⟨0x3E, "ROL", 3, AbsoluteX⟩,
  ⟨0x6A, "ROR", 1, Accumulator⟩,
  ⟨0x66, "ROR", 2, ZeroPage⟩,
  ⟨0x76, "ROR", 2, ZeroPageX⟩,
  ⟨0x6E, "ROR", 3, Absolute⟩,
  ⟨0x7E, "ROR", 3, AbsoluteX⟩,
  ⟨0x40, "RTI", 1, NoMode⟩,
  ⟨0x60, "RTS", 1, NoMode⟩,
  ⟨0xE9, "SBC", 2, Immediate⟩,
  ⟨0xE5, "SBC", 2, ZeroPage⟩,
  ⟨0xF5, "SBC", 2, ZeroPageX⟩,
  ⟨0xED, "SBC", 3, Absolute⟩,
  ⟨0xFD, "SBC", 3, AbsoluteX⟩,
  ⟨0xF9, "SBC", 3, AbsoluteY⟩,
  ⟨0xE1, "SBC", 2, IndirectX⟩,
  ⟨0xF1, "SBC", 2, IndirectY⟩,
  ⟨0x87, "SMB0", 2, ZeroPage⟩,
  ⟨0x97, "SMB1", 2, ZeroPage⟩,
  ⟨0xA7, "SMB2", 2, ZeroPage⟩,
  ⟨0xB7, "SMB3", 2, ZeroPage⟩,
  ⟨0xC7, "SMB4", 2, ZeroPage⟩,
  ⟨0xD7, "SMB5", 2, ZeroPage⟩,
  ⟨0xE7, "SMB6", 2, ZeroPage⟩]

open AddressingMode in
/-- Part 8 of the `OpCodes` table (split only to keep elaboration fast). -/
def opCodesChunk7 : List Opcode := [
  ⟨0xF7, "SMB7", 2, ZeroPage⟩,
  ⟨0x85, "STA", 2, ZeroPage⟩,
  ⟨0x95, "STA", 2, ZeroPageX⟩,
  ⟨0x8D, "STA", 3, Absolute⟩,
  ⟨0x9D, "STA", 3, AbsoluteX⟩,
  ⟨0x99, "STA", 3, AbsoluteY⟩,
  ⟨0x81, "STA", 2, IndirectX⟩,
  ⟨0x91, "STA", 2, IndirectY⟩,
  ⟨0x9A, "TXS", 1, NoMode⟩,
  ⟨0xBA, "TSX", 1, NoMode⟩,
  ⟨0x48, "PHA", 1, NoMode⟩,
  ⟨0x68, "PLA", 1, NoMode⟩,
  ⟨0x08, "PHP", 1, NoMode⟩,
  ⟨0x28, "PLP", 1, NoMode⟩,
  ⟨0x86, "STX", 2, ZeroPage⟩,
  ⟨0x96, "STX", 2, ZeroPageY⟩,
  ⟨0x8E, "STX", 3, Absolute⟩,
  ⟨0x84, "STY", 2, ZeroPage⟩,
  ⟨0x94, "STY", 2, ZeroPageX⟩,
  ⟨0x8C, "STY", 3, Absolute⟩]

/-- The opcode table `OpCodes` of `opcodes.go`, in source order (the
commented-out SRE/SLO blocks of the source are likewise absent here). -/
def opCodes : List Opcode :=
  opCodesChunk0 ++ opCodesChunk1 ++ opCodesChunk2 ++ opCodesChunk3 ++ opCodesChunk4 ++ opCodesChunk5 ++ opCodesChunk6 ++ opCodesChunk7

/-- `OpCodesMap` of `opcodes.go`: built by `init()` inserting the entries of
`OpCodes` in order into a Go map, so a later entry with the same byte value
would overwrite an earlier one; searching the reversed list models that
last-write-wins discipline. -/
def opCodesMap (b : Nat) : Option Opcode :=
  opCodes.reverse.find? (fun o => o.value == b)

def undocumentedInstructions : List String := ["ANC", "SRE", "SLO"]

def branchInstructions : List String :=
  ["BPL", "BMI", "BVC", "BRA", "BVS", "BCC", "BCS", "BNE", "BEQ",
   "BBR0", "BBR1", "BBR2", "BBR3", "BBR4", "BBR5", "BBR6", "BBR7",
   "BBS0", "BBS1", "BBS2", "BBS3", "BBS4", "BBS5", "BBS6", "BBS7"]

def jumpInstructions : List String := ["JMP", "JSR"]

/-- `addressToOsCallName`: absolute addresses of well-known BBC Micro OS calls. -/
def addressToOsCallName : List (Nat × String) := [
  (0xFFB9, "OSRDRM"),
  (0xFFBF, "OSEVEN"),
  (0xFFC2, "GSINIT"),
  (0xFFC5, "GSREAD"),
  (0xFFC8, "NVRDCH"),
  (0xFFCB, "NVWRCH"),
  (0xFFCE, "OSFIND"),
  (0xFFE0, "OSRDCH"),
  (0xFFE3, "OSASCI"),
  (0xFFE7, "OSNEWL"),
  (0xFFEE, "OSWRCH"),
  (0xFFF1, "OSWORD"),
  (0xFFF4, "OSBYTE"),
  (0xFFF7, "OSCLI")]

/-- `osVectorAddresses`: OS vector base addresses and their names. -/
def osVectorAddresses : List (Nat × String) := [
  (0x200, "USERV"),
  (0x202, "BRKV"),
  (0x204, "IRQ1V"),
  (0x206, "IRQ2V"),
  (0x208, "CLIV"),
  (0x20A, "BYTEV"),
  (0x20C, "WORDV"),
  (0x20E, "WRCHV"),
  (0x210, "RDCHV"),
  (0x212, "FILEV"),
  (0x214, "ARGV"),
  (0x216, "BGETV"),
  (0x218, "BPUTV"),
  (0x21A, "GBPBV"),
  (0x21C, "FINDV"),
  (0x21E, "FSCV"),
  (0x220, "EVENTV"),
  (0x222, "UPTV"),
  (0x224, "NETV"),
  (0x226, "VDUV"),
  (0x228, "KEYV"),
  (0x22A, "INSV"),
  (0x22C, "REMV"),
  (0x22E, "CNPV"),
  (0x230, "IND1V"),
  (0x232, "IND2V"),
  (0x234, "IND3V")]

/-- Lookup of a Go `map[uint]string` by key, modelled on the association list. -/
def tblLookup (tbl : List (Nat × String)) (k : Nat) : Option String :=
  (tbl.find? (fun p => p.1 == k)).map (fun p => p.2)

inductive BranchType where
  | neither
  | branch
  | jump
  deriving DecidableEq, Repr

/-- `(*Opcode).branchOrJump` of `opcodes.go`. -/
def branchOrJump (o : Opcode) : BranchType :=
  if branchInstructions.contains o.name then .branch
  else if jumpInstructions.contains o.name then .jump
  else .neither

/-- `isOpcodeDocumented` of `disassemble.go`. -/
def isOpcodeDocumented (o : Opcode) : Bool :=
  !(undocumentedInstructions.contains o.name)

open AddressingMode in
/-- `willAssembleIdentically` of `disassemble.go`: false when the addressing
mode is one of the three absolute forms and the little-endian 16-bit operand
lies in the zero page. -/
def willAssembleIdentically (op : Opcode) (instruction : List Nat) : Bool :=
  if op.addrMode == Absolute || op.addrMode == AbsoluteX || op.addrMode == AbsoluteY then
    let tgt := instruction.getD 2 0 * 256 + instruction.getD 1 0
    decide (0x100 ≤ tgt)
  else
    true

/-! ## Variables and operand decoding (`disassemble.go`) -/

/-- `varDef` of `disassemble.go`: original literal text and parsed value. -/
structure VarDef where
  sval : String
  ival : Nat
  deriving DecidableEq, Repr

/-- The `vars` map of the disassembler.  Go map iteration order is
unspecified; the list order here stands in for one concrete iteration
order (the spec itself flags value-lookup under duplicates as
implementation-defined). -/
abbrev Vars := List (String × VarDef)

/-- `lookupVar` of `disassemble.go`: first variable whose value matches. -/
def lookupVar (vars : Vars) (val : Nat) : Option String :=
  (vars.find? (fun p => p.2.ival == val)).map (fun p => p.1)

/-- The final branch-target table is a sorted list of target addresses;
the label index of an address is its position in this list. -/
def listIdxOf : List Nat → Nat → Option Nat
  | [], _ => none
  | a :: l, t => if a == t then some 0 else (listIdxOf l t).map (· + 1)

/-- Lookup `d.branchTargets[t]` on the final (filtered, rank-indexed) table. -/
def btLookup (bt : List Nat) (t : Nat) : Option Nat := listIdxOf bt t

/-- Go `val &^ uint(1)`: clear the lowest bit. -/
def clearBit0 (v : Nat) : Nat := 2 * (v / 2)

/-- `genAbsoluteOsCall` of `opcodes.go`. -/
def genAbsoluteOsCall (bytes : List Nat) (bt : List Nat) : String :=
  let addr := bytes.getD 2 0 * 256 + bytes.getD 1 0
  match tblLookup addressToOsCallName addr with
  | some osCall => osCall
  | none =>
    match btLookup bt addr with
    | some tgtIdx => labelName tgtIdx
    | none => String.mk ('&' :: hex4Chars addr)

/-- The signed branch displacement plus instruction length (`boff` of
`genBranch` and of the branch case of `findBranchTargets`). -/
def signedOffsetOf (bytes : List Nat) (length : Nat) : Int :=
  let boff0 := if length == 3 then bytes.getD 2 0 else bytes.getD 1 0
  let b1 : Int := if 127 < boff0 then (boff0 : Int) - 256 else (boff0 : Int)
  b1 + (length : Int)

/-- `cursor + uint(boff) + branchAdjust` in Go `uint` arithmetic: the
conversion of the possibly negative `boff` wraps modulo `2^64`, as does
the sum. -/
def branchTarget (bytes : List Nat) (cursor branchAdjust : Nat) (length : Nat) : Nat :=
  (cursor + ((signedOffsetOf bytes length).emod W).toNat + branchAdjust) % W

/-- `genBranch` of `opcodes.go`. -/
def genBranch (bytes : List Nat) (cursor branchAdjust : Nat) (bt : List Nat) (length : Nat) : String :=
  let boff := signedOffsetOf bytes length
  let tgt := branchTarget bytes cursor branchAdjust length
  match btLookup bt tgt with
  | none =>
    if length == 3 then
      String.mk ('&' :: hex2Chars (bytes.getD 1 0) ++ [','] ++ ('P' :: '%' :: intDecSignedChars boff))
    else
      String.mk ('P' :: '%' :: intDecSignedChars boff)
  | some tgtIdx =>
    if length == 3 then
      String.mk ('&' :: hex2Chars (bytes.getD 1 0) ++ [',']) ++ labelName tgtIdx
    else
      labelName tgtIdx

open AddressingMode in
/-- `(*Disassembler).decode` of `disassemble.go`.  The receiver fields it
reads (`vars`, `branchTargets`, `BranchAdjust`) are explicit arguments. -/
def decode (vars : Vars) (bt : List Nat) (branchAdjust : Nat) (op : Opcode)
    (bytes : List Nat) (cursor : Nat) : String :=
  if bytes.getD 0 0 == OpJMPAbsolute || bytes.getD 0 0 == OpJSRAbsolute then
    genAbsoluteOsCall bytes bt
  else if branchOrJump op == .branch then
    genBranch bytes cursor branchAdjust bt op.length
  else
    match op.addrMode with
    | NoMode => ""
    | Accumulator => "A"
    | Immediate => String.mk ('#' :: '&' :: hex2Chars (bytes.getD 1 0))
    | Absolute =>
      let val := bytes.getD 2 0 * 256 + bytes.getD 1 0
      match tblLookup osVectorAddresses val with
      | some osv => osv
      | none =>
        match tblLookup osVectorAddresses (clearBit0 val) with
        | some osv => osv ++ "+1"
        | none =>
          match lookupVar vars val with
          | some dvar => dvar
          | none => String.mk ('&' :: hex4Chars val)
    | ZeroPage =>
      match lookupVar vars (bytes.getD 1 0) with
      | some dvar => dvar
      | none => String.mk ('&' :: hex2Chars (bytes.getD 1 0))
    | ZeroPageX =>
      match lookupVar vars (bytes.getD 1 0) with
      | some dvar => dvar ++ ",X"
      | none => String.mk ('&' :: hex2Chars (bytes.getD 1 0) ++ [',', 'X'])
    | ZeroPageY =>
      match lookupVar vars (bytes.getD 1 0) with
      | some dvar => dvar ++ ",Y"
      | none => String.mk ('&' :: hex2Chars (bytes.getD 1 0) ++ [',', 'Y'])
    | ZeroPageRel =>
      match lookupVar vars (bytes.getD 1 0) with
      | some dvar => dvar ++ String.mk (',' :: ' ' :: '#' :: [digitChLower (bytes.getD 2 0 / 16 % 16), digitChLower (bytes.getD 2 0 % 16)])
      | none => String.mk ('&' :: hex2Chars (bytes.getD 1 0) ++ [',', '#'] ++ hex2Chars (bytes.getD 2 0))
    | Indirect =>
      let val := bytes.getD 2 0 * 256 + bytes.getD 1 0
      match lookupVar vars val with
      | some dvar => "(" ++ dvar ++ ")"
      | none => String.mk ('(' :: '&' :: hex4Chars val ++ [')'])
    | AbsoluteX =>
      let val := bytes.getD 2 0 * 256 + bytes.getD 1 0
      match lookupVar vars val with
      | some dvar => dvar ++ ",X"
      | none => String.mk ('&' :: hex4Chars val ++ [',', 'X'])
    | AbsoluteY =>
      let val := bytes.getD 2 0 * 256 + bytes.getD 1 0
      match lookupVar vars val with
      | some dvar => dvar ++ ",Y"
      | none => String.mk ('&' :: hex4Chars val ++ [',', 'Y'])
    | IndirectX =>
      match lookupVar vars (bytes.getD 1 0) with
      | some dvar => "(" ++ dvar ++ ",X)"
      | none => String.mk ('(' :: '&' :: hex2Chars (bytes.getD 1 0) ++ [',', 'X', ')'])
    | IndirectY =>
      match lookupVar vars (bytes.getD 1 0) with
      | some dvar => "(" ++ dvar ++ "),Y"
      | none => String.mk ('(' :: '&' :: hex2Chars (bytes.getD 1 0) ++ [')', ',', 'Y'])
    | IndirectZP =>
      match lookupVar vars (bytes.getD 1 0) with
      | some dvar => "(" ++ dvar ++ ")"
      | none => String.mk ('(' :: '&' :: hex2Chars (bytes.getD 1 0) ++ [')'])

/-! ## The walk loop (`(*Disassembler).walk`) -/

/-- Configuration of one walk: the disassembler fields the loop reads plus
the visitor.  `visitData` is `vm & vtData != 0`; the visitor gets the
accumulated state, the (post-snap) cursor and the code-address index and
returns the new state and the byte count to advance (Go's `fn` return). -/
structure WalkCfg (σ : Type) where
  program : List Nat
  offset : Nat
  maxBytes : Nat
  codeAddrs : List Nat
  visitData : Bool
  visit : σ → Nat → Nat → σ × Nat

/-- Loop state: `cursor`, `prevCur` and `codeAddrIdx` of the Go loop. -/
structure WalkState (σ : Type) where
  cursor : Nat
  prevCur : Nat
  idx : Nat
  acc : σ

def caAt {σ : Type} (c : WalkCfg σ) (i : Nat) : Nat := c.codeAddrs.getD i 0

def initWalkState {σ : Type} (c : WalkCfg σ) (a : σ) : WalkState σ :=
  ⟨c.offset, c.offset, 0, a⟩

/-- The cursor pull-back at the top of the loop: if the cursor overstepped
the next forced code address (and the previous cursor was before it), snap
the cursor to that address and advance the index. -/
def walkSnap {σ : Type} (c : WalkCfg σ) (s : WalkState σ) : Nat × Nat :=
  if s.idx < c.codeAddrs.length ∧ s.prevCur < caAt c s.idx ∧ caAt c s.idx ≤ s.cursor then
    (caAt c s.idx, s.idx + 1)
  else
    (s.cursor, s.idx)

/-- One iteration of the `walk` loop body (after the loop condition):
snap, opcode lookup, the boundary-straddle skip for masks without
`vtData`, or a visitor invocation. -/
def walkStep {σ : Type} (c : WalkCfg σ) (s : WalkState σ) : WalkState σ :=
  let cursor := (walkSnap c s).1
  let idx := (walkSnap c s).2
  match opCodesMap (c.program.getD cursor 0) with
  | some op =>
    if idx < c.codeAddrs.length ∧ caAt c idx ≤ cursor + op.length ∧ c.visitData = false then
      ⟨caAt c idx, cursor, idx, s.acc⟩
    else
      let r := c.visit s.acc cursor idx
      ⟨cursor + r.2, cursor, idx, r.1⟩
  | none =>
    let r := c.visit s.acc cursor idx
    ⟨cursor + r.2, cursor, idx, r.1⟩

/-- One-iteration-per-fuel-unit embedding of the `walk` loop of
`disassemble.go`.  `none` means the fuel ran out before the loop finished,
so termination of the Go loop is the statement that some fuel yields
`some`. -/
def walkFuel {σ : Type} (c : WalkCfg σ) : Nat → WalkState σ → Option σ
  | 0, _ => none
  | fuel + 1, s =>
    if s.cursor < c.offset + c.maxBytes then walkFuel c fuel (walkStep c s)
    else some s.acc

/-- The Go loop terminates from a state iff some fuel suffices. -/
def WalkTerminates {σ : Type} (c : WalkCfg σ) (s : WalkState σ) : Prop :=
  ∃ fuel, (walkFuel c fuel s).isSome

/-! ## Pass 1: `findBranchTargets` -/

/-- Accumulated pass-1 state: the reachable-instruction set `iloc`, the
registered branch/jump targets (in discovery order, registered once), and
the used OS call/vector address sets. -/
structure Pass1Acc where
  iloc : List Nat
  targets : List Nat
  usedOSAddress : List Nat
  usedOSVector : List Nat
  deriving DecidableEq, Repr

/-- Insert into a Go map-as-set: a no-op when already present. -/
def setInsert (l : List Nat) (x : Nat) : List Nat :=
  if x ∈ l then l else l ++ [x]

/-- The visitor `findBranchTargets` passes to `walk` (code-only mask). -/
def pass1Visit (program : List Nat) (branchAdjust : Nat) (a : Pass1Acc)
    (cursor _idx : Nat) : Pass1Acc × Nat :=
  let a := { a with iloc := setInsert a.iloc ((cursor + branchAdjust) % W) }
  match opCodesMap (program.getD cursor 0) with
  | some op =>
    let instruction := (program.drop cursor).take op.length
    let a :=
      match branchOrJump op with
      | .branch =>
        { a with targets := setInsert a.targets (branchTarget instruction cursor branchAdjust op.length) }
      | .jump =>
        if program.getD cursor 0 ≠ OpJMPIndirect then
          let tgt := instruction.getD 2 0 * 256 + instruction.getD 1 0
          let a := { a with targets := setInsert a.targets tgt }
          if (tblLookup addressToOsCallName tgt).isSome then
            { a with usedOSAddress := setInsert a.usedOSAddress tgt }
          else a
        else a
      | .neither =>
        if op.addrMode == .Absolute then
          let tgt := instruction.getD 2 0 * 256 + instruction.getD 1 0
          if (tblLookup osVectorAddresses tgt).isSome then
            { a with usedOSVector := setInsert a.usedOSVector tgt }
          else a
        else a
    (a, instruction.length)
  | none => (a, 1)

/-- `sort.Ints` on the registered target addresses. -/
def sortNats (l : List Nat) : List Nat := l.insertionSort (· ≤ ·)

/-- Result of `findBranchTargets`: the final `branchTargets` table is the
sorted list `btKeys` (index of an address = its label index).
`rawTargets` additionally records the registered targets before the
reachability filter (the pre-filter contents of `d.branchTargets`), for
specification purposes. -/
structure Pass1Result where
  iloc : List Nat
  rawTargets : List Nat
  btKeys : List Nat
  usedOSAddress : List Nat
  usedOSVector : List Nat
  deriving DecidableEq, Repr

def pass1Cfg (program : List Nat) (offset maxBytes branchAdjust : Nat)
    (codeAddrs : List Nat) : WalkCfg Pass1Acc :=
  ⟨program, offset, maxBytes, codeAddrs, false, pass1Visit program branchAdjust⟩

/-- `(*Disassembler).findBranchTargets`: run the code-only walk, drop
targets outside the reachable set, sort the survivors ascending (their
positions are the label indices). -/
def findBranchTargets (program : List Nat) (offset maxBytes branchAdjust : Nat)
    (codeAddrs : List Nat) (fuel : Nat) : Option Pass1Result :=
  (walkFuel (pass1Cfg program offset maxBytes branchAdjust codeAddrs) fuel
      (initWalkState (pass1Cfg program offset maxBytes branchAdjust codeAddrs) ⟨[], [], [], []⟩)).map fun a =>
    ⟨a.iloc, a.targets, sortNats (a.targets.filter (fun t => a.iloc.contains t)),
     a.usedOSAddress, a.usedOSVector⟩

/-! ## Pass 2: the rendering visitor of `Disassemble` -/

/-- What kind of line the pass-2 visitor emits for one visited position
(the column formatting of the line is not modelled; the classification,
the mnemonic/operand text and the consumed bytes are). -/
inductive RenderedLine where
  | instr (name operand : String) (bytes : List Nat)
  | dataDoc (bytes : List Nat)
  | dataUndoc (bytes : List Nat) (name : String)
  | dataByte (b : Nat)
  deriving DecidableEq, Repr

/-- One pass-2 visit: the label (if any) emitted before the line, the
line itself. -/
structure Pass2Out where
  label : Option Nat
  line : RenderedLine
  deriving DecidableEq, Repr

/-- The visitor the second pass of `(*Disassembler).Disassemble` passes to
`walk` (full mask), returning the rendered line and the advance. -/
def pass2Visit (program : List Nat) (branchAdjust : Nat) (vars : Vars)
    (bt : List Nat) (codeAddrs : List Nat) (cursor idx : Nat) : Pass2Out × Nat :=
  let lbl := btLookup bt ((cursor + branchAdjust) % W)
  match opCodesMap (program.getD cursor 0) with
  | some op =>
    let instruction := (program.drop cursor).take op.length
    let doc := isOpcodeDocumented op
    let wai := willAssembleIdentically op instruction
    let straddles := decide (idx < codeAddrs.length ∧ codeAddrs.getD idx 0 ≤ cursor + op.length)
    if doc && wai && !straddles then
      (⟨lbl, .instr op.name (decode vars bt branchAdjust op instruction cursor) instruction⟩, op.length)
    else
      let instruction := if straddles then instruction.take (codeAddrs.getD idx 0 - cursor) else instruction
      (⟨lbl, if doc then .dataDoc instruction else .dataUndoc instruction op.name⟩, instruction.length)
  | none => (⟨lbl, .dataByte (program.getD cursor 0)⟩, 1)

def pass2Cfg (program : List Nat) (offset maxBytes branchAdjust : Nat)
    (vars : Vars) (bt : List Nat) (codeAddrs : List Nat) : WalkCfg (List Pass2Out) :=
  ⟨program, offset, maxBytes, codeAddrs, true, fun acc cursor idx =>
    let r := pass2Visit program branchAdjust vars bt codeAddrs cursor idx
    (acc ++ [r.1], r.2)⟩

/-! ## `AddVar` and the Go standard library's `strconv.ParseInt`

`AddVar` lives in `disassemble.go`; the number parsing it delegates to is
`strconv.ParseInt(value, base, 0)` from the Go standard library (base `0`
for unprefixed values, base `16` for `&`-prefixed ones), embedded here
following that function's documented behaviour on a 64-bit platform:
base `0` infers the base from a `0b`/`0o`/`0x`/leading-`0` prefix,
underscores are permitted between digits only for base `0`, and values
outside `int64` are range errors. -/

inductive NumErr where
  | invalid
  | range
  deriving DecidableEq, Repr

/-- Go's `lower(c) = c | ('x' - 'X')` on a byte. `strconv` works on the
bytes of its argument, so the parser below takes byte values (codepoints;
identical for the ASCII inputs involved). -/
def lowerB (b : Nat) : Nat := b ||| 0x20

/-- Digit value as computed in the `ParseUint` loop (`0-9`, then letters;
`48 = '0'`, `57 = '9'`, `97 = 'a'`, `122 = 'z'`). -/
def goDigitVal (b : Nat) : Option Nat :=
  if 48 ≤ b ∧ b ≤ 57 then some (b - 48)
  else if 97 ≤ lowerB b ∧ lowerB b ≤ 122 then some (lowerB b - 97 + 10)
  else none

/-- The digit-accumulation loop of `ParseUint` (64-bit `maxVal`), also
recording whether any underscore (`95`) was seen. -/
def parseUintLoop (base maxVal : Nat) (base0 : Bool) :
    List Nat → Nat → Bool → Except NumErr (Nat × Bool)
  | [], n, under => .ok (n, under)
  | b :: bs, n, under =>
    if b = 95 then
      if base0 then parseUintLoop base maxVal base0 bs n true
      else .error .invalid
    else
      match goDigitVal b with
      | none => .error .invalid
      | some d =>
        if base ≤ d then .error .invalid
        else if maxVal / base + 1 ≤ n then .error .range
        else if maxVal < n * base + d then .error .range
        else parseUintLoop base maxVal base0 bs (n * base + d) under

/-- `underscoreOK` of `strconv`: underscores only between digits (or after
a base marker).  `saw` is `94 = '^'` initially, then `48 = '0'` after a
digit, `95 = '_'` after an underscore, `33 = '!'` otherwise. -/
def underscoreScan (hex : Bool) : List Nat → Nat → Bool
  | [], saw => decide (saw ≠ 95)
  | b :: bs, saw =>
    if (48 ≤ b ∧ b ≤ 57) ∨ (hex ∧ 97 ≤ lowerB b ∧ lowerB b ≤ 102) then
      underscoreScan hex bs 48
    else if b = 95 then
      if saw = 48 then underscoreScan hex bs 95 else false
    else
      underscoreScan hex bs 33

def underscoreOKBytes (l : List Nat) : Bool :=
  let l1 := match l with
    | b :: rest => if b = 45 ∨ b = 43 then rest else l
    | [] => l
  match l1 with
  | b0 :: b1 :: rest2 =>
    if b0 = 48 ∧ (lowerB b1 = 98 ∨ lowerB b1 = 111 ∨ lowerB b1 = 120) then
      underscoreScan (lowerB b1 = 120) rest2 48
    else
      underscoreScan false l1 94
  | _ => underscoreScan false l1 94

/-- `strconv.ParseUint(s, base, 64)` on bytes (only bases `0` and `16`
are ever used by `AddVar`); the base markers are `98 = 'b'`,
`111 = 'o'`, `120 = 'x'` after lowering. -/
def goParseUintBytes (bs : List Nat) (base : Nat) : Except NumErr Nat :=
  if bs = [] then .error .invalid
  else
    let base0 := base == 0
    let pre : Nat × List Nat :=
      if 2 ≤ base ∧ base ≤ 36 then (base, bs)
      else
        match bs with
        | [] => (10, bs)
        | b0 :: rest0 =>
          if b0 = 48 then
            match rest0 with
            | [] => (8, [])
            | b1 :: rest =>
              if rest ≠ [] ∧ lowerB b1 = 98 then (2, rest)
              else if rest ≠ [] ∧ lowerB b1 = 111 then (8, rest)
              else if rest ≠ [] ∧ lowerB b1 = 120 then (16, rest)
              else (8, b1 :: rest)
          else (10, bs)
    match parseUintLoop pre.1 (2 ^ 64 - 1) base0 pre.2 0 false with
    | .error e => .error e
    | .ok (n, under) =>
      if under && !underscoreOKBytes bs then .error .invalid else .ok n

/-- `strconv.ParseInt(s, base, 0)` on a 64-bit platform: optional sign
(`43 = '+'`, `45 = '-'`), unsigned parse, `int64` range check. -/
def goParseInt (s : List Char) (base : Nat) : Except NumErr Int :=
  let bs := s.map Char.toNat
  if bs = [] then .error .invalid
  else
    let signRest : Bool × List Nat :=
      match bs with
      | [] => (false, bs)
      | b :: r =>
        if b = 43 then (false, r)
        else if b = 45 then (true, r)
        else (false, bs)
    match goParseUintBytes signRest.2 base with
    | .error e => .error e
    | .ok un =>
      if !signRest.1 ∧ 2 ^ 63 ≤ un then .error .range
      else if signRest.1 ∧ 2 ^ 63 < un then .error .range
      else .ok (if signRest.1 then -(un : Int) else (un : Int))

/-- The value the `ParseUint` digit loop accumulates when no error branch
fires (claim C8). -/
def digitsVal (base : Nat) : List Nat → Nat → Nat
  | [], n => n
  | b :: bs, n => digitsVal base bs (n * base + (goDigitVal b).getD 0)

/-- `strings.Trim(value, "&")`: remove leading and trailing `&`s. -/
def trimAmp (l : List Char) : List Char :=
  (((l.dropWhile (· == '&')).reverse).dropWhile (· == '&')).reverse

/-- Insert into the Go map `d.vars` (overwriting an existing key). -/
def mapInsert (vars : Vars) (name : String) (v : VarDef) : Vars :=
  if vars.any (fun p => p.1 == name) then
    vars.map (fun p => if p.1 == name then (name, v) else p)
  else
    vars ++ [(name, v)]

/-- Outcome of `(*Disassembler).AddVar`: `crash` is the Go runtime panic
from indexing `value[0]` on an empty string; `failed` returns the parse
error with the variable table untouched; `ok` records the variable. -/
inductive AddVarOutcome where
  | crash
  | failed
  | ok (vars : Vars)
  deriving DecidableEq, Repr

/-- `(*Disassembler).AddVar` of `disassemble.go`. -/
def addVar (vars : Vars) (name value : String) : AddVarOutcome :=
  match value.data with
  | [] => .crash
  | c :: _ =>
    let p : List Char × Nat :=
      if c = '&' then (trimAmp value.data, 16) else (value.data, 0)
    match goParseInt p.1 p.2 with
    | .error _ => .failed
    | .ok ival => .ok (mapInsert vars name ⟨value, (ival.emod (W : Int)).toNat⟩)

/-! ## The companion assembler

Modelled from the spec: the engine's output is "intended to be fed into a
companion assembler to reproduce the original bytes" (beebasm).  The
assembler itself is not part of this repository, so it is modelled from
the spec's description: it parses a mnemonic and operand text, resolves
symbols against the definitions in scope (header definitions and label
lines), treats `P%` as the current assembly position, auto-folds an
absolute-form operand below `&100` to the zero-page form when the
mnemonic has one (spec section 4.4), and encodes branches relative to the
address after the instruction. -/

def hexDigitVal (c : Char) : Option Nat :=
  if 48 ≤ c.toNat ∧ c.toNat ≤ 57 then some (c.toNat - 48)
  else if 65 ≤ c.toNat ∧ c.toNat ≤ 70 then some (c.toNat - 65 + 10)
  else if 97 ≤ c.toNat ∧ c.toNat ≤ 102 then some (c.toNat - 97 + 10)
  else none

def hexParseAux : List Char → Nat → Option Nat
  | [], n => some n
  | c :: cs, n => (hexDigitVal c).bind fun d => hexParseAux cs (n * 16 + d)

def hexParseChars (l : List Char) : Option Nat :=
  if l.isEmpty then none else hexParseAux l 0

def decDigitVal (c : Char) : Option Nat :=
  if 48 ≤ c.toNat ∧ c.toNat ≤ 57 then some (c.toNat - 48) else none

def decParseAux : List Char → Nat → Option Nat
  | [], n => some n
  | c :: cs, n => (decDigitVal c).bind fun d => decParseAux cs (n * 10 + d)

def decParseChars (l : List Char) : Option Nat :=
  if l.isEmpty then none else decParseAux l 0

/-- Split at the first occurrence of a character. -/
def splitOnce (ch : Char) : List Char → Option (List Char × List Char)
  | [] => none
  | c :: cs =>
    if c = ch then some ([], cs)
    else (splitOnce ch cs).map (fun p => (c :: p.1, p.2))

/-- Strip a suffix when present. -/
def dropSuffixChars (suf l : List Char) : Option (List Char) :=
  if suf.isSuffixOf l then some (l.take (l.length - suf.length)) else none

/-- Modelled from the spec: the symbol environment the emitted text
defines.  The header defines the referenced OS-call names (restricted to
`usedOSAddress`), the referenced OS-vector names (restricted to
`usedOSVector`) and the user variables; label lines define `label_i` at
the i-th smallest branch-target address. -/
def envOfHeader (osUsed vecUsed : List Nat) (bt : List Nat) (vars : Vars)
    (s : String) : Option Nat :=
  match (addressToOsCallName.find? (fun p => p.2 == s && osUsed.contains p.1)).map (fun p => p.1) with
  | some v => some v
  | none =>
  match (osVectorAddresses.find? (fun p => p.2 == s && vecUsed.contains p.1)).map (fun p => p.1) with
  | some v => some v
  | none =>
  if s.data.take 6 = ['l', 'a', 'b', 'e', 'l', '_'] then
    match decParseChars (s.data.drop 6) with
    | some i => bt.get? i
    | none => (vars.find? (fun p => p.1 == s)).map (fun p => p.2.ival)
  else (vars.find? (fun p => p.1 == s)).map (fun p => p.2.ival)

/-- The symbol environment with every OS-call and OS-vector name defined
(what the header would define if no referenced name were omitted). -/
def envFull (bt : List Nat) (vars : Vars) (s : String) : Option Nat :=
  envOfHeader (addressToOsCallName.map (fun p => p.1))
    (osVectorAddresses.map (fun p => p.1)) bt vars s

/-- Modelled from the spec: evaluate one operand term — a `P%`-relative
expression, a `&`-hex literal, a symbol, or a symbol plus `+1`. -/
def parseTerm (env : String → Option Nat) (pc : Nat) (l : List Char) : Option Int :=
  if l.take 3 = ['P', '%', '+'] then (decParseChars (l.drop 3)).map fun d => (pc : Int) + d
  else if l.take 3 = ['P', '%', '-'] then (decParseChars (l.drop 3)).map fun d => (pc : Int) - d
  else if l.take 2 = ['P', '%'] then none
  else if l.headD ' ' = '&' then (hexParseChars l.tail).map fun v => (v : Int)
  else
    match splitOnce '+' l with
    | none => (env (String.mk l)).map fun v => (v : Int)
    | some (a, b) =>
      if b = ['1'] then (env (String.mk a)).map fun v => (v : Int) + 1 else none

/-- Syntactic operand shapes recognized by the assembler model. -/
inductive OperandShape where
  | noOperand
  | acc
  | imm
  | indY
  | indX
  | ind
  | absX
  | absY
  | abs
  deriving DecidableEq, Repr

/-- Modelled from the spec: classify the operand text into a shape and
evaluate its term. -/
def asmOperandParse (env : String → Option Nat) (pc : Nat) (l : List Char) :
    Option (OperandShape × Int) :=
  if l = [] then some (.noOperand, 0)
  else if l = ['A'] then some (.acc, 0)
  else if l.headD ' ' = '#' then (parseTerm env pc l.tail).map (fun v => (.imm, v))
  else if l.headD ' ' = '(' then
    match dropSuffixChars [')', ',', 'Y'] l.tail with
    | some inner => (parseTerm env pc inner).map (fun v => (.indY, v))
    | none =>
    match dropSuffixChars [',', 'X', ')'] l.tail with
    | some inner => (parseTerm env pc inner).map (fun v => (.indX, v))
    | none =>
    match dropSuffixChars [')'] l.tail with
    | some inner => (parseTerm env pc inner).map (fun v => (.ind, v))
    | none => none
  else
    match dropSuffixChars [',', 'X'] l with
    | some inner => (parseTerm env pc inner).map (fun v => (.absX, v))
    | none =>
    match dropSuffixChars [',', 'Y'] l with
    | some inner => (parseTerm env pc inner).map (fun v => (.absY, v))
    | none => (parseTerm env pc l).map (fun v => (.abs, v))

def hasMode (name : String) (m : AddressingMode) : Bool :=
  opCodes.any (fun o => o.addrMode == m && o.name == name)

def findOp (name : String) (m : AddressingMode) : Option Opcode :=
  opCodes.find? (fun o => o.addrMode == m && o.name == name)

open AddressingMode in
/-- Modelled from the spec: pick the addressing mode for a shape, folding
absolute-form operands below `&100` to the zero-page form when the
mnemonic supports it (spec section 4.4). -/
def shapeToMode (name : String) (sh : OperandShape) (v : Int) : AddressingMode :=
  match sh with
  | .noOperand => NoMode
  | .acc => Accumulator
  | .imm => Immediate
  | .indY => IndirectY
  | .indX => IndirectX
  | .ind => if v < 0x100 ∧ hasMode name IndirectZP then IndirectZP else Indirect
  | .absX => if v < 0x100 ∧ hasMode name ZeroPageX then ZeroPageX else AbsoluteX
  | .absY => if v < 0x100 ∧ hasMode name ZeroPageY then ZeroPageY else AbsoluteY
  | .abs => if v < 0x100 ∧ hasMode name ZeroPage then ZeroPage else Absolute

open AddressingMode in
def operandByteCount : AddressingMode → Nat
  | NoMode => 0
  | Accumulator => 0
  | Immediate => 1
  | ZeroPage => 1
  | ZeroPageX => 1
  | ZeroPageY => 1
  | IndirectX => 1
  | IndirectY => 1
  | IndirectZP => 1
  | ZeroPageRel => 2
  | Absolute => 2
  | AbsoluteX => 2
  | AbsoluteY => 2
  | Indirect => 2

/-- Operand bytes for a mode (little-endian for two-byte operands);
out-of-range values are assembly errors. -/
def encodeOperand (m : AddressingMode) (v : Int) : Option (List Nat) :=
  if v < 0 then none
  else
    let n := v.toNat
    if operandByteCount m = 0 then some []
    else if operandByteCount m = 1 then
      if n < 0x100 then some [n] else none
    else
      if n < 0x10000 then some [n % 256, n / 256] else none

/-- Modelled from the spec: assemble one rendered instruction line.
`pc` is the assembler's current position `P%` for the line.  Branch
mnemonics take a target expression (with a leading zero-page byte for the
three-byte forms) and encode the displacement relative to the address
after the instruction; every other mnemonic is encoded from its operand
shape via the opcode table. -/
def asmInstr (env : String → Option Nat) (pc : Nat) (name operand : String) :
    Option (List Nat) :=
  if branchInstructions.contains name then
    match opCodes.find? (fun o => o.name == name) with
    | none => none
    | some op =>
      if op.length == 3 then
        match splitOnce ',' operand.data with
        | some (zpPart, tgtPart) =>
          if zpPart.headD ' ' = '&' then
            (hexParseChars zpPart.tail).bind fun zp =>
              if zp < 0x100 then
                (parseTerm env pc tgtPart).map fun t =>
                  [op.value, zp, ((t - ((pc : Int) + 3)).emod 256).toNat]
              else none
          else none
        | none => none
      else
        (parseTerm env pc operand.data).map fun t =>
          [op.value, ((t - ((pc : Int) + 2)).emod 256).toNat]
  else
    match asmOperandParse env pc operand.data with
    | none => none
    | some sv =>
      let m := shapeToMode name sv.1 sv.2
      match findOp name m with
      | none => none
      | some op => (encodeOperand m sv.2).map fun bs => op.value :: bs

/-- Identifier-shaped variable names that cannot be confused with the
assembler's other operand syntax: they start with a letter, consist of
letters, digits and underscores, and are not `A`, not `label_`-prefixed,
and not an OS-call or OS-vector name. -/
def goodVarName (s : String) : Bool :=
  (match s.data with
   | [] => false
   | c :: _ => c.isAlpha) &&
  s.data.all (fun c => c.isAlpha || c.isDigit || c == '_') &&
  s != "A" &&
  s.data.take 6 != ['l', 'a', 'b', 'e', 'l', '_'] &&
  addressToOsCallName.all (fun p => p.2 != s) &&
  osVectorAddresses.all (fun p => p.2 != s)

/-! ## Claim-side definitions

These definitions transcribe the spec's words (not the code) where a claim
needs a spec-side reading to compare the code against. -/

/-- The spec's notion of an instruction's byte range *crossing* a forced
code address: the address falls strictly inside `[cursor, cursor+len)`. -/
def crossesForcedAddr (cursor len ca : Nat) : Prop :=
  cursor < ca ∧ ca < cursor + len

instance (cursor len ca : Nat) : Decidable (crossesForcedAddr cursor len ca) := by
  unfold crossesForcedAddr; infer_instance

/-- Claim C6's resolution chain for a numeric operand value: OS-vector
base name, then OS-vector name `+1` for the value with its low bit
cleared, then a user variable matched by value, then the given literal
hexadecimal rendering. -/
def claimResolveCore (vars : Vars) (val : Nat) (hexChars : List Char) : String :=
  match tblLookup osVectorAddresses val with
  | some osv => osv
  | none =>
    match tblLookup osVectorAddresses (clearBit0 val) with
    | some osv => osv ++ "+1"
    | none =>
      match lookupVar vars val with
      | some dvar => dvar
      | none => String.mk hexChars

open AddressingMode in
/-- Claim C6 as stated: every absolute or zero-page numeric operand (in
any of the operand-carrying addressing modes) goes through the resolution
chain, with the mode-specific suffix attached. -/
def claimDecodeOperand (vars : Vars) (m : AddressingMode) (bytes : List Nat) : String :=
  let val16 := bytes.getD 2 0 * 256 + bytes.getD 1 0
  let val8 := bytes.getD 1 0
  match m with
  | Absolute => claimResolveCore vars val16 ('&' :: hex4Chars val16)
  | AbsoluteX => claimResolveCore vars val16 ('&' :: hex4Chars val16) ++ ",X"
  | AbsoluteY => claimResolveCore vars val16 ('&' :: hex4Chars val16) ++ ",Y"
  | Indirect => "(" ++ claimResolveCore vars val16 ('&' :: hex4Chars val16) ++ ")"
  | ZeroPage => claimResolveCore vars val8 ('&' :: hex2Chars val8)
  | ZeroPageX => claimResolveCore vars val8 ('&' :: hex2Chars val8) ++ ",X"
  | ZeroPageY => claimResolveCore vars val8 ('&' :: hex2Chars val8) ++ ",Y"
  | IndirectX => "(" ++ claimResolveCore vars val8 ('&' :: hex2Chars val8) ++ ",X)"
  | IndirectY => "(" ++ claimResolveCore vars val8 ('&' :: hex2Chars val8) ++ "),Y"
  | IndirectZP => "(" ++ claimResolveCore vars val8 ('&' :: hex2Chars val8) ++ ")"
  | _ => ""

/-- The variable-then-literal tail of the chain (no OS-vector steps). -/
def varOrHex (vars : Vars) (val : Nat) (hexChars : List Char) : String :=
  match lookupVar vars val with
  | some dvar => dvar
  | none => String.mk hexChars

open AddressingMode in
/-- Claim C6 as amended: the OS-vector steps of the chain apply only to
plain `Absolute`-mode operands; every other operand-carrying mode
resolves by user variable then literal hexadecimal, with the
mode-specific suffix. -/
def amendedDecodeOperand (vars : Vars) (m : AddressingMode) (bytes : List Nat) : String :=
  let val16 := bytes.getD 2 0 * 256 + bytes.getD 1 0
  let val8 := bytes.getD 1 0
  match m with
  | Absolute => claimResolveCore vars val16 ('&' :: hex4Chars val16)
  | AbsoluteX => varOrHex vars val16 ('&' :: hex4Chars val16) ++ ",X"
  | AbsoluteY => varOrHex vars val16 ('&' :: hex4Chars val16) ++ ",Y"
  | Indirect => "(" ++ varOrHex vars val16 ('&' :: hex4Chars val16) ++ ")"
  | ZeroPage => varOrHex vars val8 ('&' :: hex2Chars val8)
  | ZeroPageX => varOrHex vars val8 ('&' :: hex2Chars val8) ++ ",X"
  | ZeroPageY => varOrHex vars val8 ('&' :: hex2Chars val8) ++ ",Y"
  | IndirectX => "(" ++ varOrHex vars val8 ('&' :: hex2Chars val8) ++ ",X)"
  | IndirectY => "(" ++ varOrHex vars val8 ('&' :: hex2Chars val8) ++ "),Y"
  | IndirectZP => "(" ++ varOrHex vars val8 ('&' :: hex2Chars val8) ++ ")"
  | _ => ""

/-- Two's-complement reading of a byte value as a signed 8-bit integer
(claim C5's wording for the branch displacement). -/
def signed8 (b : Nat) : Int :=
  if 127 < b then (b : Int) - 256 else (b : Int)

/-- The operand byte a branch instruction reads: the second byte of a
2-byte encoding, the third byte of a 3-byte encoding. -/
def branchOperandByte (instruction : List Nat) (length : Nat) : Nat :=
  if length == 3 then instruction.getD 2 0 else instruction.getD 1 0

/-- Claim C9's notion of a pass-1 event that marks an OS vector used: a
non-branch non-jump opcode with `Absolute` addressing whose little-endian
16-bit operand equals the address in question. -/
def absoluteVectorUseAt (program : List Nat) (cursor x : Nat) : Prop :=
  ∃ op, opCodesMap (program.getD cursor 0) = some op ∧
    branchOrJump op = .neither ∧ op.addrMode = .Absolute ∧
    ((program.drop cursor).take op.length).getD 2 0 * 256 +
      ((program.drop cursor).take op.length).getD 1 0 = x

/-- Loop invariant of the walk (claim C3): the index never exceeds the
forced-address count, and the previous cursor lies before the next forced
address. -/
def walkInv {σ : Type} (c : WalkCfg σ) (s : WalkState σ) : Prop :=
  s.idx ≤ c.codeAddrs.length ∧
  (s.idx < c.codeAddrs.length → s.prevCur < caAt c s.idx)

/-- Termination measure of the walk (claim C3): iterations either advance
the forced-address index or strictly advance the cursor. -/
def walkMeasure {σ : Type} (c : WalkCfg σ) (s : WalkState σ) : Nat :=
  (c.codeAddrs.length - s.idx) * (c.offset + c.maxBytes + 1) +
    (c.offset + c.maxBytes - s.cursor)

/-- Claim C8's notion of a decimal literal: one or more decimal digits
(byte values `48`–`57`). -/
def isDecimalLiteral (s : String) : Prop :=
  s.data ≠ [] ∧ ∀ c ∈ s.data, 48 ≤ c.toNat ∧ c.toNat ≤ 57

instance (s : String) : Decidable (isDecimalLiteral s) := by
  unfold isDecimalLiteral; infer_instance

/-- The number a decimal literal denotes when read as decimal. -/
def decimalValue (s : String) : Option Nat := decParseChars s.data

/-- The parse `AddVar` performs, factored out: base 16 on the `&`-trimmed
text for `&`-prefixed values, base 0 otherwise (empty values crash before
parsing and are not covered). -/
def addVarParse (value : String) : Except NumErr Int :=
  match value.data with
  | [] => .error .invalid
  | c :: _ =>
    if c = '&' then goParseInt (trimAmp value.data) 16 else goParseInt value.data 0

/-! # Theorems -/

/-! ## C7: the fidelity check -/

/-- **C7.** `willAssembleIdentically` returns `false` exactly when the
opcode's addressing mode is `Absolute`, `AbsoluteX` or `AbsoluteY` and the
little-endian 16-bit operand is below 256; and the instruction
`6D 10 00` (whose operand `&0010` is below `&100`) is rendered by the
pass-2 visitor as a data directive, never as an instruction. -/
theorem c7_willAssembleIdentically_characterization :
    (∀ (op : Opcode) (instruction : List Nat),
      willAssembleIdentically op instruction = false ↔
        ((op.addrMode = .Absolute ∨ op.addrMode = .AbsoluteX ∨ op.addrMode = .AbsoluteY) ∧
          instruction.getD 2 0 * 256 + instruction.getD 1 0 < 0x100)) ∧
    pass2Visit [0x6D, 0x10, 0x00] 0 [] [] [] 0 0 =
      (⟨none, .dataDoc [0x6D, 0x10, 0x00]⟩, 3) := by
  constructor
  · intro op instruction
    rcases op with ⟨v, n, len, m⟩
    cases m <;> simp [willAssembleIdentically]
  · decide

/-! ## C10: `AddVar` panic behaviour -/

/-- **C10.** For every non-empty value string `AddVar` either records the
variable or returns a parse error, never panicking; for the empty value
string it panics (out-of-range index on `value[0]`) instead of returning
a parse error. -/
theorem c10_addVar_crash_characterization :
    (∀ (vars : Vars) (name value : String), value ≠ "" →
        addVar vars name value ≠ .crash) ∧
    (∀ (vars : Vars) (name : String), addVar vars name "" = .crash) := by
  constructor
  · intro vars name value hne
    cases hv : value.data with
    | nil => exact absurd (String.ext (hv.trans rfl)) hne
    | cons c cs =>
      simp only [addVar, hv]
      split <;> simp
  · intro vars name
    rfl

/-- Witness for C10 at a concrete input. -/
theorem c10_addVar_crash_characterization_witness :
    (("5" : String) ≠ "" ∧ addVar [] "V" "5" ≠ .crash) ∧
      addVar [] "V" "" = .crash :=
  ⟨⟨by decide, c10_addVar_crash_characterization.1 [] "V" "5" (by decide)⟩,
   c10_addVar_crash_characterization.2 [] "V"⟩

/-! ## C5: branch-target arithmetic in pass 1 -/

/-- The Go `uint` expression `cursor + uint(boff) + branchAdjust` equals
the mathematical sum `cursor + adjust + length + signed operand` reduced
modulo `2^64`. -/
theorem branchTarget_eq (bytes : List Nat) (cursor adjust len : Nat) :
    branchTarget bytes cursor adjust len =
      (((cursor : Int) + adjust + len +
        signed8 (branchOperandByte bytes len)).emod (W : Int)).toNat := by
  have hso : signedOffsetOf bytes len = signed8 (branchOperandByte bytes len) + len := rfl
  unfold branchTarget
  rw [hso]
  have hW : (W : Int) = 18446744073709551616 := by norm_num [W]
  have hWn : W = 18446744073709551616 := by norm_num [W]
  rw [hW, hWn]
  generalize signed8 (branchOperandByte bytes len) = s
  have h0 : 0 ≤ (s + (len : Int)).emod 18446744073709551616 :=
    Int.emod_nonneg _ (by norm_num)
  have h1 : (s + (len : Int)).emod 18446744073709551616 < 18446744073709551616 :=
    Int.emod_lt_of_pos _ (by norm_num)
  have h2 : (18446744073709551616 : Int) ∣
      (s + (len : Int)) - (s + (len : Int)).emod 18446744073709551616 :=
    Int.dvd_sub_of_emod_eq rfl
  have h0' : 0 ≤ ((cursor : Int) + adjust + len + s).emod 18446744073709551616 :=
    Int.emod_nonneg _ (by norm_num)
  have h1' : ((cursor : Int) + adjust + len + s).emod 18446744073709551616 <
      18446744073709551616 :=
    Int.emod_lt_of_pos _ (by norm_num)
  have h2' : (18446744073709551616 : Int) ∣
      ((cursor : Int) + adjust + len + s) -
        ((cursor : Int) + adjust + len + s).emod 18446744073709551616 :=
    Int.dvd_sub_of_emod_eq rfl
  omega

/-- **C5.** For every branch opcode visited in pass 1, the registered
absolute target equals cursor + load adjustment + instruction length +
the operand byte interpreted as a signed 8-bit two's-complement value
(the sum taken in Go `uint` arithmetic, i.e. modulo `2^64`), where the
operand byte is the second byte of a 2-byte encoding and the third byte
of a 3-byte encoding; the target is registered into the branch-target
set (a no-op when already present). -/
theorem c5_branch_registers_relative_target (program : List Nat)
    (branchAdjust cursor idx : Nat) (a : Pass1Acc) (op : Opcode)
    (hop : opCodesMap (program.getD cursor 0) = some op)
    (hbr : branchOrJump op = .branch) :
    (pass1Visit program branchAdjust a cursor idx).1.targets =
      setInsert a.targets
        ((((cursor : Int) + branchAdjust + op.length +
          signed8 (branchOperandByte ((program.drop cursor).take op.length) op.length)).emod
            (W : Int)).toNat) := by
  rw [← branchTarget_eq]
  simp only [pass1Visit, hop, hbr]

/-- Witness for C5: a backward `BCC` (`90 FE`) at cursor 0 registers
target 0 (= 0 + 0 + 2 + (-2)). -/
theorem c5_branch_registers_relative_target_witness :
    (opCodesMap ([0x90, 0xFE].getD 0 0) = some ⟨0x90, "BCC", 2, .NoMode⟩ ∧
      branchOrJump ⟨0x90, "BCC", 2, .NoMode⟩ = .branch) ∧
    (pass1Visit [0x90, 0xFE] 0 ⟨[], [], [], []⟩ 0 0).1.targets = [0] := by
  refine ⟨⟨by decide, by decide⟩, ?_⟩
  rw [c5_branch_registers_relative_target [0x90, 0xFE] 0 0 0 ⟨[], [], [], []⟩
      ⟨0x90, "BCC", 2, .NoMode⟩ (by decide) (by decide)]
  decide

/-! ## C2: the render/demote decision of pass 2 -/

/-- **C2 (counterexample).** At program `A9 05` with forced code address
2, the decoded `LDA #&05` occupies bytes 0-1, so its byte range does not
cross the forced address (it ends exactly there); the opcode is
recognized, documented and fidelity-safe, yet the visitor emits a data
directive — refuting the claimed if-and-only-if. -/
theorem c2_counterexample :
    opCodesMap ([0xA9, 0x05].getD 0 0) = some ⟨0xA9, "LDA", 2, .Immediate⟩ ∧
    isOpcodeDocumented ⟨0xA9, "LDA", 2, .Immediate⟩ = true ∧
    willAssembleIdentically ⟨0xA9, "LDA", 2, .Immediate⟩ [0xA9, 0x05] = true ∧
    ¬ crossesForcedAddr 0 2 2 ∧
    (pass2Visit [0xA9, 0x05] 0 [] [] [2] 0 0).1.line = .dataDoc [0xA9, 0x05] := by
  decide

/-- **C2 (amended).** For every visited position whose byte matches a
known opcode, an instruction line is rendered iff the opcode is
documented, `willAssembleIdentically` holds, and the instruction's byte
range ends strictly before the next forced code address (reaching the
forced address exactly already demotes to data); in every other
recognized-opcode case the bytes are emitted as a data directive,
truncated to end at the forced address when the range reaches or crosses
it, and consumption equals the (possibly truncated) byte count. -/
theorem c2_amended_render_characterization (program : List Nat) (branchAdjust : Nat)
    (vars : Vars) (bt codeAddrs : List Nat) (cursor idx : Nat) (op : Opcode)
    (hop : opCodesMap (program.getD cursor 0) = some op) :
    ((∃ nm opnd bs, (pass2Visit program branchAdjust vars bt codeAddrs cursor idx).1.line =
        .instr nm opnd bs) ↔
      (isOpcodeDocumented op = true ∧
       willAssembleIdentically op ((program.drop cursor).take op.length) = true ∧
       ¬(idx < codeAddrs.length ∧ codeAddrs.getD idx 0 ≤ cursor + op.length))) ∧
    (isOpcodeDocumented op = true →
     willAssembleIdentically op ((program.drop cursor).take op.length) = true →
     ¬(idx < codeAddrs.length ∧ codeAddrs.getD idx 0 ≤ cursor + op.length) →
      pass2Visit program branchAdjust vars bt codeAddrs cursor idx =
        (⟨btLookup bt ((cursor + branchAdjust) % W),
          .instr op.name
            (decode vars bt branchAdjust op ((program.drop cursor).take op.length) cursor)
            ((program.drop cursor).take op.length)⟩, op.length)) ∧
    (¬(isOpcodeDocumented op = true ∧
       willAssembleIdentically op ((program.drop cursor).take op.length) = true ∧
       ¬(idx < codeAddrs.length ∧ codeAddrs.getD idx 0 ≤ cursor + op.length)) →
      pass2Visit program branchAdjust vars bt codeAddrs cursor idx =
        (⟨btLookup bt ((cursor + branchAdjust) % W),
          (if isOpcodeDocumented op then
            RenderedLine.dataDoc
              (if idx < codeAddrs.length ∧ codeAddrs.getD idx 0 ≤ cursor + op.length then
                ((program.drop cursor).take op.length).take (codeAddrs.getD idx 0 - cursor)
              else (program.drop cursor).take op.length)
          else
            RenderedLine.dataUndoc
              (if idx < codeAddrs.length ∧ codeAddrs.getD idx 0 ≤ cursor + op.length then
                ((program.drop cursor).take op.length).take (codeAddrs.getD idx 0 - cursor)
              else (program.drop cursor).take op.length) op.name)⟩,
          (if idx < codeAddrs.length ∧ codeAddrs.getD idx 0 ≤ cursor + op.length then
            ((program.drop cursor).take op.length).take (codeAddrs.getD idx 0 - cursor)
          else (program.drop cursor).take op.length).length)) := by
  simp only [pass2Visit, hop]
  generalize hca : codeAddrs.getD idx 0 = ca
  by_cases hlt : idx < codeAddrs.length
  · by_cases hle : ca ≤ cursor + op.length
    · have h1 : ¬(cursor + op.length < ca) := Nat.not_lt.mpr hle
      cases hdoc : isOpcodeDocumented op <;>
        cases hwai : willAssembleIdentically op ((program.drop cursor).take op.length) <;>
          simp [hlt, hle, h1, hdoc, hwai]
    · have h1 : cursor + op.length < ca := Nat.not_le.mp hle
      cases hdoc : isOpcodeDocumented op <;>
        cases hwai : willAssembleIdentically op ((program.drop cursor).take op.length) <;>
          simp [hlt, hle, h1, hdoc, hwai]
  · have h1 : codeAddrs.length ≤ idx := Nat.not_lt.mp hlt
    cases hdoc : isOpcodeDocumented op <;>
      cases hwai : willAssembleIdentically op ((program.drop cursor).take op.length) <;>
        simp [hlt, h1, hdoc, hwai]

/-- Witness for C2 (amended) at a concrete input: `A9 05` whose byte
range reaches the forced code address 2 exactly is demoted to data. -/
theorem c2_amended_render_characterization_witness :
    opCodesMap ([0xA9, 0x05].getD 0 0) = some ⟨0xA9, "LDA", 2, .Immediate⟩ ∧
    (pass2Visit [0xA9, 0x05] 0 [] [] [2] 0 0).1.line = .dataDoc [0xA9, 0x05] := by
  have h := c2_amended_render_characterization [0xA9, 0x05] 0 [] [] [2] 0 0
    ⟨0xA9, "LDA", 2, .Immediate⟩ (by decide)
  refine ⟨by decide, ?_⟩
  rw [h.2.2 (by decide)]
  decide

/-! ## Walk accumulator invariants (shared helper lemmas) -/

theorem walkSnap_fst_le {σ : Type} (c : WalkCfg σ) (s : WalkState σ) :
    (walkSnap c s).1 ≤ s.cursor := by
  unfold walkSnap
  split
  next h => exact h.2.2
  next => exact Nat.le_refl _

/-- The accumulator after one loop iteration: either untouched (the
boundary-skip path) or produced by one visitor call at a cursor not past
the pre-step cursor. -/
theorem walkStep_acc {σ : Type} (c : WalkCfg σ) (s : WalkState σ) :
    (walkStep c s).acc = s.acc ∨
    ∃ cur i, cur ≤ s.cursor ∧ (walkStep c s).acc = (c.visit s.acc cur i).1 := by
  simp only [walkStep]
  rcases h : opCodesMap (c.program.getD (walkSnap c s).1 0) with _ | op <;> simp only [h]
  · exact Or.inr ⟨(walkSnap c s).1, (walkSnap c s).2, walkSnap_fst_le c s, rfl⟩
  · split
    · exact Or.inl rfl
    · exact Or.inr ⟨(walkSnap c s).1, (walkSnap c s).2, walkSnap_fst_le c s, rfl⟩

/-- A property of the accumulator preserved by every visitor call below
the window end is preserved by the whole walk. -/
theorem walkFuel_acc_inv {σ : Type} (c : WalkCfg σ) (P : σ → Prop)
    (hP : ∀ a cur i, cur < c.offset + c.maxBytes → P a → P (c.visit a cur i).1) :
    ∀ fuel (s : WalkState σ) (r : σ), P s.acc → walkFuel c fuel s = some r → P r := by
  intro fuel
  induction fuel with
  | zero => intro s r _ h; exact absurd h (by simp [walkFuel])
  | succ n ih =>
    intro s r hs h
    simp only [walkFuel] at h
    split at h
    next hcur =>
      rcases walkStep_acc c s with he | ⟨cur, i, hle, he⟩
      · exact ih _ r (he ▸ hs) h
      · exact ih _ r (by rw [he]; exact hP _ _ _ (Nat.lt_of_le_of_lt hle hcur) hs) h
    next => cases h; exact hs

theorem setInsert_mem {l : List Nat} {x y : Nat} :
    y ∈ setInsert l x ↔ y ∈ l ∨ y = x := by
  unfold setInsert
  split
  next hx =>
    constructor
    · exact Or.inl
    · rintro (h | rfl)
      · exact h
      · exact hx
  next hx => simp

theorem setInsert_nodup {l : List Nat} {x : Nat} (h : l.Nodup) :
    (setInsert l x).Nodup := by
  unfold setInsert
  split
  next => exact h
  next hx => simp [List.nodup_append, h, hx]

/-- The pass-1 visitor touches the target set only through `setInsert`. -/
theorem pass1Visit_targets (program : List Nat) (branchAdjust : Nat)
    (a : Pass1Acc) (cursor idx : Nat) :
    (pass1Visit program branchAdjust a cursor idx).1.targets = a.targets ∨
    ∃ t, (pass1Visit program branchAdjust a cursor idx).1.targets = setInsert a.targets t := by
  rcases h : opCodesMap (program.getD cursor 0) with _ | op <;>
    simp only [pass1Visit, h]
  · exact Or.inl trivial
  · rcases hb : branchOrJump op with _ | _ | _ <;> simp only [hb] <;>
      first
      | exact Or.inl trivial
      | exact Or.inl rfl
      | exact Or.inr ⟨_, rfl⟩
      | (split <;>
          first
          | exact Or.inl trivial
          | exact Or.inl rfl
          | exact Or.inr ⟨_, rfl⟩
          | (split <;>
              first
              | exact Or.inl trivial
              | exact Or.inl rfl
              | exact Or.inr ⟨_, rfl⟩))

/-- The registered-target set of pass 1 never holds duplicates. -/
theorem pass1_targets_nodup (program : List Nat)
    (offset maxBytes branchAdjust : Nat) (codeAddrs : List Nat) (fuel : Nat)
    (a : Pass1Acc)
    (h : walkFuel (pass1Cfg program offset maxBytes branchAdjust codeAddrs) fuel
      (initWalkState (pass1Cfg program offset maxBytes branchAdjust codeAddrs)
        ⟨[], [], [], []⟩) = some a) :
    a.targets.Nodup := by
  refine walkFuel_acc_inv _ (fun acc => acc.targets.Nodup) ?_ fuel _ _ (by simp [initWalkState]) h
  intro acc cur i _ hacc
  rcases pass1Visit_targets program branchAdjust acc cur i with he | ⟨t, he⟩
  · exact he ▸ hacc
  · exact he ▸ setInsert_nodup hacc

theorem listIdxOf_get {l : List Nat} (hl : l.Nodup) :
    ∀ (i : Nat) (hi : i < l.length), listIdxOf l l[i] = some i := by
  induction l with
  | nil => intro i hi; exact absurd hi (by simp)
  | cons a l ih =>
    intro i hi
    cases i with
    | zero => simp [listIdxOf]
    | succ j =>
      have hj : j < l.length := by simpa using hi
      have hmem : l[j] ∈ l := List.getElem_mem hj
      have hne : (a == l[j]) = false := by
        simp only [beq_eq_false_iff_ne]
        intro hcon
        exact (List.nodup_cons.mp hl).1 (hcon ▸ hmem)
      simp [listIdxOf, hne, ih (List.nodup_cons.mp hl).2 j hj]

/-! ## C4: postcondition of `findBranchTargets` -/

/-- **C4.** After pass 1: an address survives into the final
branch-target table iff it was registered and is a reachable instruction
start; the surviving addresses are sorted ascending without duplicates
and the label index of the `i`-th smallest is exactly `i`; and the final
table is determined by the *set* of registered addresses alone — any
discovery order (any duplicate-free list with the same members) yields
the same table. -/
theorem c4_findBranchTargets_postcondition (program : List Nat)
    (offset maxBytes branchAdjust : Nat) (codeAddrs : List Nat) (fuel : Nat)
    (r : Pass1Result)
    (h : findBranchTargets program offset maxBytes branchAdjust codeAddrs fuel = some r) :
    (∀ t, t ∈ r.btKeys ↔ t ∈ r.rawTargets ∧ t ∈ r.iloc) ∧
    r.btKeys.Sorted (· ≤ ·) ∧
    r.btKeys.Nodup ∧
    (∀ (i : Nat) (hi : i < r.btKeys.length),
      btLookup r.btKeys r.btKeys[i] = some i) ∧
    (∀ (l₁ l₂ il : List Nat), l₁.Nodup → l₂.Nodup → (∀ t, t ∈ l₁ ↔ t ∈ l₂) →
      sortNats (l₁.filter (fun t => il.contains t)) =
        sortNats (l₂.filter (fun t => il.contains t))) := by
  obtain ⟨a, ha, rfl⟩ := Option.map_eq_some'.mp h
  have hnd : a.targets.Nodup := pass1_targets_nodup _ _ _ _ _ _ _ ha
  have hndf : (a.targets.filter (fun t => a.iloc.contains t)).Nodup := hnd.filter _
  have hperm : List.Perm (sortNats (a.targets.filter (fun t => a.iloc.contains t)))
      (a.targets.filter (fun t => a.iloc.contains t)) :=
    List.perm_insertionSort _ _
  have hsorted : (sortNats (a.targets.filter (fun t => a.iloc.contains t))).Sorted (· ≤ ·) :=
    List.sorted_insertionSort _ _
  have hndk : (sortNats (a.targets.filter (fun t => a.iloc.contains t))).Nodup :=
    hperm.nodup_iff.mpr hndf
  refine ⟨?_, hsorted, hndk, ?_, ?_⟩
  · intro t
    rw [hperm.mem_iff]
    simp [List.mem_filter]
  · intro i hi
    exact listIdxOf_get hndk i hi
  · intro l₁ l₂ il h₁ h₂ hmem
    refine List.eq_of_perm_of_sorted ?_ (List.sorted_insertionSort _ _)
      (List.sorted_insertionSort _ _)
    refine (List.perm_insertionSort _ _).trans (List.Perm.trans ?_ (List.perm_insertionSort _ _).symm)
    refine (List.perm_ext_iff_of_nodup (h₁.filter _) (h₂.filter _)).mpr ?_
    intro t
    simp [List.mem_filter, hmem t]

/-- Witness for C4 at a concrete input (`LDA #&05` then `BCC -2`): the
only registered target, address 2, is reachable and becomes label 0. -/
theorem c4_findBranchTargets_postcondition_witness :
    (∀ t, t ∈ ([2] : List Nat) ↔ t ∈ ([2] : List Nat) ∧ t ∈ ([0, 2] : List Nat)) ∧
    ([2] : List Nat).Sorted (· ≤ ·) ∧
    ([2] : List Nat).Nodup ∧
    (∀ (i : Nat) (hi : i < ([2] : List Nat).length),
      btLookup [2] (([2] : List Nat)[i]) = some i) ∧
    (∀ (l₁ l₂ il : List Nat), l₁.Nodup → l₂.Nodup → (∀ t, t ∈ l₁ ↔ t ∈ l₂) →
      sortNats (l₁.filter (fun t => il.contains t)) =
        sortNats (l₂.filter (fun t => il.contains t))) :=
  c4_findBranchTargets_postcondition [0xA9, 5, 0x90, 0xFE] 0 4 0 [] 10
    ⟨[0, 2], [2], [2], [], []⟩ rfl

/-! ## C9: the used-OS-vector set -/

/-- The pass-1 visitor adds to `usedOSVector` only a vector base address
that occurred as an exact Absolute-mode operand at the visited cursor. -/
theorem pass1Visit_usedOSVector (program : List Nat) (branchAdjust : Nat)
    (a : Pass1Acc) (cursor idx : Nat) :
    ∀ x ∈ (pass1Visit program branchAdjust a cursor idx).1.usedOSVector,
      x ∈ a.usedOSVector ∨
        ((tblLookup osVectorAddresses x).isSome = true ∧
          absoluteVectorUseAt program cursor x) := by
  rcases h : opCodesMap (program.getD cursor 0) with _ | op <;>
    simp only [pass1Visit, h]
  · intro x hx; exact Or.inl hx
  · rcases hb : branchOrJump op with _ | _ | _ <;> simp only [hb]
    · split
      next habs =>
        split
        next hsome =>
          intro x hx
          rcases setInsert_mem.mp hx with hmem | rfl
          · exact Or.inl hmem
          · exact Or.inr ⟨hsome, op, h, hb, by simpa using habs, rfl⟩
        next => intro x hx; exact Or.inl hx
      next => intro x hx; exact Or.inl hx
    · intro x hx; exact Or.inl hx
    · split
      · split
        · intro x hx; exact Or.inl hx
        · intro x hx; exact Or.inl hx
      · intro x hx; exact Or.inl hx

/-- Every OS-vector table key is even. -/
theorem osVector_key_even {x : Nat}
    (h : (tblLookup osVectorAddresses x).isSome = true) : x % 2 = 0 := by
  unfold tblLookup at h
  rcases hf : osVectorAddresses.find? (fun p => p.1 == x) with _ | p
  · rw [hf] at h; simp at h
  · have hp := List.find?_some hf
    have hmem : p ∈ osVectorAddresses := List.mem_of_find?_eq_some hf
    have hx : p.1 = x := by simpa using hp
    subst hx
    fin_cases hmem <;> decide

/-- **C9.** The used-OS-vector set only ever contains addresses that
appeared as an exact Absolute-mode operand equal to a vector base
address during pass 1 (all such bases are even, so a base+1 operand can
never mark a vector used); yet pass 2 renders a base+1 operand
symbolically as the vector name plus "+1", so the header's OS-vector
list can omit a vector name the body references — witnessed by
`AD 01 02` (`LDA &0201`), rendered `LDA USERV+1` while `usedOSVector`
stays empty. -/
theorem c9_usedOSVector_exact_absolute_only :
    (∀ program offset maxBytes branchAdjust codeAddrs fuel r,
      findBranchTargets program offset maxBytes branchAdjust codeAddrs fuel = some r →
      ∀ x ∈ r.usedOSVector,
        (tblLookup osVectorAddresses x).isSome = true ∧ x % 2 = 0 ∧
        ∃ cursor, cursor < offset + maxBytes ∧ absoluteVectorUseAt program cursor x) ∧
    (findBranchTargets [0xAD, 0x01, 0x02] 0 3 0 [] 5).map Pass1Result.usedOSVector =
      some [] ∧
    (pass2Visit [0xAD, 0x01, 0x02] 0 [] [] [] 0 0).1.line =
      .instr "LDA" "USERV+1" [0xAD, 0x01, 0x02] := by
  refine ⟨?_, by decide, by decide⟩
  intro program offset maxBytes branchAdjust codeAddrs fuel r h x hx
  obtain ⟨a, ha, rfl⟩ := Option.map_eq_some'.mp h
  have hmain : ∀ y ∈ a.usedOSVector,
      (tblLookup osVectorAddresses y).isSome = true ∧
      ∃ cursor, cursor < offset + maxBytes ∧ absoluteVectorUseAt program cursor y := by
    refine walkFuel_acc_inv _
      (fun acc => ∀ y ∈ acc.usedOSVector,
        (tblLookup osVectorAddresses y).isSome = true ∧
        ∃ cursor, cursor < offset + maxBytes ∧ absoluteVectorUseAt program cursor y)
      ?_ fuel _ _ (by simp [initWalkState]) ha
    intro acc cur i hcur hP y hy
    rcases pass1Visit_usedOSVector program branchAdjust acc cur i y hy with
        hold | ⟨hsome, huse⟩
    · exact hP y hold
    · exact ⟨hsome, cur, hcur, huse⟩
  rcases hmain x hx with ⟨hsome, hloc⟩
  exact ⟨hsome, osVector_key_even hsome, hloc⟩

/-- Witness for C9's universal part: `AD 04 02` (`LDA &0204`) marks
vector `IRQ1V` (= `&204`) used via an exact Absolute operand. -/
theorem c9_usedOSVector_exact_absolute_only_witness :
    (tblLookup osVectorAddresses 0x204).isSome = true ∧ 0x204 % 2 = 0 ∧
    ∃ cursor, cursor < 0 + 3 ∧ absoluteVectorUseAt [0xAD, 0x04, 0x02] cursor 0x204 :=
  c9_usedOSVector_exact_absolute_only.1 [0xAD, 0x04, 0x02] 0 3 0 [] 5
    ⟨[0], [], [], [], [0x204]⟩ rfl 0x204 (by decide)

/-! ## C3: termination of the walk -/

/-- **C3 (counterexample).** The window is well formed (`[0x00]`, offset
0, `MaxBytes` 1, so every read stays in range), but with the
forced-code-address list `[0]` the code-only walk of pass 1 hits the
boundary-skip path forever: the first loop iteration maps the initial
state to itself, so no amount of fuel completes the walk. -/
theorem c3_counterexample :
    0 + 1 ≤ ([0x00] : List Nat).length ∧
    ¬ WalkTerminates (pass1Cfg [0x00] 0 1 0 [0])
        (initWalkState (pass1Cfg [0x00] 0 1 0 [0]) ⟨[], [], [], []⟩) := by
  refine ⟨by decide, ?_⟩
  rintro ⟨fuel, hf⟩
  have hnone : ∀ n, walkFuel (pass1Cfg [0x00] 0 1 0 [0]) n
      (initWalkState (pass1Cfg [0x00] 0 1 0 [0]) ⟨[], [], [], []⟩) = none := by
    intro n
    induction n with
    | zero => rfl
    | succ m ih =>
      calc walkFuel (pass1Cfg [0x00] 0 1 0 [0]) (m + 1)
            (initWalkState (pass1Cfg [0x00] 0 1 0 [0]) ⟨[], [], [], []⟩)
          = walkFuel (pass1Cfg [0x00] 0 1 0 [0]) m
            (initWalkState (pass1Cfg [0x00] 0 1 0 [0]) ⟨[], [], [], []⟩) := rfl
        _ = none := ih
  rw [hnone fuel] at hf
  exact absurd hf (by simp)

theorem caAt_strict {σ : Type} (c : WalkCfg σ) (hs : c.codeAddrs.Pairwise (· < ·))
    {j k : Nat} (hjk : j < k) (hk : k < c.codeAddrs.length) : caAt c j < caAt c k := by
  unfold caAt
  rw [List.getD_eq_getElem _ 0 (Nat.lt_trans hjk hk), List.getD_eq_getElem _ 0 hk]
  exact List.pairwise_iff_getElem.mp hs j k _ _ hjk

/-- Case analysis of the snap at the top of the loop. -/
theorem walkSnap_eq {σ : Type} (c : WalkCfg σ) (s : WalkState σ) :
    (s.idx < c.codeAddrs.length ∧ s.prevCur < caAt c s.idx ∧ caAt c s.idx ≤ s.cursor ∧
      walkSnap c s = (caAt c s.idx, s.idx + 1)) ∨
    (walkSnap c s = (s.cursor, s.idx) ∧
      (s.idx < c.codeAddrs.length → s.prevCur < caAt c s.idx → s.cursor < caAt c s.idx)) := by
  unfold walkSnap
  split
  next h => exact Or.inl ⟨h.1, h.2.1, h.2.2, rfl⟩
  next h =>
    refine Or.inr ⟨rfl, ?_⟩
    intro h1 h2
    by_contra hcon
    exact h ⟨h1, h2, Nat.le_of_not_lt hcon⟩

/-- Each loop iteration preserves the invariant and strictly decreases
the measure, provided the forced addresses ascend strictly and the
visitor always consumes at least one byte. -/
theorem walkStep_progress {σ : Type} (c : WalkCfg σ)
    (hs : c.codeAddrs.Pairwise (· < ·))
    (hvisit : ∀ acc cur i, cur < c.offset + c.maxBytes →
      (i < c.codeAddrs.length → cur < caAt c i) → 1 ≤ (c.visit acc cur i).2)
    (s : WalkState σ) (hcur : s.cursor < c.offset + c.maxBytes)
    (hinv : walkInv c s) :
    walkInv c (walkStep c s) ∧ walkMeasure c (walkStep c s) < walkMeasure c s := by
  have hK : (walkSnap c s).2 ≤ c.codeAddrs.length ∧
      ((walkSnap c s).2 < c.codeAddrs.length →
        (walkSnap c s).1 < caAt c (walkSnap c s).2) ∧
      (walkSnap c s).1 ≤ s.cursor ∧
      (((walkSnap c s).2 = s.idx ∧ (walkSnap c s).1 = s.cursor) ∨
        ((walkSnap c s).2 = s.idx + 1 ∧ s.idx < c.codeAddrs.length)) := by
    rcases walkSnap_eq c s with ⟨h1, _, h3, heq⟩ | ⟨heq, himp⟩
    · rw [heq]
      exact ⟨h1, fun hlt => caAt_strict c hs (Nat.lt_succ_self _) hlt, h3,
        Or.inr ⟨rfl, h1⟩⟩
    · rw [heq]
      exact ⟨hinv.1, fun hlt => himp hlt (hinv.2 hlt), Nat.le_refl _, Or.inl ⟨rfl, rfl⟩⟩
  obtain ⟨hKle, hKlt, hKcur, hKcase⟩ := hK
  have hmul : (walkSnap c s).2 = s.idx + 1 → s.idx < c.codeAddrs.length →
      (c.codeAddrs.length - s.idx) * (c.offset + c.maxBytes + 1) =
        (c.codeAddrs.length - (s.idx + 1)) * (c.offset + c.maxBytes + 1) +
          (c.offset + c.maxBytes + 1) := by
    intro _ hlt
    have h1 : c.codeAddrs.length - s.idx = (c.codeAddrs.length - (s.idx + 1)) + 1 := by
      omega
    rw [h1, Nat.succ_mul]
  unfold walkStep
  rcases ho : opCodesMap (c.program.getD (walkSnap c s).1 0) with _ | op <;>
    simp only [ho]
  · have hadv := hvisit s.acc (walkSnap c s).1 (walkSnap c s).2
      (Nat.lt_of_le_of_lt hKcur hcur) hKlt
    refine ⟨⟨hKle, fun hlt => hKlt hlt⟩, ?_⟩
    unfold walkMeasure
    rcases hKcase with ⟨hi, hc⟩ | ⟨hi, hlt⟩
    · rw [hi, hc] at hadv ⊢
      dsimp only
      omega
    · rw [hi] at hadv ⊢
      rw [hmul hi hlt]
      dsimp only
      omega
  · split
    next hskip =>
      refine ⟨⟨hKle, fun hlt => hKlt hlt⟩, ?_⟩
      unfold walkMeasure
      have hgt := hKlt hskip.1
      rcases hKcase with ⟨hi, hc⟩ | ⟨hi, hlt⟩
      · rw [hi, hc] at hgt ⊢
        dsimp only
        omega
      · rw [hi] at hgt ⊢
        rw [hmul hi hlt]
        dsimp only
        omega
    next =>
      have hadv := hvisit s.acc (walkSnap c s).1 (walkSnap c s).2
        (Nat.lt_of_le_of_lt hKcur hcur) hKlt
      refine ⟨⟨hKle, fun hlt => hKlt hlt⟩, ?_⟩
      unfold walkMeasure
      rcases hKcase with ⟨hi, hc⟩ | ⟨hi, hlt⟩
      · rw [hi, hc] at hadv ⊢
        dsimp only
        omega
      · rw [hi] at hadv ⊢
        rw [hmul hi hlt]
        dsimp only
        omega

/-- Enough fuel always completes the walk. -/
theorem walkFuel_isSome {σ : Type} (c : WalkCfg σ)
    (hs : c.codeAddrs.Pairwise (· < ·))
    (hvisit : ∀ acc cur i, cur < c.offset + c.maxBytes →
      (i < c.codeAddrs.length → cur < caAt c i) → 1 ≤ (c.visit acc cur i).2) :
    ∀ (fuel : Nat) (s : WalkState σ), walkInv c s → walkMeasure c s < fuel →
      (walkFuel c fuel s).isSome = true := by
  intro fuel
  induction fuel with
  | zero => intro s _ h; exact absurd h (Nat.not_lt_zero _)
  | succ n ih =>
    intro s hinv hm
    simp only [walkFuel]
    by_cases hcur : s.cursor < c.offset + c.maxBytes
    · rw [if_pos hcur]
      obtain ⟨hinv', hm'⟩ := walkStep_progress c hs hvisit s hcur hinv
      exact ih _ hinv' (by omega)
    · rw [if_neg hcur]
      simp

/-- The walk terminates from its initial state whenever the forced
addresses are strictly ascending and beyond the start offset and the
visitor consumes at least one byte per visit. -/
theorem walk_terminates {σ : Type} (c : WalkCfg σ) (a0 : σ)
    (hs : c.codeAddrs.Pairwise (· < ·))
    (hgt : ∀ ca ∈ c.codeAddrs, c.offset < ca)
    (hvisit : ∀ acc cur i, cur < c.offset + c.maxBytes →
      (i < c.codeAddrs.length → cur < caAt c i) → 1 ≤ (c.visit acc cur i).2) :
    WalkTerminates c (initWalkState c a0) := by
  refine ⟨walkMeasure c (initWalkState c a0) + 1,
    walkFuel_isSome c hs hvisit _ _ ⟨Nat.zero_le _, ?_⟩ (Nat.lt_succ_self _)⟩
  intro hlt
  have hlt0 : 0 < c.codeAddrs.length := hlt
  have hmem : caAt c 0 ∈ c.codeAddrs := by
    unfold caAt
    rw [List.getD_eq_getElem _ 0 hlt0]
    exact List.getElem_mem hlt0
  exact hgt _ hmem

theorem opCodesMap_mem {b : Nat} {op : Opcode} (h : opCodesMap b = some op) :
    op ∈ opCodes := by
  unfold opCodesMap at h
  exact List.mem_reverse.mp (List.mem_of_find?_eq_some h)

theorem opCode_length_bounds {op : Opcode} (h : op ∈ opCodes) :
    1 ≤ op.length ∧ op.length ≤ 3 := by
  have hall : opCodes.all (fun o => decide (1 ≤ o.length) && decide (o.length ≤ 3)) = true := by
    decide
  have := List.all_eq_true.mp hall op h
  simp at this
  omega

/-- The pass-1 visitor's advance. -/
theorem pass1Visit_adv (program : List Nat) (branchAdjust : Nat)
    (acc : Pass1Acc) (cur i : Nat) :
    (pass1Visit program branchAdjust acc cur i).2 =
      match opCodesMap (program.getD cur 0) with
      | some op => ((program.drop cur).take op.length).length
      | none => 1 := by
  rcases h : opCodesMap (program.getD cur 0) with _ | op <;>
    simp only [pass1Visit, h]

/-- The pass-2 visitor consumes at least one byte when the cursor is
inside the program and before the next forced address. -/
theorem pass2Visit_adv_pos (program : List Nat) (branchAdjust : Nat) (vars : Vars)
    (bt codeAddrs : List Nat) (cur i : Nat)
    (hcur : cur < program.length)
    (hca : i < codeAddrs.length → cur < codeAddrs.getD i 0) :
    1 ≤ (pass2Visit program branchAdjust vars bt codeAddrs cur i).2 := by
  rcases h : opCodesMap (program.getD cur 0) with _ | op <;>
    simp only [pass2Visit, h]
  · exact Nat.le_refl _
  · have hb := opCode_length_bounds (opCodesMap_mem h)
    revert hca
    generalize codeAddrs.getD i 0 = ca
    intro hca
    by_cases hstr : i < codeAddrs.length ∧ ca ≤ cur + op.length
    · have hca' := hca hstr.1
      cases hdoc : isOpcodeDocumented op <;>
        cases hwai : willAssembleIdentically op ((program.drop cur).take op.length) <;>
          simp [hstr, hdoc, hwai, List.length_take, List.length_drop] <;> omega
    · cases hdoc : isOpcodeDocumented op <;>
        cases hwai : willAssembleIdentically op ((program.drop cur).take op.length) <;>
          simp [hstr, hdoc, hwai, List.length_take, List.length_drop] <;> omega

/-- **C3 (amended).** For every well-formed input window (the window lies
inside the program buffer) and every forced-code-address list that is
strictly ascending with every address beyond the start offset, both
passes complete: the walk terminates for the code-only mask (pass 1) and
for the full mask (pass 2). -/
theorem c3_amended_both_passes_terminate (program : List Nat)
    (offset maxBytes branchAdjust : Nat) (codeAddrs : List Nat)
    (vars : Vars) (bt : List Nat)
    (hwf : offset + maxBytes ≤ program.length)
    (hsorted : codeAddrs.Pairwise (· < ·))
    (hgt : ∀ ca ∈ codeAddrs, offset < ca) :
    WalkTerminates (pass1Cfg program offset maxBytes branchAdjust codeAddrs)
      (initWalkState (pass1Cfg program offset maxBytes branchAdjust codeAddrs)
        ⟨[], [], [], []⟩) ∧
    WalkTerminates (pass2Cfg program offset maxBytes branchAdjust vars bt codeAddrs)
      (initWalkState (pass2Cfg program offset maxBytes branchAdjust vars bt codeAddrs)
        []) := by
  constructor
  · refine walk_terminates _ _ hsorted hgt ?_
    intro acc cur i hcur _
    have hcur' : cur < offset + maxBytes := hcur
    show 1 ≤ (pass1Visit program branchAdjust acc cur i).2
    rw [pass1Visit_adv]
    rcases h : opCodesMap (program.getD cur 0) with _ | op
    · exact Nat.le_refl _
    · have hb := opCode_length_bounds (opCodesMap_mem h)
      simp only [List.length_take, List.length_drop]
      exact le_min (by omega) (by omega)
  · refine walk_terminates _ _ hsorted hgt ?_
    intro acc cur i hcur hca
    have hcur' : cur < offset + maxBytes := hcur
    show 1 ≤ (pass2Visit program branchAdjust vars bt codeAddrs cur i).2
    exact pass2Visit_adv_pos program branchAdjust vars bt codeAddrs cur i
      (by omega) hca

/-! ## C6: operand resolution order in `decode` -/

theorem strMk_append (a b : List Char) :
    String.mk a ++ String.mk b = String.mk (a ++ b) := rfl

/-- **C6 (counterexample).** `BD 00 02` (`LDA &0200,X`): the operand is
an absolute numeric value equal to the `USERV` vector base, yet `decode`
renders the literal `&0200,X`, while the claimed resolution chain would
give `USERV,X` — the OS-vector steps are not applied to indexed absolute
operands. -/
theorem c6_counterexample :
    decode [] [] 0 ⟨0xBD, "LDA", 3, .AbsoluteX⟩ [0xBD, 0x00, 0x02] 0 = "&0200,X" ∧
    claimDecodeOperand [] .AbsoluteX [0xBD, 0x00, 0x02] = "USERV,X" ∧
    decode [] [] 0 ⟨0xBD, "LDA", 3, .AbsoluteX⟩ [0xBD, 0x00, 0x02] 0 ≠
      claimDecodeOperand [] .AbsoluteX [0xBD, 0x00, 0x02] := by
  refine ⟨by decide, by decide, by decide⟩

/-- **C6 (amended).** For every decoded instruction that is not a branch
and not absolute `JMP`/`JSR`: a plain `Absolute` operand is resolved in
order — OS-vector base name, vector name plus `+1` for the value with
its low bit cleared, user variable, literal hexadecimal — while every
other absolute or zero-page numeric operand mode (indexed, indirect,
zero-page) resolves only through user variable then literal hexadecimal,
with the mode-specific suffix; for zero-page-wide operands the skipped
vector steps could never match anyway, since every vector address lies
above the zero page. -/
theorem c6_amended_resolution_order (vars : Vars) (bt : List Nat)
    (branchAdjust cursor : Nat) (op : Opcode) (bytes : List Nat)
    (hjmp : bytes.getD 0 0 ≠ OpJMPAbsolute ∧ bytes.getD 0 0 ≠ OpJSRAbsolute)
    (hbr : branchOrJump op ≠ .branch)
    (hm : op.addrMode ∈ [AddressingMode.Absolute, .ZeroPage, .ZeroPageX, .ZeroPageY,
      .Indirect, .AbsoluteX, .AbsoluteY, .IndirectX, .IndirectY, .IndirectZP]) :
    decode vars bt branchAdjust op bytes cursor =
      amendedDecodeOperand vars op.addrMode bytes ∧
    (∀ v < 0x100, tblLookup osVectorAddresses v = none ∧
      tblLookup osVectorAddresses (clearBit0 v) = none) := by
  constructor
  · have h1 : (bytes.getD 0 0 == OpJMPAbsolute || bytes.getD 0 0 == OpJSRAbsolute) = false := by
      simp only [Bool.or_eq_false_iff, beq_eq_false_iff_ne]
      exact ⟨hjmp.1, hjmp.2⟩
    have h2 : (branchOrJump op == BranchType.branch) = false := beq_eq_false_iff_ne.mpr hbr
    simp only [List.mem_cons, List.not_mem_nil, or_false] at hm
    rcases hm with h | h | h | h | h | h | h | h | h | h <;>
      simp only [decode, h1, h2, h, Bool.false_eq_true, if_false,
        amendedDecodeOperand, varOrHex, claimResolveCore] <;>
      first
      | rfl
      | (split <;> rename_i heq <;> (try simp only [heq]) <;> rfl)
  · intro v hv
    have key : ∀ w, w < 0x200 → osVectorAddresses.find? (fun p => p.1 == w) = none := by
      intro w hw
      rw [List.find?_eq_none]
      intro p hp
      fin_cases hp <;> simp <;> omega
    have hcb : clearBit0 v < 0x200 := by unfold clearBit0; omega
    exact ⟨by simp [tblLookup, key v (by omega)], by simp [tblLookup, key _ hcb]⟩

/-- Witness for C6 (amended): `AD 00 02` (`LDA &0200`) resolves through
the vector table to `USERV`. -/
theorem c6_amended_resolution_order_witness :
    decode [] [] 0 ⟨0xAD, "LDA", 3, .Absolute⟩ [0xAD, 0x00, 0x02] 0 =
      amendedDecodeOperand [] AddressingMode.Absolute [0xAD, 0x00, 0x02] ∧
    (∀ v < 0x100, tblLookup osVectorAddresses v = none ∧
      tblLookup osVectorAddresses (clearBit0 v) = none) :=
  c6_amended_resolution_order [] [] 0 0 ⟨0xAD, "LDA", 3, .Absolute⟩ [0xAD, 0x00, 0x02]
    (by decide) (by decide) (by decide)

/-- Witness for C3 (amended) at a concrete input. -/
theorem c3_amended_both_passes_terminate_witness :
    WalkTerminates (pass1Cfg [0xA9, 0x05, 0x00] 0 3 0 [2])
      (initWalkState (pass1Cfg [0xA9, 0x05, 0x00] 0 3 0 [2]) ⟨[], [], [], []⟩) ∧
    WalkTerminates (pass2Cfg [0xA9, 0x05, 0x00] 0 3 0 [] [] [2])
      (initWalkState (pass2Cfg [0xA9, 0x05, 0x00] 0 3 0 [] [] [2]) []) :=
  c3_amended_both_passes_terminate [0xA9, 0x05, 0x00] 0 3 0 [2] [] []
    (by decide) (by decide) (by decide)

/-! ## C8: AddVar literal parsing -/

/-- The digit loop's accumulator never decreases. -/
theorem digitsVal_le (base : Nat) (hb : 1 ≤ base) (l : List Nat) :
    ∀ n, n ≤ digitsVal base l n := by
  induction l with
  | nil => intro n; exact le_refl n
  | cons b bs ih =>
    intro n
    have h1 : n ≤ n * base + (goDigitVal b).getD 0 :=
      le_trans (Nat.le_mul_of_pos_right n hb) (Nat.le_add_right _ _)
    exact le_trans h1 (ih _)

/-- When every byte is a digit below the base and the accumulated value
fits, the `ParseUint` loop returns that value with no underscore seen. -/
theorem parseUintLoop_ok (base maxVal : Nat) (hb : 1 ≤ base) (b0 : Bool)
    (l : List Nat) :
    ∀ n, (∀ b ∈ l, ∃ d, goDigitVal b = some d ∧ d < base ∧ b ≠ 95) →
      digitsVal base l n ≤ maxVal →
      parseUintLoop base maxVal b0 l n false = .ok (digitsVal base l n, false) := by
  induction l with
  | nil => intro n _ _; rfl
  | cons b bs ih =>
    intro n hd hle
    obtain ⟨d, hgd, hdb, hb95⟩ := hd b (List.mem_cons_self b bs)
    have hds : digitsVal base (b :: bs) n = digitsVal base bs (n * base + d) := by
      simp [digitsVal, hgd]
    rw [hds] at hle ⊢
    have hmono := digitsVal_le base hb bs (n * base + d)
    have hnb : n * base + d ≤ maxVal := le_trans hmono hle
    have hcut : ¬ (maxVal / base + 1 ≤ n) := by
      have hml : n * base ≤ maxVal := by omega
      have : n ≤ maxVal / base := (Nat.le_div_iff_mul_le (by omega)).mpr hml
      omega
    rw [parseUintLoop, if_neg hb95]
    simp only [hgd]
    rw [if_neg (by omega : ¬ base ≤ d), if_neg hcut,
      if_neg (by omega : ¬ maxVal < n * base + d)]
    exact ih _ (fun x hx => hd x (List.mem_cons_of_mem b hx)) hle

/-- A character accepted by the assembler model's hex-digit reader is, as
a byte, accepted by Go's digit reader with the same value. -/
theorem hexDigit_byte (c : Char) (d : Nat) (h : hexDigitVal c = some d) :
    goDigitVal c.toNat = some d ∧ d < 16 ∧ c.toNat ≠ 95 ∧ c.toNat ≠ 38 ∧
      c.toNat ≠ 43 ∧ c.toNat ≠ 45 := by
  revert h
  unfold hexDigitVal goDigitVal lowerB
  generalize c.toNat = t
  intro h
  split at h
  · rename_i h1
    rw [if_pos h1]
    injection h with hd0
    refine ⟨by rw [hd0], by omega, by omega, by omega, by omega, by omega⟩
  · split at h
    · rename_i h1 h2
      obtain ⟨h2a, h2b⟩ := h2
      have h32 : t ||| 32 = t + 32 := by interval_cases t <;> decide
      rw [if_neg h1, h32, if_pos (by omega : 97 ≤ t + 32 ∧ t + 32 ≤ 122)]
      injection h with hd0
      refine ⟨by rw [show t + 32 - 97 + 10 = d by omega], by omega, by omega,
        by omega, by omega, by omega⟩
    · split at h
      · rename_i h1 h2 h3
        obtain ⟨h3a, h3b⟩ := h3
        have h32 : t ||| 32 = t := by interval_cases t <;> decide
        rw [if_neg h1, h32, if_pos (by omega : 97 ≤ t ∧ t ≤ 122)]
        injection h with hd0
        refine ⟨by rw [← hd0], by omega, by omega, by omega, by omega, by omega⟩
      · exact absurd h (by simp)

/-- Same for the decimal-digit reader. -/
theorem decDigit_byte (c : Char) (d : Nat) (h : decDigitVal c = some d) :
    goDigitVal c.toNat = some d ∧ d < 10 ∧ c.toNat ≠ 95 := by
  revert h
  unfold decDigitVal goDigitVal
  intro h
  split at h
  · rename_i h1
    rw [if_pos h1]
    injection h with hd0
    refine ⟨by rw [hd0], by omega, by omega⟩
  · exact absurd h (by simp)

/-- A successful run of the model's decimal reader equals the Go digit
loop's accumulator over the character's bytes. -/
theorem decParseAux_digitsVal (l : List Char) :
    ∀ n v, decParseAux l n = some v → v = digitsVal 10 (l.map Char.toNat) n := by
  induction l with
  | nil =>
    intro n v h
    injection h with h0
    simp [digitsVal, ← h0]
  | cons c cs ih =>
    intro n v h
    rw [decParseAux] at h
    cases hdv : decDigitVal c with
    | none => rw [hdv] at h; exact absurd h (by simp)
    | some d =>
      rw [hdv] at h
      simp only [Option.some_bind] at h
      obtain ⟨hgd, _, _⟩ := decDigit_byte c d hdv
      have := ih _ _ h
      simp only [List.map_cons, digitsVal, hgd, Option.getD_some]
      exact this

/-- Same for the model's hex reader. -/
theorem hexParseAux_digitsVal (l : List Char) :
    ∀ n v, hexParseAux l n = some v → v = digitsVal 16 (l.map Char.toNat) n := by
  induction l with
  | nil =>
    intro n v h
    injection h with h0
    simp [digitsVal, ← h0]
  | cons c cs ih =>
    intro n v h
    rw [hexParseAux] at h
    cases hdv : hexDigitVal c with
    | none => rw [hdv] at h; exact absurd h (by simp)
    | some d =>
      rw [hdv] at h
      simp only [Option.some_bind] at h
      obtain ⟨hgd, _, _, _, _, _⟩ := hexDigit_byte c d hdv
      have := ih _ _ h
      simp only [List.map_cons, digitsVal, hgd, Option.getD_some]
      exact this

theorem dropAmp_eq_self (l : List Char) (h : ∀ c ∈ l, c ≠ '&') :
    l.dropWhile (· == '&') = l := by
  cases l with
  | nil => rfl
  | cons c cs =>
    have hc := h c (List.mem_cons_self c cs)
    have hb : (c == '&') = false := beq_eq_false_iff_ne.mpr hc
    simp [List.dropWhile, hb]

/-- `strings.Trim(value, "&")` on an `&`-prefixed value whose remainder is
`&`-free just strips the prefix byte. -/
theorem trimAmp_amp_cons (ds : List Char) (h : ∀ c ∈ ds, c ≠ '&') :
    trimAmp ('&' :: ds) = ds := by
  unfold trimAmp
  have h1 : List.dropWhile (· == '&') ('&' :: ds) = List.dropWhile (· == '&') ds := by
    simp [List.dropWhile]
  have h2 : ∀ c ∈ ds.reverse, c ≠ '&' := fun c hc => h c (List.mem_reverse.mp hc)
  rw [h1, dropAmp_eq_self ds h, dropAmp_eq_self _ h2, List.reverse_reverse]

/-- **C8 (counterexample).** `"010"` is a well-formed decimal literal
denoting ten, yet `AddVar` records eight: `strconv.ParseInt` with base 0
reads the leading `0` as an octal prefix, so unprefixed values are not
always read as decimal. -/
theorem c8_counterexample :
    isDecimalLiteral ("010" : String) ∧
    decimalValue ("010" : String) = some 10 ∧
    addVar [] ("V" : String) ("010" : String) =
      .ok [(("V" : String), ⟨("010" : String), 8⟩)] ∧
    (8 : Nat) ≠ 10 :=
  ⟨by decide, by decide, by decide, by decide⟩

/-- **C8 (amended).** `AddVar`'s parse follows Go `strconv` base-0
semantics for unprefixed values and base-16 for `&`-prefixed ones: the
parse outcome determines failure (table unchanged) versus recording the
variable with the parsed value reduced to a Go `uint`; an unprefixed
decimal literal not starting with `0` and below `2^63` is read as
decimal; an `&`-prefixed hex literal whose digits are `&`-free and whose
value is below `2^63` is read as hexadecimal. -/
theorem c8_amended_base0_parsing :
    (∀ (vars : Vars) (name value : String) (e : NumErr),
        value ≠ "" → addVarParse value = .error e →
        addVar vars name value = .failed) ∧
    (∀ (vars : Vars) (name value : String) (i : Int),
        value ≠ "" → addVarParse value = .ok i →
        addVar vars name value =
          .ok (mapInsert vars name ⟨value, (i.emod (W : Int)).toNat⟩)) ∧
    (∀ (s : String) (v : Nat),
        isDecimalLiteral s → s.data.head?.map Char.toNat ≠ some 48 →
        decimalValue s = some v → v < 2 ^ 63 →
        addVarParse s = .ok (v : Int)) ∧
    (∀ (ds : List Char) (v : Nat),
        ds ≠ [] → (∀ c ∈ ds, (hexDigitVal c).isSome) →
        hexParseChars ds = some v → v < 2 ^ 63 →
        addVarParse (String.mk ('&' :: ds)) = .ok (v : Int)) := by
  refine ⟨?_, ?_, ?_, ?_⟩
  · intro vars name value e hne hp
    cases hv : value.data with
    | nil => exact absurd (String.ext (hv.trans rfl)) hne
    | cons c cs =>
      simp only [addVarParse, hv] at hp
      simp only [addVar, hv]
      by_cases hc : c = '&'
      · rw [if_pos hc] at hp
        simp only [if_pos hc, hp]
      · rw [if_neg hc] at hp
        simp only [if_neg hc, hp]
  · intro vars name value i hne hp
    cases hv : value.data with
    | nil => exact absurd (String.ext (hv.trans rfl)) hne
    | cons c cs =>
      simp only [addVarParse, hv] at hp
      simp only [addVar, hv]
      by_cases hc : c = '&'
      · rw [if_pos hc] at hp
        simp only [if_pos hc, hp]
      · rw [if_neg hc] at hp
        simp only [if_neg hc, hp]
  · intro s v hdl hh0 hdv hlt
    obtain ⟨hne, hdig⟩ := hdl
    obtain ⟨c, cs, hv⟩ : ∃ c cs, s.data = c :: cs := by
      cases h : s.data with
      | nil => exact absurd h hne
      | cons a b => exact ⟨a, b, rfl⟩
    have hdig' : ∀ x ∈ c :: cs, 48 ≤ Char.toNat x ∧ Char.toNat x ≤ 57 := by
      rw [← hv]; exact hdig
    have hc := hdig' c (List.mem_cons_self c cs)
    have hcamp : ¬ c = '&' := by
      intro h; rw [h] at hc; revert hc; decide
    have hc48 : c.toNat ≠ 48 := by
      intro h
      apply hh0
      rw [hv]
      simp [h]
    simp only [addVarParse, hv, if_neg hcamp]
    have hvv : decParseAux s.data 0 = some v := by
      have : decParseChars s.data = some v := hdv
      rw [decParseChars] at this
      rw [if_neg (by simp [hv])] at this
      exact this
    rw [hv] at hvv
    have hveq : v = digitsVal 10 (Char.toNat c :: cs.map Char.toNat) 0 := by
      simpa using decParseAux_digitsVal _ _ _ hvv
    rw [goParseInt]
    simp only [List.map_cons]
    rw [if_neg (by simp)]
    rw [if_neg (by omega : ¬ c.toNat = 43), if_neg (by omega : ¬ c.toNat = 45)]
    (try dsimp only)
    rw [goParseUintBytes.eq_def]
    rw [if_neg (by simp)]
    rw [if_neg (by omega : ¬ (2 ≤ 0 ∧ 0 ≤ 36))]
    (try dsimp only)
    rw [if_neg hc48]
    (try dsimp only)
    have hloop := parseUintLoop_ok 10 (2 ^ 64 - 1) (by omega) (0 == 0)
      (Char.toNat c :: cs.map Char.toNat) 0
      (by
        intro b hb
        rw [← List.map_cons] at hb
        obtain ⟨x, hx, hbx⟩ := List.mem_map.mp hb
        have := hdig' x hx
        refine ⟨b - 48, ?_, by omega, by omega⟩
        unfold goDigitVal
        rw [if_pos (by omega : 48 ≤ b ∧ b ≤ 57)])
      (by rw [← hveq]; omega)
    rw [hloop, ← hveq]
    have h63 : ¬ (2 : Nat) ^ 63 ≤ v := by omega
    simp [h63]
    omega
  · intro ds v hne hhex hpv hlt
    have hfacts : ∀ c ∈ ds, ∃ d, hexDigitVal c = some d := by
      intro c hc
      exact Option.isSome_iff_exists.mp (hhex c hc)
    have hnamp : ∀ c ∈ ds, c ≠ '&' := by
      intro c hc he
      obtain ⟨d, hd⟩ := hfacts c hc
      have := (hexDigit_byte c d hd).2.2.2.1
      rw [he] at this
      exact this (by decide)
    have hstep : addVarParse (String.mk ('&' :: ds)) =
        goParseInt (trimAmp ('&' :: ds)) 16 := by rfl
    rw [hstep, trimAmp_amp_cons ds hnamp]
    obtain ⟨c, cs, hv⟩ : ∃ c cs, ds = c :: cs := by
      cases h : ds with
      | nil => exact absurd h hne
      | cons a b => exact ⟨a, b, rfl⟩
    obtain ⟨d0, hd0⟩ := hfacts c (by rw [hv]; exact List.mem_cons_self c cs)
    obtain ⟨hgd0, _, _, _, h43, h45⟩ := hexDigit_byte c d0 hd0
    have hvv : hexParseAux (c :: cs) 0 = some v := by
      rw [hexParseChars] at hpv
      rw [if_neg (by simp [hv])] at hpv
      rw [← hv]
      exact hpv
    have hveq : v = digitsVal 16 (Char.toNat c :: cs.map Char.toNat) 0 := by
      simpa using hexParseAux_digitsVal _ _ _ hvv
    rw [hv, goParseInt]
    simp only [List.map_cons]
    rw [if_neg (by simp)]
    rw [if_neg h43, if_neg h45]
    (try dsimp only)
    rw [goParseUintBytes.eq_def]
    rw [if_neg (by simp)]
    rw [if_pos (by omega : 2 ≤ 16 ∧ 16 ≤ 36)]
    (try dsimp only)
    have hloop := parseUintLoop_ok 16 (2 ^ 64 - 1) (by omega) (16 == 0)
      (Char.toNat c :: cs.map Char.toNat) 0
      (by
        intro b hb
        rw [← List.map_cons] at hb
        obtain ⟨x, hx, hbx⟩ := List.mem_map.mp hb
        obtain ⟨d, hd⟩ := hfacts x (by rw [hv]; exact hx)
        obtain ⟨hgd, hd16, h95, _⟩ := hexDigit_byte x d hd
        rw [← hbx]
        exact ⟨d, hgd, hd16, h95⟩)
      (by rw [← hveq]; omega)
    rw [hloop, ← hveq]
    have h63 : ¬ (2 : Nat) ^ 63 ≤ v := by omega
    simp [h63]
    omega

/-- Witness for C8 (amended) at concrete inputs. -/
theorem c8_amended_base0_parsing_witness :
    addVar [] ("V" : String) ("70" : String) =
      .ok [(("V" : String), ⟨("70" : String), 70⟩)] ∧
    addVarParse ("70" : String) = .ok (70 : Int) ∧
    addVarParse (String.mk ('&' :: ['1', 'A'])) = .ok (26 : Int) := by
  refine ⟨?_, ?_, ?_⟩
  · have h := c8_amended_base0_parsing.2.1 [] ("V" : String) ("70" : String)
      (70 : Int) (by decide) (by rfl)
    rw [h]
    decide
  · exact c8_amended_base0_parsing.2.2.1 ("70" : String) 70
      (by decide) (by decide) (by decide) (by decide)
  · exact c8_amended_base0_parsing.2.2.2 ['1', 'A'] 26
      (by decide) (by decide) (by decide) (by decide)

/-! ## C1: the round trip -/

/-- **C1 (counterexample).** `AD 01 02` (`LDA &0201`) renders as the
instruction line `LDA USERV+1`, but pass 1 leaves `usedOSVector` (and
everything else the header would define) empty, so the emitted header
defines no symbol and the assembler cannot resolve `USERV+1`: assembling
the rendered text under the emitted header does not reproduce the
consumed bytes. -/
theorem c1_counterexample :
    findBranchTargets [0xAD, 0x01, 0x02] 0 3 0 [] 2 =
      some ⟨[0], [], [], [], []⟩ ∧
    pass2Visit [0xAD, 0x01, 0x02] 0 [] [] [] 0 0 =
      (⟨none, .instr ("LDA") ("USERV+1") [0xAD, 0x01, 0x02]⟩, 3) ∧
    asmInstr (envOfHeader [] [] [] []) 0 ("LDA") ("USERV+1") = none :=
  ⟨by decide, by decide, by decide⟩

/-- The opcode found by the byte-value map carries that byte value. -/
theorem opCodesMap_value {b : Nat} {op : Opcode} (h : opCodesMap b = some op) :
    op.value = b := by
  unfold opCodesMap at h
  have := List.find?_some h
  simpa using this

/-- Hex digit characters parse back to their value and are not operand
punctuation. -/
theorem digitCh_hexVal (k : Nat) (hk : k < 16) : hexDigitVal (digitCh k) = some k := by
  interval_cases k <;> decide

theorem digitCh_decVal (k : Nat) (hk : k < 10) : decDigitVal (digitCh k) = some k := by
  interval_cases k <;> decide

theorem digitCh_ne (k : Nat) (hk : k < 16) :
    digitCh k ≠ ',' ∧ digitCh k ≠ '+' ∧ digitCh k ≠ ')' := by
  interval_cases k <;> decide

theorem hex2Chars_mem (v : Nat) : ∀ c ∈ hex2Chars v, ∃ k, k < 16 ∧ c = digitCh k := by
  intro c hc
  unfold hex2Chars at hc
  simp at hc
  rcases hc with h | h <;> exact ⟨_, by omega, h⟩

theorem hex4Chars_mem (v : Nat) : ∀ c ∈ hex4Chars v, ∃ k, k < 16 ∧ c = digitCh k := by
  intro c hc
  unfold hex4Chars at hc
  simp at hc
  rcases hc with h | h | h | h <;> exact ⟨_, by omega, h⟩

theorem hexParseChars_hex2 (v : Nat) (hv : v < 0x100) :
    hexParseChars (hex2Chars v) = some v := by
  have h1 := digitCh_hexVal (v / 16 % 16) (by omega)
  have h0 := digitCh_hexVal (v % 16) (by omega)
  simp only [hexParseChars, hex2Chars, hexParseAux, h1, h0, Option.some_bind,
    List.isEmpty_cons, Bool.false_eq_true, if_false]
  congr 1
  omega

theorem hexParseChars_hex4 (v : Nat) (hv : v < 0x10000) :
    hexParseChars (hex4Chars v) = some v := by
  have h3 := digitCh_hexVal (v / 4096 % 16) (by omega)
  have h2 := digitCh_hexVal (v / 256 % 16) (by omega)
  have h1 := digitCh_hexVal (v / 16 % 16) (by omega)
  have h0 := digitCh_hexVal (v % 16) (by omega)
  simp only [hexParseChars, hex4Chars, hexParseAux, h3, h2, h1, h0, Option.some_bind,
    List.isEmpty_cons, Bool.false_eq_true, if_false]
  congr 1
  omega

/-- Every character printed for a decimal number is a digit character. -/
theorem natDecChars_digits (n : Nat) : ∀ c ∈ natDecChars n, ∃ k, k < 10 ∧ c = digitCh k := by
  induction n using Nat.strong_induction_on with
  | _ n ih =>
    rw [natDecChars]
    split
    · rename_i h
      intro c hc
      simp at hc
      exact ⟨n, by omega, hc⟩
    · rename_i h
      intro c hc
      rw [List.mem_append] at hc
      rcases hc with hc | hc
      · exact ih (n / 10) (Nat.div_lt_self (by omega) (by omega)) c hc
      · simp at hc
        exact ⟨n % 10, by omega, hc⟩

theorem natDecChars_ne_nil (n : Nat) : natDecChars n ≠ [] := by
  rw [natDecChars]
  split <;> simp

theorem decParseAux_append (l1 l2 : List Char) :
    ∀ n, decParseAux (l1 ++ l2) n = (decParseAux l1 n).bind fun m => decParseAux l2 m := by
  induction l1 with
  | nil => intro n; simp [decParseAux]
  | cons c cs ih =>
    intro n
    simp only [List.cons_append, decParseAux]
    cases decDigitVal c <;> simp [ih]

theorem decParse_natDecChars (n : Nat) :
    ∀ a, decParseAux (natDecChars n) a = some (a * 10 ^ (natDecChars n).length + n) := by
  induction n using Nat.strong_induction_on with
  | _ n ih =>
    intro a
    rw [natDecChars]
    split
    · rename_i h
      simp [decParseAux, digitCh_decVal n h]
    · rename_i h
      rw [decParseAux_append, ih (n / 10) (Nat.div_lt_self (by omega) (by omega)) a]
      simp only [Option.some_bind, decParseAux, digitCh_decVal (n % 10) (by omega),
        Option.some_bind, List.length_append, List.length_cons, List.length_nil]
      congr 1
      have hp : 10 ^ ((natDecChars (n / 10)).length + (0 + 1)) =
          10 ^ (natDecChars (n / 10)).length * 10 := by
        rw [pow_succ]
      rw [hp]
      generalize (10 : Nat) ^ (natDecChars (n / 10)).length = p
      have hdm : n / 10 * 10 + n % 10 = n := by omega
      calc (a * p + n / 10) * 10 + n % 10
          = a * (p * 10) + (n / 10 * 10 + n % 10) := by ring
        _ = a * (p * 10) + n := by rw [hdm]

theorem decParseChars_natDecChars (n : Nat) : decParseChars (natDecChars n) = some n := by
  rw [decParseChars, if_neg (by simp [natDecChars_ne_nil n]), decParse_natDecChars n 0]
  simp

/-- `splitOnce` misses an absent character and splits at the first hit. -/
theorem splitOnce_not_mem (ch : Char) (l : List Char) (h : ch ∉ l) : splitOnce ch l = none := by
  induction l with
  | nil => rfl
  | cons c cs ih =>
    rw [splitOnce, if_neg (fun he => h (by rw [← he]; exact List.mem_cons_self c cs)),
      ih (fun hm => h (List.mem_cons_of_mem c hm))]
    rfl

theorem splitOnce_append (ch : Char) (l1 l2 : List Char) (h : ch ∉ l1) :
    splitOnce ch (l1 ++ ch :: l2) = some (l1, l2) := by
  induction l1 with
  | nil => simp [splitOnce]
  | cons c cs ih =>
    rw [List.cons_append, splitOnce, if_neg (fun he => h (by rw [← he]; exact List.mem_cons_self c cs)),
      ih (fun hm => h (List.mem_cons_of_mem c hm))]
    rfl

/-- Suffix facts used to steer the operand classifier. -/
theorem not_suffix_of_mem {s l : List Char} {c : Char} (hc : c ∈ s) (hl : c ∉ l) :
    ¬ s <:+ l := fun h => hl (h.subset hc)

theorem not_suffix_of_getLast {s l : List Char} {c d : Char}
    (hs : s.getLast? = some c) (hl : l.getLast? = some d) (h : c ≠ d) : ¬ s <:+ l := by
  rintro ⟨t, rfl⟩
  rw [List.getLast?_append_of_ne_nil t
    (fun he => by rw [he] at hs; exact Option.noConfusion hs), hs] at hl
  exact h (Option.some.inj hl)

theorem not_suffix_append_last {a b : List Char} {x : Char}
    (h : ¬ a <:+ b) : ¬ (a ++ [x]) <:+ (b ++ [x]) := by
  rintro ⟨t, ht⟩
  apply h
  refine ⟨t, ?_⟩
  have h2 : (t ++ a) ++ [x] = b ++ [x] := by rw [← ht]; simp [List.append_assoc]
  exact List.append_cancel_right h2

theorem dropSuffixChars_append (suf l : List Char) :
    dropSuffixChars suf (l ++ suf) = some l := by
  unfold dropSuffixChars
  rw [if_pos (List.isSuffixOf_iff_suffix.mpr ⟨l, rfl⟩)]
  congr 1
  have h2 : (l ++ suf).length - suf.length = l.length := by simp
  rw [h2, List.take_left]

theorem dropSuffixChars_none (suf l : List Char) (h : ¬ suf <:+ l) :
    dropSuffixChars suf l = none := by
  unfold dropSuffixChars
  rw [if_neg (fun hb => h (List.isSuffixOf_iff_suffix.mp hb))]

/-- The head of a list determined by a `take` equation. -/
theorem headD_of_take_eq {l r : List Char} {a : Char} {n : Nat}
    (h : l.take n = a :: r) : l.headD ' ' = a := by
  cases l with
  | nil => simp at h
  | cons c cs =>
    cases n with
    | zero => simp at h
    | succ m =>
      rw [List.take_succ_cons] at h
      rw [List.headD_cons]
      exact (List.cons_eq_cons.mp h).1

theorem take2_of_take3 {l : List Char} {a b c : Char}
    (h : l.take 3 = [a, b, c]) : l.take 2 = [a, b] := by
  have h2 : (l.take 3).take 2 = l.take 2 := by
    rw [List.take_take]
    norm_num
  rw [← h2, h]
  rfl

theorem take2_snd_mem {l : List Char} {a b : Char} (h : l.take 2 = [a, b]) : b ∈ l := by
  cases l with
  | nil => simp at h
  | cons x xs =>
    cases xs with
    | nil => simp [List.take] at h
    | cons y ys =>
      have h2 : x = a ∧ y = b := by simpa [List.take] using h
      rw [← h2.2]
      exact List.mem_cons_of_mem x (List.mem_cons_self y ys)

theorem headD_append_ne_nil {a l : List Char} (h : a ≠ []) :
    (a ++ l).headD ' ' = a.headD ' ' := by
  cases a with
  | nil => exact absurd rfl h
  | cons c cs => rfl

/-- `parseTerm` on a hex literal. -/
theorem parseTerm_amp (env : String → Option Nat) (pc : Nat) (ds : List Char) :
    parseTerm env pc ('&' :: ds) = (hexParseChars ds).map fun v => (v : Int) := by
  have hno : ∀ (n : Nat) (r : List Char), ('&' :: ds).take n ≠ 'P' :: r := by
    intro n r h
    have h2 := headD_of_take_eq h
    rw [List.headD_cons] at h2
    exact absurd h2 (by decide)
  unfold parseTerm
  rw [if_neg (hno _ _), if_neg (hno _ _), if_neg (hno _ _),
    if_pos (show ('&' :: ds).headD ' ' = '&' from rfl)]
  rfl

/-- `parseTerm` on a symbol. -/
theorem parseTerm_sym (env : String → Option Nat) (pc : Nat) (l : List Char)
    (hpm : l.take 2 ≠ ['P', '%']) (hamp : l.headD ' ' ≠ '&') (hplus : '+' ∉ l) :
    parseTerm env pc l = (env (String.mk l)).map fun v => (v : Int) := by
  unfold parseTerm
  rw [if_neg (fun h => hpm (take2_of_take3 h)),
    if_neg (fun h => hpm (take2_of_take3 h)),
    if_neg hpm, if_neg hamp, splitOnce_not_mem '+' l hplus]

/-- `parseTerm` on a symbol plus one. -/
theorem parseTerm_plus1 (env : String → Option Nat) (pc : Nat) (a : List Char)
    (hane : a ≠ []) (hpm : (a ++ ['+', '1']).take 2 ≠ ['P', '%'])
    (hamp : a.headD ' ' ≠ '&') (hplus : '+' ∉ a) :
    parseTerm env pc (a ++ ['+', '1']) =
      (env (String.mk a)).map fun v => (v : Int) + 1 := by
  unfold parseTerm
  rw [if_neg (fun h => hpm (take2_of_take3 h)),
    if_neg (fun h => hpm (take2_of_take3 h)),
    if_neg hpm, if_neg (by rw [headD_append_ne_nil hane]; exact hamp),
    show a ++ ['+', '1'] = a ++ '+' :: ['1'] from rfl,
    splitOnce_append '+' a ['1'] hplus]
  simp

/-- `parseTerm` on a `P%`-relative branch expression. -/
theorem parseTerm_rel (env : String → Option Nat) (pc : Nat) (z : Int) :
    parseTerm env pc ('P' :: '%' :: intDecSignedChars z) = some ((pc : Int) + z) := by
  unfold intDecSignedChars
  by_cases hz : z < 0
  · rw [if_pos hz]
    unfold parseTerm
    rw [if_neg (by
        intro h
        have h3 : List.take 3 ('P' :: '%' :: '-' :: natDecChars z.natAbs) =
            ['P', '%', '-'] := rfl
        rw [h3] at h
        exact absurd h (by decide)),
      if_pos (show List.take 3 ('P' :: '%' :: '-' :: natDecChars z.natAbs) =
        ['P', '%', '-'] from rfl),
      show ('P' :: '%' :: '-' :: natDecChars z.natAbs).drop 3 = natDecChars z.natAbs from rfl,
      decParseChars_natDecChars]
    simp
    rw [abs_of_nonpos (by omega : z ≤ 0)]
    ring
  · rw [if_neg hz]
    unfold parseTerm
    rw [if_pos (show List.take 3 ('P' :: '%' :: '+' :: natDecChars z.natAbs) =
        ['P', '%', '+'] from rfl),
      show ('P' :: '%' :: '+' :: natDecChars z.natAbs).drop 3 = natDecChars z.natAbs from rfl,
      decParseChars_natDecChars]
    simp
    omega

/-- Operand-shape classification of the syntactic wrappers. -/
theorem asmOperandParse_abs (env : String → Option Nat) (pc : Nat) (l : List Char)
    (h0 : l ≠ []) (hA : l ≠ ['A']) (hh : l.headD ' ' ≠ '#') (hp : l.headD ' ' ≠ '(')
    (hc : ',' ∉ l) :
    asmOperandParse env pc l = (parseTerm env pc l).map (fun v => (.abs, v)) := by
  unfold asmOperandParse
  rw [if_neg h0, if_neg hA, if_neg hh, if_neg hp,
    dropSuffixChars_none _ _ (not_suffix_of_mem (by decide) hc),
    dropSuffixChars_none _ _ (not_suffix_of_mem (by decide) hc)]

theorem asmOperandParse_absX (env : String → Option Nat) (pc : Nat) (a : List Char)
    (ha : a ≠ []) (hh : a.headD ' ' ≠ '#') (hp : a.headD ' ' ≠ '(') :
    asmOperandParse env pc (a ++ [',', 'X']) =
      (parseTerm env pc a).map (fun v => (.absX, v)) := by
  have hA : a ++ [',', 'X'] ≠ ['A'] := by
    intro h
    have h2 := congrArg List.length h
    simp at h2
  unfold asmOperandParse
  rw [if_neg (by simp), if_neg hA,
    if_neg (by rw [headD_append_ne_nil ha]; exact hh),
    if_neg (by rw [headD_append_ne_nil ha]; exact hp),
    dropSuffixChars_append [',', 'X'] a]

theorem asmOperandParse_absY (env : String → Option Nat) (pc : Nat) (a : List Char)
    (ha : a ≠ []) (hh : a.headD ' ' ≠ '#') (hp : a.headD ' ' ≠ '(') :
    asmOperandParse env pc (a ++ [',', 'Y']) =
      (parseTerm env pc a).map (fun v => (.absY, v)) := by
  have hA : a ++ [',', 'Y'] ≠ ['A'] := by
    intro h
    have h2 := congrArg List.length h
    simp at h2
  have hlast : (a ++ [',', 'Y']).getLast? = some 'Y' := by
    rw [List.getLast?_append_of_ne_nil a (List.cons_ne_nil ',' ['Y'])]
    rfl
  have hfailX : dropSuffixChars [',', 'X'] (a ++ [',', 'Y']) = none :=
    dropSuffixChars_none _ _ (not_suffix_of_getLast rfl hlast (by decide))
  unfold asmOperandParse
  rw [if_neg (by simp), if_neg hA,
    if_neg (by rw [headD_append_ne_nil ha]; exact hh),
    if_neg (by rw [headD_append_ne_nil ha]; exact hp),
    hfailX, dropSuffixChars_append [',', 'Y'] a]

theorem asmOperandParse_imm (env : String → Option Nat) (pc : Nat) (rest : List Char) :
    asmOperandParse env pc ('#' :: rest) =
      (parseTerm env pc rest).map (fun v => (.imm, v)) := by
  unfold asmOperandParse
  rw [if_neg (by simp),
    if_neg (by intro h; exact absurd (List.cons_eq_cons.mp h).1 (by decide)),
    if_pos (show ('#' :: rest).headD ' ' = '#' from rfl)]
  rfl

theorem asmOperandParse_indY (env : String → Option Nat) (pc : Nat) (a : List Char) :
    asmOperandParse env pc ('(' :: (a ++ [')', ',', 'Y'])) =
      (parseTerm env pc a).map (fun v => (.indY, v)) := by
  unfold asmOperandParse
  rw [if_neg (by simp),
    if_neg (by intro h; exact absurd (List.cons_eq_cons.mp h).1 (by decide)),
    if_neg (by intro h; rw [List.headD_cons] at h; exact absurd h (by decide)),
    if_pos (show ('(' :: (a ++ [')', ',', 'Y'])).headD ' ' = '(' from rfl)]
  simp only [List.tail_cons]
  rw [dropSuffixChars_append [')', ',', 'Y'] a]

theorem asmOperandParse_indX (env : String → Option Nat) (pc : Nat) (a : List Char) :
    asmOperandParse env pc ('(' :: (a ++ [',', 'X', ')'])) =
      (parseTerm env pc a).map (fun v => (.indX, v)) := by
  have hlast : (a ++ [',', 'X', ')']).getLast? = some ')' := by
    rw [List.getLast?_append_of_ne_nil a (List.cons_ne_nil ',' ['X', ')'])]
    rfl
  have hfailY : dropSuffixChars [')', ',', 'Y'] (a ++ [',', 'X', ')']) = none :=
    dropSuffixChars_none _ _ (not_suffix_of_getLast rfl hlast (by decide))
  unfold asmOperandParse
  rw [if_neg (by simp),
    if_neg (by intro h; exact absurd (List.cons_eq_cons.mp h).1 (by decide)),
    if_neg (by intro h; rw [List.headD_cons] at h; exact absurd h (by decide)),
    if_pos (show ('(' :: (a ++ [',', 'X', ')'])).headD ' ' = '(' from rfl)]
  simp only [List.tail_cons]
  rw [hfailY, dropSuffixChars_append [',', 'X', ')'] a]

theorem asmOperandParse_ind (env : String → Option Nat) (pc : Nat) (a : List Char)
    (hc : ',' ∉ a) :
    asmOperandParse env pc ('(' :: (a ++ [')'])) =
      (parseTerm env pc a).map (fun v => (.ind, v)) := by
  have hlast : (a ++ [')']).getLast? = some ')' := by
    rw [List.getLast?_append_of_ne_nil a (List.cons_ne_nil ')' [])]
    rfl
  have hfailY : dropSuffixChars [')', ',', 'Y'] (a ++ [')']) = none :=
    dropSuffixChars_none _ _ (not_suffix_of_getLast rfl hlast (by decide))
  have hfailX : dropSuffixChars [',', 'X', ')'] (a ++ [')']) = none := by
    apply dropSuffixChars_none
    have h1 : ¬ [',', 'X'] <:+ a := not_suffix_of_mem (by decide) hc
    have h2 := not_suffix_append_last (x := ')') h1
    simpa using h2
  unfold asmOperandParse
  rw [if_neg (by simp),
    if_neg (by intro h; exact absurd (List.cons_eq_cons.mp h).1 (by decide)),
    if_neg (by intro h; rw [List.headD_cons] at h; exact absurd h (by decide)),
    if_pos (show ('(' :: (a ++ [')'])).headD ' ' = '(' from rfl)]
  simp only [List.tail_cons]
  rw [hfailY, hfailX, dropSuffixChars_append [')'] a]

/-! Table facts established once over the opcode and name tables. -/

set_option maxRecDepth 10000 in
set_option maxHeartbeats 4000000 in
/-- Every branch opcode is its mnemonic's first (and only) table entry,
has `NoMode`, and is 2 or 3 bytes long. -/
theorem tf_branch_find (op : Opcode) (hmem : op ∈ opCodes)
    (hbr : branchOrJump op = .branch) :
    opCodes.find? (fun o => o.name == op.name) = some op ∧
      op.addrMode = .NoMode ∧ (op.length = 2 ∨ op.length = 3) := by
  have h : ∀ o ∈ opCodes, branchOrJump o = .branch →
      opCodes.find? (fun o2 => o2.name == o.name) = some o ∧
        o.addrMode = .NoMode ∧ (o.length = 2 ∨ o.length = 3) := by decide
  exact h op hmem hbr

set_option maxRecDepth 10000 in
set_option maxHeartbeats 4000000 in
/-- Every documented non-branch opcode is found back by its
(mnemonic, mode) pair, and its length matches its operand width. -/
theorem tf_find_back (op : Opcode) (hmem : op ∈ opCodes)
    (hnb : branchOrJump op ≠ .branch) (hdoc : isOpcodeDocumented op = true) :
    findOp op.name op.addrMode = some op ∧
      op.length = operandByteCount op.addrMode + 1 := by
  have h : ∀ o ∈ opCodes, branchOrJump o ≠ .branch → isOpcodeDocumented o = true →
      findOp o.name o.addrMode = some o ∧
        o.length = operandByteCount o.addrMode + 1 := by decide
  exact h op hmem hnb hdoc

theorem tf_value_4C (op : Opcode) (hmem : op ∈ opCodes) (h : op.value = 0x4C) :
    op = ⟨0x4C, ("JMP"), 3, .Absolute⟩ := by
  have hall : ∀ o ∈ opCodes, o.value = 0x4C → o = ⟨0x4C, ("JMP"), 3, .Absolute⟩ := by decide
  exact hall op hmem h

theorem tf_value_20 (op : Opcode) (hmem : op ∈ opCodes) (h : op.value = 0x20) :
    op = ⟨0x20, ("JSR"), 3, .Absolute⟩ := by
  have hall : ∀ o ∈ opCodes, o.value = 0x20 → o = ⟨0x20, ("JSR"), 3, .Absolute⟩ := by decide
  exact hall op hmem h

theorem tf_indirect_jmp (op : Opcode) (hmem : op ∈ opCodes)
    (h : op.addrMode = .Indirect) : op.name = "JMP" := by
  have hall : ∀ o ∈ opCodes, o.addrMode = .Indirect → o.name = "JMP" := by decide
  exact hall op hmem h

theorem tf_no_zprel (op : Opcode) (hmem : op ∈ opCodes) :
    op.addrMode ≠ .ZeroPageRel := by
  have hall : ∀ o ∈ opCodes, o.addrMode ≠ .ZeroPageRel := by decide
  exact hall op hmem

/-- Shape of the OS-call and OS-vector names: nonempty, not `A`, not
starting with operand punctuation or `P%`, no comma or plus, and not
starting with `l` (the label namespace). -/
theorem tf_os_name_facts (p : Nat × String) (hp : p ∈ addressToOsCallName) :
    p.2.data ≠ [] ∧ p.2.data ≠ ['A'] ∧
    p.2.data.headD ' ' ≠ '#' ∧ p.2.data.headD ' ' ≠ '(' ∧ p.2.data.headD ' ' ≠ '&' ∧
    p.2.data.headD ' ' ≠ 'l' ∧ p.2.data.take 2 ≠ ['P', '%'] ∧
    ',' ∉ p.2.data ∧ '+' ∉ p.2.data := by
  have hall : ∀ q ∈ addressToOsCallName, q.2.data ≠ [] ∧ q.2.data ≠ ['A'] ∧
      q.2.data.headD ' ' ≠ '#' ∧ q.2.data.headD ' ' ≠ '(' ∧ q.2.data.headD ' ' ≠ '&' ∧
      q.2.data.headD ' ' ≠ 'l' ∧ q.2.data.take 2 ≠ ['P', '%'] ∧
      ',' ∉ q.2.data ∧ '+' ∉ q.2.data := by decide
  exact hall p hp

theorem tf_vec_name_facts (p : Nat × String) (hp : p ∈ osVectorAddresses) :
    p.2.data ≠ [] ∧ p.2.data ≠ ['A'] ∧
    p.2.data.headD ' ' ≠ '#' ∧ p.2.data.headD ' ' ≠ '(' ∧ p.2.data.headD ' ' ≠ '&' ∧
    p.2.data.headD ' ' ≠ 'l' ∧ p.2.data.take 2 ≠ ['P', '%'] ∧
    ',' ∉ p.2.data ∧ '+' ∉ p.2.data := by
  have hall : ∀ q ∈ osVectorAddresses, q.2.data ≠ [] ∧ q.2.data ≠ ['A'] ∧
      q.2.data.headD ' ' ≠ '#' ∧ q.2.data.headD ' ' ≠ '(' ∧ q.2.data.headD ' ' ≠ '&' ∧
      q.2.data.headD ' ' ≠ 'l' ∧ q.2.data.take 2 ≠ ['P', '%'] ∧
      ',' ∉ q.2.data ∧ '+' ∉ q.2.data := by decide
  exact hall p hp

/-- A branch opcode's mnemonic is in the branch list, and conversely. -/
theorem branch_contains {op : Opcode} (h : branchOrJump op = .branch) :
    branchInstructions.contains op.name = true := by
  unfold branchOrJump at h
  by_cases hc : branchInstructions.contains op.name = true
  · exact hc
  · rw [if_neg hc] at h
    split at h <;> exact absurd h (by decide)

theorem not_branch_contains {op : Opcode} (h : branchOrJump op ≠ .branch) :
    branchInstructions.contains op.name = false := by
  by_cases hc : branchInstructions.contains op.name = true
  · exact absurd (by unfold branchOrJump; rw [if_pos hc]) h
  · exact (Bool.not_eq_true _).mp hc

/-- An opcode's own mode is available for its mnemonic. -/
theorem hasMode_self (op : Opcode) (h : op ∈ opCodes) :
    hasMode op.name op.addrMode = true := by
  unfold hasMode
  rw [List.any_eq_true]
  exact ⟨op, h, by simp⟩

/-- `listIdxOf` inverts to a positional lookup. -/
theorem listIdxOf_get? {l : List Nat} : ∀ {t i : Nat}, listIdxOf l t = some i →
    l.get? i = some t := by
  induction l with
  | nil => intro t i h; simp [listIdxOf] at h
  | cons a l ih =>
    intro t i h
    rw [listIdxOf] at h
    by_cases ha : (a == t) = true
    · rw [if_pos ha] at h
      injection h with h0
      rw [← h0]
      simp only [List.get?]
      exact congrArg some (by simpa using ha)
    · rw [if_neg ha] at h
      rw [Option.map_eq_some'] at h
      obtain ⟨j, hj, hij⟩ := h
      rw [← hij]
      simp only [List.get?]
      exact ih hj

/-- The first map entry with a unique key is found by key. -/
theorem find_by_key (vars : Vars) (q : String × VarDef)
    (hnodup : (vars.map Prod.fst).Nodup) (hq : q ∈ vars) :
    vars.find? (fun p => p.1 == q.1) = some q := by
  induction vars with
  | nil => simp at hq
  | cons r rest ih =>
    rw [List.map_cons, List.nodup_cons] at hnodup
    rcases List.mem_cons.mp hq with rfl | hq'
    · rw [List.find?_cons_of_pos _ (by simp)]
    · have hr : (r.1 == q.1) = false := by
        rw [beq_eq_false_iff_ne]
        intro he
        exact hnodup.1 (he ▸ List.mem_map_of_mem Prod.fst hq')
      rw [List.find?_cons_of_neg _ (by simp [hr]), ih hnodup.2 hq']

/-- The full environment resolves an OS-call name to its table address. -/
theorem envFull_osCall (bt : List Nat) (vars : Vars) (a : Nat) (s : String)
    (h : tblLookup addressToOsCallName a = some s) :
    envFull bt vars s = some a := by
  unfold tblLookup at h
  rw [Option.map_eq_some'] at h
  obtain ⟨p, hfind, hps⟩ := h
  have hmem := List.mem_of_find?_eq_some hfind
  have hpred := List.find?_some hfind
  have hpa : p.1 = a := by simpa using hpred
  rw [← hps, ← hpa]
  fin_cases hmem <;> rfl

/-- The full environment resolves an OS-vector name to its base address. -/
theorem envFull_vector (bt : List Nat) (vars : Vars) (a : Nat) (s : String)
    (h : tblLookup osVectorAddresses a = some s) :
    envFull bt vars s = some a := by
  unfold tblLookup at h
  rw [Option.map_eq_some'] at h
  obtain ⟨p, hfind, hps⟩ := h
  have hmem := List.mem_of_find?_eq_some hfind
  have hpred := List.find?_some hfind
  have hpa : p.1 = a := by simpa using hpred
  rw [← hps, ← hpa]
  fin_cases hmem <;> rfl

/-- The full environment resolves `label_i` to the i-th branch target. -/
theorem envFull_label (bt : List Nat) (vars : Vars) (i : Nat) :
    envFull bt vars (labelName i) = bt.get? i := by
  have hhead : (labelName i).data.headD ' ' = 'l' := rfl
  have hos : addressToOsCallName.find?
      (fun p => p.2 == labelName i &&
        (addressToOsCallName.map (fun p => p.1)).contains p.1) = none := by
    rw [List.find?_eq_none]
    intro p hp
    have hne : p.2 ≠ labelName i := by
      intro he
      have h2 : p.2.data.headD ' ' = 'l' := by rw [he]; exact hhead
      exact absurd h2 (tf_os_name_facts p hp).2.2.2.2.2.1
    simp [hne]
  have hvec : osVectorAddresses.find?
      (fun p => p.2 == labelName i &&
        (osVectorAddresses.map (fun p => p.1)).contains p.1) = none := by
    rw [List.find?_eq_none]
    intro p hp
    have hne : p.2 ≠ labelName i := by
      intro he
      have h2 : p.2.data.headD ' ' = 'l' := by rw [he]; exact hhead
      exact absurd h2 (tf_vec_name_facts p hp).2.2.2.2.2.1
    simp [hne]
  unfold envFull envOfHeader
  rw [hos, hvec]
  simp only [Option.map_none']
  rw [if_pos (show (labelName i).data.take 6 = ['l', 'a', 'b', 'e', 'l', '_'] from rfl),
    show (labelName i).data.drop 6 = natDecChars i from rfl,
    decParseChars_natDecChars]

/-- Facts packaged in `goodVarName`. -/
theorem goodVarName_unpack {s : String} (h : goodVarName s = true) :
    s.data ≠ [] ∧ s.data ≠ ['A'] ∧
    (∀ c ∈ s.data, c.isAlpha = true ∨ c.isDigit = true ∨ c = '_') ∧
    (s.data.headD ' ').isAlpha = true ∧
    s.data.take 6 ≠ ['l', 'a', 'b', 'e', 'l', '_'] ∧
    (∀ p ∈ addressToOsCallName, p.2 ≠ s) ∧
    (∀ p ∈ osVectorAddresses, p.2 ≠ s) := by
  unfold goodVarName at h
  simp only [Bool.and_eq_true] at h
  obtain ⟨⟨⟨⟨⟨h1, h2⟩, h3⟩, h4⟩, h5⟩, h6⟩ := h
  have hdata : s.data ≠ [] ∧ (s.data.headD ' ').isAlpha = true := by
    cases hd : s.data with
    | nil => rw [hd] at h1; exact absurd h1 (by decide)
    | cons c cs =>
      rw [hd] at h1
      exact ⟨by simp, h1⟩
  refine ⟨hdata.1, ?_, ?_, hdata.2, ?_, ?_, ?_⟩
  · intro he
    have : s = "A" := String.ext he
    rw [this] at h3
    exact absurd h3 (by decide)
  · intro c hc
    have h7 := List.all_eq_true.mp h2 c hc
    have h8 : (c.isAlpha = true ∨ c.isDigit = true) ∨ c = '_' := by
      simpa [Bool.or_eq_true] using h7
    exact or_assoc.mp h8
  · intro he
    rw [bne_iff_ne] at h4
    exact h4 he
  · intro p hp he
    have := List.all_eq_true.mp h5 p hp
    rw [bne_iff_ne] at this
    exact this he
  · intro p hp he
    have := List.all_eq_true.mp h6 p hp
    rw [bne_iff_ne] at this
    exact this he

/-- Characters legal in a variable name are not operand punctuation. -/
theorem varChar_ne (c : Char) (h : c.isAlpha = true ∨ c.isDigit = true ∨ c = '_') :
    c ≠ ',' ∧ c ≠ '+' ∧ c ≠ '%' := by
  refine ⟨?_, ?_, ?_⟩ <;> intro he <;> rw [he] at h <;>
    rcases h with h | h | h <;> exact absurd h (by decide)

/-- The full environment resolves a variable name recorded by value. -/
theorem envFull_var (bt : List Nat) (vars : Vars) (dvar : String) (val : Nat)
    (hgood : ∀ p ∈ vars, goodVarName p.1 = true)
    (hnodup : (vars.map Prod.fst).Nodup)
    (hlook : lookupVar vars val = some dvar) :
    envFull bt vars dvar = some val := by
  unfold lookupVar at hlook
  rw [Option.map_eq_some'] at hlook
  obtain ⟨q, hfind, hq1⟩ := hlook
  have hqmem := List.mem_of_find?_eq_some hfind
  have hqpred := List.find?_some hfind
  have hqval : q.2.ival = val := by simpa using hqpred
  have hfacts := goodVarName_unpack (hgood q hqmem)
  rw [← hq1]
  have hos : addressToOsCallName.find?
      (fun p => p.2 == q.1 &&
        (addressToOsCallName.map (fun p => p.1)).contains p.1) = none := by
    rw [List.find?_eq_none]
    intro p hp
    simp [hfacts.2.2.2.2.2.1 p hp]
  have hvec : osVectorAddresses.find?
      (fun p => p.2 == q.1 &&
        (osVectorAddresses.map (fun p => p.1)).contains p.1) = none := by
    rw [List.find?_eq_none]
    intro p hp
    simp [hfacts.2.2.2.2.2.2 p hp]
  unfold envFull envOfHeader
  rw [hos, hvec]
  simp only [Option.map_none']
  rw [if_neg hfacts.2.2.2.2.1, find_by_key vars q hnodup hqmem]
  simp [hqval]

/-- A byte wrapped through `uint` branch-target arithmetic is recovered by
the assembler's displacement modulo 256. -/
theorem wrap_byte (X P : Int) (b : Nat) (hb : b < 256) (hXP : X - P = signed8 b) :
    ((((X.emod (W : Int)).toNat : Int) - P).emod 256).toNat = b := by
  have hW : (W : Int) = 18446744073709551616 := by norm_num [W]
  rw [hW]
  have htn : ((X.emod 18446744073709551616).toNat : Int) =
      X.emod 18446744073709551616 :=
    Int.toNat_of_nonneg (Int.emod_nonneg _ (by norm_num))
  rw [htn]
  show ((X % 18446744073709551616 - P) % 256).toNat = b
  rw [Int.sub_emod,
    Int.emod_emod_of_dvd _ (by norm_num : (256 : Int) ∣ 18446744073709551616),
    ← Int.sub_emod, hXP]
  unfold signed8
  split <;> omega

/-- A `P%`-relative branch expression reassembles to the original byte. -/
theorem rel_byte_eq (pcI len : Int) (b : Nat) (hb : b < 256) :
    ((pcI + (signed8 b + len) - (pcI + len)).emod 256).toNat = b := by
  have h2 : pcI + (signed8 b + len) - (pcI + len) = signed8 b := by ring
  rw [h2]
  show ((signed8 b % 256).toNat) = b
  unfold signed8
  split <;> omega

theorem encodeOperand_zero (m : AddressingMode) (val : Nat)
    (hm : operandByteCount m = 0) :
    encodeOperand m ((val : Nat) : Int) = some [] := by
  unfold encodeOperand
  rw [hm, if_neg (by omega), if_pos rfl]

theorem encodeOperand_one (m : AddressingMode) (val : Nat)
    (hm : operandByteCount m = 1) (hv : val < 0x100) :
    encodeOperand m ((val : Nat) : Int) = some [val] := by
  unfold encodeOperand
  rw [hm, if_neg (by omega), if_neg (by decide), if_pos (by decide),
    if_pos (by simpa using hv)]
  simp

theorem encodeOperand_two (m : AddressingMode) (val : Nat)
    (hm : operandByteCount m = 2) (hv : val < 0x10000) :
    encodeOperand m ((val : Nat) : Int) = some [val % 256, val / 256] := by
  unfold encodeOperand
  rw [hm, if_neg (by omega), if_neg (by decide), if_neg (by decide),
    if_pos (by simpa using hv)]
  simp

/-- Shape facts of a hex-literal operand text. -/
theorem amp_txt_facts (ds : List Char) (hds : ∀ c ∈ ds, ∃ k, k < 16 ∧ c = digitCh k) :
    ('&' :: ds) ≠ [] ∧ ('&' :: ds) ≠ ['A'] ∧ ('&' :: ds).headD ' ' ≠ '#' ∧
      ('&' :: ds).headD ' ' ≠ '(' ∧ ',' ∉ ('&' :: ds) := by
  refine ⟨by simp, ?_, ?_, ?_, ?_⟩
  · intro h
    exact absurd (List.cons_eq_cons.mp h).1 (by decide)
  · intro h
    rw [List.headD_cons] at h
    exact absurd h (by decide)
  · intro h
    rw [List.headD_cons] at h
    exact absurd h (by decide)
  · intro hc
    rcases List.mem_cons.mp hc with h | h
    · exact absurd h (by decide)
    · obtain ⟨k, hk, hck⟩ := hds ',' h
      exact absurd hck.symm (digitCh_ne k hk).1

/-- Shape facts of a variable-name operand text. -/
theorem var_txt_facts (s : String) (h : goodVarName s = true) :
    s.data ≠ [] ∧ s.data ≠ ['A'] ∧ s.data.headD ' ' ≠ '#' ∧ s.data.headD ' ' ≠ '(' ∧
      ',' ∉ s.data ∧ '+' ∉ s.data ∧ s.data.take 2 ≠ ['P', '%'] ∧
      s.data.headD ' ' ≠ '&' := by
  obtain ⟨h0, hA, hcls, hhead, _, _, _⟩ := goodVarName_unpack h
  have hne : ∀ (d : Char), d.isAlpha = false → s.data.headD ' ' ≠ d := by
    intro d hd he
    rw [he, hd] at hhead
    exact Bool.false_ne_true hhead
  refine ⟨h0, hA, hne '#' (by decide), hne '(' (by decide), ?_, ?_, ?_,
    hne '&' (by decide)⟩
  · intro hc
    exact (varChar_ne ',' (hcls ',' hc)).1 rfl
  · intro hc
    exact (varChar_ne '+' (hcls '+' hc)).2.1 rfl
  · intro h2
    exact (varChar_ne '%' (hcls '%' (take2_snd_mem h2))).2.2 rfl

/-- Shape facts of a label-name operand text. -/
theorem label_txt_facts (i : Nat) :
    (labelName i).data ≠ [] ∧ (labelName i).data ≠ ['A'] ∧
      (labelName i).data.headD ' ' ≠ '#' ∧ (labelName i).data.headD ' ' ≠ '(' ∧
      ',' ∉ (labelName i).data ∧ '+' ∉ (labelName i).data ∧
      (labelName i).data.take 2 ≠ ['P', '%'] ∧ (labelName i).data.headD ' ' ≠ '&' := by
  have hdata : (labelName i).data = 'l' :: 'a' :: 'b' :: 'e' :: 'l' :: '_' :: natDecChars i :=
    rfl
  rw [hdata]
  have hmem : ∀ (c : Char), c ∈ 'l' :: 'a' :: 'b' :: 'e' :: 'l' :: '_' :: natDecChars i →
      c = 'l' ∨ c = 'a' ∨ c = 'b' ∨ c = 'e' ∨ c = '_' ∨ ∃ k, k < 10 ∧ c = digitCh k := by
    intro c hc
    simp only [List.mem_cons] at hc
    rcases hc with h | h | h | h | h | h | h
    · exact Or.inl h
    · exact Or.inr (Or.inl h)
    · exact Or.inr (Or.inr (Or.inl h))
    · exact Or.inr (Or.inr (Or.inr (Or.inl h)))
    · exact Or.inl h
    · exact Or.inr (Or.inr (Or.inr (Or.inr (Or.inl h))))
    · exact Or.inr (Or.inr (Or.inr (Or.inr (Or.inr (natDecChars_digits i c h)))))
  refine ⟨by simp, ?_, ?_, ?_, ?_, ?_, ?_, ?_⟩
  · intro h
    exact absurd (List.cons_eq_cons.mp h).1 (by decide)
  · intro h
    rw [List.headD_cons] at h
    exact absurd h (by decide)
  · intro h
    rw [List.headD_cons] at h
    exact absurd h (by decide)
  · intro hc
    rcases hmem ',' hc with h | h | h | h | h | ⟨k, hk, hck⟩
    · exact absurd h (by decide)
    · exact absurd h (by decide)
    · exact absurd h (by decide)
    · exact absurd h (by decide)
    · exact absurd h (by decide)
    · exact absurd hck.symm (digitCh_ne k (by omega)).1
  · intro hc
    rcases hmem '+' hc with h | h | h | h | h | ⟨k, hk, hck⟩
    · exact absurd h (by decide)
    · exact absurd h (by decide)
    · exact absurd h (by decide)
    · exact absurd h (by decide)
    · exact absurd h (by decide)
    · exact absurd hck.symm (digitCh_ne k (by omega)).2.1
  · intro h
    rw [show List.take 2 ('l' :: 'a' :: 'b' :: 'e' :: 'l' :: '_' :: natDecChars i) =
      ['l', 'a'] from rfl] at h
    exact absurd h (by decide)
  · intro h
    rw [List.headD_cons] at h
    exact absurd h (by decide)

/-- Shape facts of an OS-call name found by address. -/
theorem os_lookup_facts (a : Nat) (s : String)
    (h : tblLookup addressToOsCallName a = some s) :
    s.data ≠ [] ∧ s.data ≠ ['A'] ∧ s.data.headD ' ' ≠ '#' ∧ s.data.headD ' ' ≠ '(' ∧
      ',' ∉ s.data ∧ '+' ∉ s.data ∧ s.data.take 2 ≠ ['P', '%'] ∧
      s.data.headD ' ' ≠ '&' := by
  unfold tblLookup at h
  rw [Option.map_eq_some'] at h
  obtain ⟨p, hfind, hps⟩ := h
  have hf := tf_os_name_facts p (List.mem_of_find?_eq_some hfind)
  rw [← hps]
  exact ⟨hf.1, hf.2.1, hf.2.2.1, hf.2.2.2.1, hf.2.2.2.2.2.2.2.1,
    hf.2.2.2.2.2.2.2.2, hf.2.2.2.2.2.2.1, hf.2.2.2.2.1⟩

/-- Shape facts of an OS-vector name found by address. -/
theorem vec_lookup_facts (a : Nat) (s : String)
    (h : tblLookup osVectorAddresses a = some s) :
    s.data ≠ [] ∧ s.data ≠ ['A'] ∧ s.data.headD ' ' ≠ '#' ∧ s.data.headD ' ' ≠ '(' ∧
      ',' ∉ s.data ∧ '+' ∉ s.data ∧ s.data.take 2 ≠ ['P', '%'] ∧
      s.data.headD ' ' ≠ '&' := by
  unfold tblLookup at h
  rw [Option.map_eq_some'] at h
  obtain ⟨p, hfind, hps⟩ := h
  have hf := tf_vec_name_facts p (List.mem_of_find?_eq_some hfind)
  rw [← hps]
  exact ⟨hf.1, hf.2.1, hf.2.2.1, hf.2.2.2.1, hf.2.2.2.2.2.2.2.1,
    hf.2.2.2.2.2.2.2.2, hf.2.2.2.2.2.2.1, hf.2.2.2.2.1⟩

/-- Appending `+1` cannot make a symbol look like a `P%` expression. -/
theorem take2_append_ne (a : List Char) (ha : a ≠ []) (h2 : a.take 2 ≠ ['P', '%']) :
    (a ++ ['+', '1']).take 2 ≠ ['P', '%'] := by
  cases a with
  | nil => exact absurd rfl ha
  | cons c cs =>
    cases cs with
    | nil =>
      intro h
      rw [show ([c] ++ ['+', '1']).take 2 = [c, '+'] from rfl] at h
      have h3 := (List.cons_eq_cons.mp h).2
      exact absurd (List.cons_eq_cons.mp h3).1 (by decide)
    | cons d ds =>
      intro h
      rw [show ((c :: d :: ds) ++ ['+', '1']).take 2 = [c, d] from rfl] at h
      exact h2 ((show (c :: d :: ds).take 2 = [c, d] from rfl).trans h)

theorem lookupVar_good (vars : Vars) (val : Nat) (dvar : String)
    (hgood : ∀ p ∈ vars, goodVarName p.1 = true)
    (h : lookupVar vars val = some dvar) : goodVarName dvar = true := by
  unfold lookupVar at h
  rw [Option.map_eq_some'] at h
  obtain ⟨q, hfind, hq⟩ := h
  rw [← hq]
  exact hgood q (List.mem_of_find?_eq_some hfind)

/-- Term evaluation of the rendering sources. -/
theorem term_hex2 (env : String → Option Nat) (pc val : Nat) (hv : val < 0x100) :
    parseTerm env pc ('&' :: hex2Chars val) = some ((val : Nat) : Int) := by
  rw [parseTerm_amp, hexParseChars_hex2 val hv]
  rfl

theorem term_hex4 (env : String → Option Nat) (pc val : Nat) (hv : val < 0x10000) :
    parseTerm env pc ('&' :: hex4Chars val) = some ((val : Nat) : Int) := by
  rw [parseTerm_amp, hexParseChars_hex4 val hv]
  rfl

theorem term_var (bt : List Nat) (vars : Vars) (pc : Nat) (dvar : String) (val : Nat)
    (hgood : ∀ p ∈ vars, goodVarName p.1 = true)
    (hnodup : (vars.map Prod.fst).Nodup)
    (hlook : lookupVar vars val = some dvar) :
    parseTerm (envFull bt vars) pc dvar.data = some ((val : Nat) : Int) := by
  have hf := var_txt_facts dvar (lookupVar_good vars val dvar hgood hlook)
  rw [parseTerm_sym _ _ _ hf.2.2.2.2.2.2.1 hf.2.2.2.2.2.2.2 hf.2.2.2.2.2.1]
  have hmk : String.mk dvar.data = dvar := rfl
  rw [hmk, envFull_var bt vars dvar val hgood hnodup hlook]
  rfl

theorem term_label (bt : List Nat) (vars : Vars) (pc i tgt : Nat)
    (h : btLookup bt tgt = some i) :
    parseTerm (envFull bt vars) pc (labelName i).data = some ((tgt : Nat) : Int) := by
  have hf := label_txt_facts i
  rw [parseTerm_sym _ _ _ hf.2.2.2.2.2.2.1 hf.2.2.2.2.2.2.2 hf.2.2.2.2.2.1]
  have hmk : String.mk (labelName i).data = labelName i := rfl
  rw [hmk, envFull_label, listIdxOf_get? h]
  rfl

theorem term_os (bt : List Nat) (vars : Vars) (pc a : Nat) (s : String)
    (h : tblLookup addressToOsCallName a = some s) :
    parseTerm (envFull bt vars) pc s.data = some ((a : Nat) : Int) := by
  have hf := os_lookup_facts a s h
  rw [parseTerm_sym _ _ _ hf.2.2.2.2.2.2.1 hf.2.2.2.2.2.2.2 hf.2.2.2.2.2.1]
  have hmk : String.mk s.data = s := rfl
  rw [hmk, envFull_osCall bt vars a s h]
  rfl

theorem term_vec (bt : List Nat) (vars : Vars) (pc a : Nat) (s : String)
    (h : tblLookup osVectorAddresses a = some s) :
    parseTerm (envFull bt vars) pc s.data = some ((a : Nat) : Int) := by
  have hf := vec_lookup_facts a s h
  rw [parseTerm_sym _ _ _ hf.2.2.2.2.2.2.1 hf.2.2.2.2.2.2.2 hf.2.2.2.2.2.1]
  have hmk : String.mk s.data = s := rfl
  rw [hmk, envFull_vector bt vars a s h]
  rfl

theorem term_vec1 (bt : List Nat) (vars : Vars) (pc a : Nat) (s : String)
    (h : tblLookup osVectorAddresses a = some s) :
    parseTerm (envFull bt vars) pc (s.data ++ ['+', '1']) =
      some (((a : Nat) : Int) + 1) := by
  have hf := vec_lookup_facts a s h
  rw [parseTerm_plus1 _ _ _ hf.1 (take2_append_ne s.data hf.1 hf.2.2.2.2.2.2.1)
    hf.2.2.2.2.2.2.2 hf.2.2.2.2.2.1]
  have hmk : String.mk s.data = s := rfl
  rw [hmk, envFull_vector bt vars a s h]
  rfl

/-- The wai fidelity check forces a 16-bit operand for the three
absolute forms. -/
theorem wai_absolute {op : Opcode} {instruction : List Nat}
    (hm : op.addrMode = .Absolute ∨ op.addrMode = .AbsoluteX ∨ op.addrMode = .AbsoluteY)
    (h : willAssembleIdentically op instruction = true) :
    0x100 ≤ instruction.getD 2 0 * 256 + instruction.getD 1 0 := by
  unfold willAssembleIdentically at h
  rw [if_pos (by rcases hm with h2 | h2 | h2 <;> simp [h2])] at h
  simpa using h

theorem tf_jump_cases (op : Opcode) (hmem : op ∈ opCodes)
    (hj : branchOrJump op = .jump) :
    op = ⟨0x4C, ("JMP"), 3, .Absolute⟩ ∨ op = ⟨0x6C, ("JMP"), 3, .Indirect⟩ ∨
      op = ⟨0x20, ("JSR"), 3, .Absolute⟩ := by
  have hall : ∀ o ∈ opCodes, branchOrJump o = .jump →
      o = ⟨0x4C, ("JMP"), 3, .Absolute⟩ ∨ o = ⟨0x6C, ("JMP"), 3, .Indirect⟩ ∨
        o = ⟨0x20, ("JSR"), 3, .Absolute⟩ := by decide
  exact hall op hmem hj

/-- One non-branch assembly step, reduced to the classifier's output, the
mode choice and the encoding. -/
theorem asm_nonbranch (bt : List Nat) (vars : Vars) (pc : Nat) (op : Opcode)
    (operand : String) (sh : OperandShape) (val : Nat) (bs : List Nat)
    (hmem : op ∈ opCodes) (hdoc : isOpcodeDocumented op = true)
    (hnb : branchOrJump op ≠ .branch)
    (hparse : asmOperandParse (envFull bt vars) pc operand.data =
      some (sh, ((val : Nat) : Int)))
    (hmode : shapeToMode op.name sh ((val : Nat) : Int) = op.addrMode)
    (henc : encodeOperand op.addrMode ((val : Nat) : Int) = some bs) :
    asmInstr (envFull bt vars) pc op.name operand = some (op.value :: bs) := by
  unfold asmInstr
  rw [if_neg (by
    intro hc
    rw [not_branch_contains hnb] at hc
    exact Bool.false_ne_true hc)]
  rw [hparse]
  simp only []
  rw [hmode, (tf_find_back op hmem hnb hdoc).1, henc]
  rfl

/-! ## C1 amended: the round trip under the full symbol environment -/

set_option maxHeartbeats 4000000 in
/-- **C1 (amended).** Per rendered instruction line the round trip holds
once the assembler resolves symbols in the full environment: all OS-call
and OS-vector names at their addresses, every branch-target label at its
sorted index, and the user variables (with identifier-shaped, distinct
names) at their values.  For any opcode found in the table that is
documented and assembles identically, with the instruction bytes of the
opcode's length and byte-sized, assembling the text that `decode`
renders for it - at the same program counter `cursor + branchAdjust` -
returns exactly the consumed instruction bytes. -/
theorem c1_amended_round_trip :
    ∀ (vars : Vars) (bt : List Nat) (branchAdjust cursor : Nat) (op : Opcode)
      (instruction : List Nat),
      opCodesMap (instruction.getD 0 0) = some op →
      isOpcodeDocumented op = true →
      willAssembleIdentically op instruction = true →
      instruction.length = op.length →
      (∀ b ∈ instruction, b < 256) →
      (∀ p ∈ vars, goodVarName p.1 = true) →
      (vars.map Prod.fst).Nodup →
      asmInstr (envFull bt vars) (cursor + branchAdjust) op.name
        (decode vars bt branchAdjust op instruction cursor) = some instruction := by
  intro vars bt branchAdjust cursor op instruction hop hdoc hwai hlen hbytes hgood hnodup
  have hmem := opCodesMap_mem hop
  have hval := opCodesMap_value hop
  rcases hbj : branchOrJump op with _ | _ | _
  · -- neither
    have hnb : branchOrJump op ≠ .branch := by rw [hbj]; decide
    have hne4C : instruction.getD 0 0 ≠ 0x4C := by
      intro h
      have h2 := tf_value_4C op hmem (hval.trans h)
      rw [h2] at hbj
      exact absurd hbj (by decide)
    have hne20 : instruction.getD 0 0 ≠ 0x20 := by
      intro h
      have h2 := tf_value_20 op hmem (hval.trans h)
      rw [h2] at hbj
      exact absurd hbj (by decide)
    have hflen := (tf_find_back op hmem hnb hdoc).2
    have hcond : (instruction.getD 0 0 == OpJMPAbsolute ||
        instruction.getD 0 0 == OpJSRAbsolute) = false := by
      rw [Bool.or_eq_false_iff]
      constructor <;> rw [beq_eq_false_iff_ne]
      · exact hne4C
      · exact hne20
    unfold decode
    rw [if_neg (by rw [hcond]; exact Bool.false_ne_true),
      if_neg (by simp [hbj])]
    rcases haddr : op.addrMode
    · -- NoMode
      dsimp only
      rw [haddr] at hflen
      obtain ⟨a, hi⟩ := List.length_eq_one.mp (by rw [hlen, hflen]; rfl)
      subst hi
      have hvala : op.value = a := by simpa using hval
      rw [asm_nonbranch bt vars (cursor + branchAdjust) op ("") .noOperand 0 []
        hmem hdoc hnb
        (by
          show asmOperandParse (envFull bt vars) (cursor + branchAdjust) [] =
            some (.noOperand, ((0 : Nat) : Int))
          unfold asmOperandParse
          rw [if_pos rfl]
          norm_num)
        (by rw [haddr]; rfl)
        (encodeOperand_zero op.addrMode 0 (by rw [haddr]; rfl))]
      rw [hvala]
    · -- Accumulator
      dsimp only
      rw [haddr] at hflen
      obtain ⟨a, hi⟩ := List.length_eq_one.mp (by rw [hlen, hflen]; rfl)
      subst hi
      have hvala : op.value = a := by simpa using hval
      rw [asm_nonbranch bt vars (cursor + branchAdjust) op ("A") .acc 0 []
        hmem hdoc hnb
        (by
          show asmOperandParse (envFull bt vars) (cursor + branchAdjust) ['A'] =
            some (.acc, ((0 : Nat) : Int))
          unfold asmOperandParse
          rw [if_neg (by simp), if_pos rfl]
          norm_num)
        (by rw [haddr]; rfl)
        (encodeOperand_zero op.addrMode 0 (by rw [haddr]; rfl))]
      rw [hvala]
    · -- Immediate
      rw [haddr] at hflen
      obtain ⟨a, b1, hi⟩ := List.length_eq_two.mp (by rw [hlen, hflen]; rfl)
      subst hi
      have hvala : op.value = a := by simpa using hval
      have hb1 : b1 < 256 := hbytes b1 (by simp)
      dsimp only
      rw [show [a, b1].getD 1 0 = b1 from rfl]
      rw [asm_nonbranch bt vars (cursor + branchAdjust) op
        (String.mk ('#' :: '&' :: hex2Chars b1)) .imm b1 [b1] hmem hdoc hnb
        (by
          show asmOperandParse (envFull bt vars) (cursor + branchAdjust)
            ('#' :: '&' :: hex2Chars b1) = some (.imm, ((b1 : Nat) : Int))
          rw [asmOperandParse_imm, term_hex2 _ _ b1 hb1]
          rfl)
        (by rw [haddr]; rfl)
        (encodeOperand_one op.addrMode b1 (by rw [haddr]; rfl) hb1)]
      rw [hvala]
    · -- Absolute
      rw [haddr] at hflen
      obtain ⟨a, b1, b2, hi⟩ := List.length_eq_three.mp (by rw [hlen, hflen]; rfl)
      subst hi
      have hvala : op.value = a := by simpa using hval
      have hb1 : b1 < 256 := hbytes b1 (by simp)
      have hb2 : b2 < 256 := hbytes b2 (by simp)
      have hge : 0x100 ≤ b2 * 256 + b1 := by
        have h2 := wai_absolute (Or.inl haddr) hwai
        simpa using h2
      have hlt : b2 * 256 + b1 < 0x10000 := by omega
      have hmode : shapeToMode op.name .abs (((b2 * 256 + b1) : Nat) : Int) = op.addrMode := by
        rw [haddr]
        unfold shapeToMode
        (try dsimp only)
        rw [if_neg (by
          intro hand
          have h3 := hand.1
          omega)]
      have henc := encodeOperand_two op.addrMode (b2 * 256 + b1) (by rw [haddr]; rfl) hlt
      have hfin : ∀ (operand : String),
          asmOperandParse (envFull bt vars) (cursor + branchAdjust) operand.data =
            some (.abs, (((b2 * 256 + b1) : Nat) : Int)) →
          asmInstr (envFull bt vars) (cursor + branchAdjust) op.name operand =
            some [a, b1, b2] := by
        intro operand hparse
        rw [asm_nonbranch bt vars (cursor + branchAdjust) op operand .abs (b2 * 256 + b1) _
          hmem hdoc hnb hparse hmode henc]
        rw [hvala, show (b2 * 256 + b1) % 256 = b1 from by omega,
          show (b2 * 256 + b1) / 256 = b2 from by omega]
      dsimp only
      rw [show [a, b1, b2].getD 2 0 * 256 + [a, b1, b2].getD 1 0 = b2 * 256 + b1 from rfl]
      rcases hvec : tblLookup osVectorAddresses (b2 * 256 + b1) with _ | osv
      · rcases hvc : tblLookup osVectorAddresses (clearBit0 (b2 * 256 + b1)) with _ | osv1
        · rcases hlv : lookupVar vars (b2 * 256 + b1) with _ | dvar
          · dsimp only
            apply hfin
            show asmOperandParse (envFull bt vars) (cursor + branchAdjust)
              ('&' :: hex4Chars (b2 * 256 + b1)) =
              some (.abs, (((b2 * 256 + b1) : Nat) : Int))
            have hf := amp_txt_facts (hex4Chars (b2 * 256 + b1)) (hex4Chars_mem _)
            rw [asmOperandParse_abs _ _ _ hf.1 hf.2.1 hf.2.2.1 hf.2.2.2.1 hf.2.2.2.2,
              term_hex4 _ _ _ hlt]
            rfl
          · dsimp only
            apply hfin
            have hf := var_txt_facts dvar (lookupVar_good vars _ dvar hgood hlv)
            rw [asmOperandParse_abs _ _ _ hf.1 hf.2.1 hf.2.2.1 hf.2.2.2.1 hf.2.2.2.2.1,
              term_var bt vars _ dvar _ hgood hnodup hlv]
            rfl
        · dsimp only
          apply hfin
          have hodd : b2 * 256 + b1 = clearBit0 (b2 * 256 + b1) + 1 := by
            by_cases hpar : (b2 * 256 + b1) % 2 = 0
            · exfalso
              have he : clearBit0 (b2 * 256 + b1) = b2 * 256 + b1 := by
                unfold clearBit0
                omega
              rw [he, hvec] at hvc
              exact Option.noConfusion hvc
            · unfold clearBit0
              omega
          have hf := vec_lookup_facts _ osv1 hvc
          show asmOperandParse (envFull bt vars) (cursor + branchAdjust)
            (osv1.data ++ ['+', '1']) = some (.abs, (((b2 * 256 + b1) : Nat) : Int))
          have hcast : ((clearBit0 (b2 * 256 + b1) : Nat) : Int) + 1 =
              (((b2 * 256 + b1) : Nat) : Int) := by
            push_cast
            omega
          rw [asmOperandParse_abs _ _ _ (by simp)
            (by
              intro h
              have h2 := congrArg List.length h
              simp at h2)
            (by rw [headD_append_ne_nil hf.1]; exact hf.2.2.1)
            (by rw [headD_append_ne_nil hf.1]; exact hf.2.2.2.1)
            (by
              intro hc
              rcases List.mem_append.mp hc with h | h
              · exact hf.2.2.2.2.1 h
              · exact absurd h (by decide)),
            term_vec1 bt vars _ _ osv1 hvc, hcast]
          rfl
      · dsimp only
        apply hfin
        have hf := vec_lookup_facts _ osv hvec
        rw [asmOperandParse_abs _ _ _ hf.1 hf.2.1 hf.2.2.1 hf.2.2.2.1 hf.2.2.2.2.1,
          term_vec bt vars _ _ osv hvec]
        rfl
    · -- ZeroPage
      rw [haddr] at hflen
      obtain ⟨a, b1, hi⟩ := List.length_eq_two.mp (by rw [hlen, hflen]; rfl)
      subst hi
      have hvala : op.value = a := by simpa using hval
      have hb1 : b1 < 256 := hbytes b1 (by simp)
      have hzp : hasMode op.name .ZeroPage = true := by
        have := hasMode_self op hmem
        rw [haddr] at this
        exact this
      dsimp only
      rw [show [a, b1].getD 1 0 = b1 from rfl]
      rcases hlv : lookupVar vars b1 with _ | dvar
      · dsimp only
        rw [asm_nonbranch bt vars (cursor + branchAdjust) op
          (String.mk ('&' :: hex2Chars b1)) .abs b1 [b1] hmem hdoc hnb
          (by
            show asmOperandParse (envFull bt vars) (cursor + branchAdjust)
              ('&' :: hex2Chars b1) = some (.abs, ((b1 : Nat) : Int))
            have hf := amp_txt_facts (hex2Chars b1) (hex2Chars_mem b1)
            rw [asmOperandParse_abs _ _ _ hf.1 hf.2.1 hf.2.2.1 hf.2.2.2.1 hf.2.2.2.2,
              term_hex2 _ _ b1 hb1]
            rfl)
          (by
            rw [haddr]
            unfold shapeToMode
            dsimp only
            rw [if_pos ⟨by exact_mod_cast hb1, hzp⟩])
          (encodeOperand_one op.addrMode b1 (by rw [haddr]; rfl) hb1)]
        rw [hvala]
      · dsimp only
        rw [asm_nonbranch bt vars (cursor + branchAdjust) op dvar .abs b1 [b1]
          hmem hdoc hnb
          (by
            have hf := var_txt_facts dvar (lookupVar_good vars b1 dvar hgood hlv)
            rw [asmOperandParse_abs _ _ _ hf.1 hf.2.1 hf.2.2.1 hf.2.2.2.1 hf.2.2.2.2.1,
              term_var bt vars _ dvar b1 hgood hnodup hlv]
            rfl)
          (by
            rw [haddr]
            unfold shapeToMode
            dsimp only
            rw [if_pos ⟨by exact_mod_cast hb1, hzp⟩])
          (encodeOperand_one op.addrMode b1 (by rw [haddr]; rfl) hb1)]
        rw [hvala]
    · -- ZeroPageX
      rw [haddr] at hflen
      obtain ⟨a, b1, hi⟩ := List.length_eq_two.mp (by rw [hlen, hflen]; rfl)
      subst hi
      have hvala : op.value = a := by simpa using hval
      have hb1 : b1 < 256 := hbytes b1 (by simp)
      have hzp : hasMode op.name .ZeroPageX = true := by
        have h2 := hasMode_self op hmem
        rw [haddr] at h2
        exact h2
      have hmode : shapeToMode op.name .absX ((b1 : Nat) : Int) = op.addrMode := by
        rw [haddr]
        unfold shapeToMode
        (try dsimp only)
        rw [if_pos ⟨by exact_mod_cast hb1, hzp⟩]
      have henc := encodeOperand_one op.addrMode b1 (by rw [haddr]; rfl) hb1
      dsimp only
      rw [show [a, b1].getD 1 0 = b1 from rfl]
      rcases hlv : lookupVar vars b1 with _ | dvar
      · dsimp only
        rw [asm_nonbranch bt vars (cursor + branchAdjust) op
          (String.mk ('&' :: hex2Chars b1 ++ [',', 'X'])) .absX b1 [b1] hmem hdoc hnb
          (by
            show asmOperandParse (envFull bt vars) (cursor + branchAdjust)
              (('&' :: hex2Chars b1) ++ [',', 'X']) = some (.absX, ((b1 : Nat) : Int))
            have hf := amp_txt_facts (hex2Chars b1) (hex2Chars_mem b1)
            rw [asmOperandParse_absX _ _ _ hf.1 hf.2.2.1 hf.2.2.2.1,
              term_hex2 _ _ b1 hb1]
            rfl)
          hmode henc]
        rw [hvala]
      · dsimp only
        rw [asm_nonbranch bt vars (cursor + branchAdjust) op (dvar ++ (",X"))
          .absX b1 [b1] hmem hdoc hnb
          (by
            have hf := var_txt_facts dvar (lookupVar_good vars b1 dvar hgood hlv)
            show asmOperandParse (envFull bt vars) (cursor + branchAdjust)
              (dvar.data ++ [',', 'X']) = some (.absX, ((b1 : Nat) : Int))
            rw [asmOperandParse_absX _ _ _ hf.1 hf.2.2.1 hf.2.2.2.1,
              term_var bt vars _ dvar b1 hgood hnodup hlv]
            rfl)
          hmode henc]
        rw [hvala]
    · -- ZeroPageY
      rw [haddr] at hflen
      obtain ⟨a, b1, hi⟩ := List.length_eq_two.mp (by rw [hlen, hflen]; rfl)
      subst hi
      have hvala : op.value = a := by simpa using hval
      have hb1 : b1 < 256 := hbytes b1 (by simp)
      have hzp : hasMode op.name .ZeroPageY = true := by
        have h2 := hasMode_self op hmem
        rw [haddr] at h2
        exact h2
      have hmode : shapeToMode op.name .absY ((b1 : Nat) : Int) = op.addrMode := by
        rw [haddr]
        unfold shapeToMode
        (try dsimp only)
        rw [if_pos ⟨by exact_mod_cast hb1, hzp⟩]
      have henc := encodeOperand_one op.addrMode b1 (by rw [haddr]; rfl) hb1
      dsimp only
      rw [show [a, b1].getD 1 0 = b1 from rfl]
      rcases hlv : lookupVar vars b1 with _ | dvar
      · dsimp only
        rw [asm_nonbranch bt vars (cursor + branchAdjust) op
          (String.mk ('&' :: hex2Chars b1 ++ [',', 'Y'])) .absY b1 [b1] hmem hdoc hnb
          (by
            show asmOperandParse (envFull bt vars) (cursor + branchAdjust)
              (('&' :: hex2Chars b1) ++ [',', 'Y']) = some (.absY, ((b1 : Nat) : Int))
            have hf := amp_txt_facts (hex2Chars b1) (hex2Chars_mem b1)
            rw [asmOperandParse_absY _ _ _ hf.1 hf.2.2.1 hf.2.2.2.1,
              term_hex2 _ _ b1 hb1]
            rfl)
          hmode henc]
        rw [hvala]
      · dsimp only
        rw [asm_nonbranch bt vars (cursor + branchAdjust) op (dvar ++ (",Y"))
          .absY b1 [b1] hmem hdoc hnb
          (by
            have hf := var_txt_facts dvar (lookupVar_good vars b1 dvar hgood hlv)
            show asmOperandParse (envFull bt vars) (cursor + branchAdjust)
              (dvar.data ++ [',', 'Y']) = some (.absY, ((b1 : Nat) : Int))
            rw [asmOperandParse_absY _ _ _ hf.1 hf.2.2.1 hf.2.2.2.1,
              term_var bt vars _ dvar b1 hgood hnodup hlv]
            rfl)
          hmode henc]
        rw [hvala]
    · -- ZeroPageRel
      exact absurd haddr (tf_no_zprel op hmem)
    · -- Indirect
      have hj : branchOrJump op = .jump := by
        unfold branchOrJump
        rw [tf_indirect_jmp op hmem haddr]
        rfl
      rw [hbj] at hj
      exact absurd hj (by decide)
    · -- AbsoluteX
      rw [haddr] at hflen
      obtain ⟨a, b1, b2, hi⟩ := List.length_eq_three.mp (by rw [hlen, hflen]; rfl)
      subst hi
      have hvala : op.value = a := by simpa using hval
      have hb1 : b1 < 256 := hbytes b1 (by simp)
      have hb2 : b2 < 256 := hbytes b2 (by simp)
      have hge : 0x100 ≤ b2 * 256 + b1 := by
        have h2 := wai_absolute (Or.inr (Or.inl haddr)) hwai
        simpa using h2
      have hlt : b2 * 256 + b1 < 0x10000 := by omega
      have hmode : shapeToMode op.name .absX (((b2 * 256 + b1) : Nat) : Int) =
          op.addrMode := by
        rw [haddr]
        unfold shapeToMode
        (try dsimp only)
        rw [if_neg (by
          intro hand
          have h3 := hand.1
          omega)]
      have henc := encodeOperand_two op.addrMode (b2 * 256 + b1) (by rw [haddr]; rfl) hlt
      have hfin : ∀ (operand : String),
          asmOperandParse (envFull bt vars) (cursor + branchAdjust) operand.data =
            some (.absX, (((b2 * 256 + b1) : Nat) : Int)) →
          asmInstr (envFull bt vars) (cursor + branchAdjust) op.name operand =
            some [a, b1, b2] := by
        intro operand hparse
        rw [asm_nonbranch bt vars (cursor + branchAdjust) op operand .absX (b2 * 256 + b1) _
          hmem hdoc hnb hparse hmode henc]
        rw [hvala, show (b2 * 256 + b1) % 256 = b1 from by omega,
          show (b2 * 256 + b1) / 256 = b2 from by omega]
      dsimp only
      rw [show [a, b1, b2].getD 2 0 * 256 + [a, b1, b2].getD 1 0 = b2 * 256 + b1 from rfl]
      rcases hlv : lookupVar vars (b2 * 256 + b1) with _ | dvar
      · dsimp only
        apply hfin
        show asmOperandParse (envFull bt vars) (cursor + branchAdjust)
          (('&' :: hex4Chars (b2 * 256 + b1)) ++ [',', 'X']) =
          some (.absX, (((b2 * 256 + b1) : Nat) : Int))
        have hf := amp_txt_facts (hex4Chars (b2 * 256 + b1)) (hex4Chars_mem _)
        rw [asmOperandParse_absX _ _ _ hf.1 hf.2.2.1 hf.2.2.2.1,
          term_hex4 _ _ _ hlt]
        rfl
      · dsimp only
        apply hfin
        have hf := var_txt_facts dvar (lookupVar_good vars _ dvar hgood hlv)
        show asmOperandParse (envFull bt vars) (cursor + branchAdjust)
          (dvar.data ++ [',', 'X']) = some (.absX, (((b2 * 256 + b1) : Nat) : Int))
        rw [asmOperandParse_absX _ _ _ hf.1 hf.2.2.1 hf.2.2.2.1,
          term_var bt vars _ dvar _ hgood hnodup hlv]
        rfl
    · -- AbsoluteY
      rw [haddr] at hflen
      obtain ⟨a, b1, b2, hi⟩ := List.length_eq_three.mp (by rw [hlen, hflen]; rfl)
      subst hi
      have hvala : op.value = a := by simpa using hval
      have hb1 : b1 < 256 := hbytes b1 (by simp)
      have hb2 : b2 < 256 := hbytes b2 (by simp)
      have hge : 0x100 ≤ b2 * 256 + b1 := by
        have h2 := wai_absolute (Or.inr (Or.inr haddr)) hwai
        simpa using h2
      have hlt : b2 * 256 + b1 < 0x10000 := by omega
      have hmode : shapeToMode op.name .absY (((b2 * 256 + b1) : Nat) : Int) =
          op.addrMode := by
        rw [haddr]
        unfold shapeToMode
        (try dsimp only)
        rw [if_neg (by
          intro hand
          have h3 := hand.1
          omega)]
      have henc := encodeOperand_two op.addrMode (b2 * 256 + b1) (by rw [haddr]; rfl) hlt
      have hfin : ∀ (operand : String),
          asmOperandParse (envFull bt vars) (cursor + branchAdjust) operand.data =
            some (.absY, (((b2 * 256 + b1) : Nat) : Int)) →
          asmInstr (envFull bt vars) (cursor + branchAdjust) op.name operand =
            some [a, b1, b2] := by
        intro operand hparse
        rw [asm_nonbranch bt vars (cursor + branchAdjust) op operand .absY (b2 * 256 + b1) _
          hmem hdoc hnb hparse hmode henc]
        rw [hvala, show (b2 * 256 + b1) % 256 = b1 from by omega,
          show (b2 * 256 + b1) / 256 = b2 from by omega]
      dsimp only
      rw [show [a, b1, b2].getD 2 0 * 256 + [a, b1, b2].getD 1 0 = b2 * 256 + b1 from rfl]
      rcases hlv : lookupVar vars (b2 * 256 + b1) with _ | dvar
      · dsimp only
        apply hfin
        show asmOperandParse (envFull bt vars) (cursor + branchAdjust)
          (('&' :: hex4Chars (b2 * 256 + b1)) ++ [',', 'Y']) =
          some (.absY, (((b2 * 256 + b1) : Nat) : Int))
        have hf := amp_txt_facts (hex4Chars (b2 * 256 + b1)) (hex4Chars_mem _)
        rw [asmOperandParse_absY _ _ _ hf.1 hf.2.2.1 hf.2.2.2.1,
          term_hex4 _ _ _ hlt]
        rfl
      · dsimp only
        apply hfin
        have hf := var_txt_facts dvar (lookupVar_good vars _ dvar hgood hlv)
        show asmOperandParse (envFull bt vars) (cursor + branchAdjust)
          (dvar.data ++ [',', 'Y']) = some (.absY, (((b2 * 256 + b1) : Nat) : Int))
        rw [asmOperandParse_absY _ _ _ hf.1 hf.2.2.1 hf.2.2.2.1,
          term_var bt vars _ dvar _ hgood hnodup hlv]
        rfl
    · -- IndirectX
      rw [haddr] at hflen
      obtain ⟨a, b1, hi⟩ := List.length_eq_two.mp (by rw [hlen, hflen]; rfl)
      subst hi
      have hvala : op.value = a := by simpa using hval
      have hb1 : b1 < 256 := hbytes b1 (by simp)
      have hmode : shapeToMode op.name .indX ((b1 : Nat) : Int) = op.addrMode := by
        rw [haddr]
        rfl
      have henc := encodeOperand_one op.addrMode b1 (by rw [haddr]; rfl) hb1
      dsimp only
      rw [show [a, b1].getD 1 0 = b1 from rfl]
      rcases hlv : lookupVar vars b1 with _ | dvar
      · dsimp only
        rw [asm_nonbranch bt vars (cursor + branchAdjust) op
          (String.mk ('(' :: '&' :: hex2Chars b1 ++ [',', 'X', ')'])) .indX b1 [b1]
          hmem hdoc hnb
          (by
            show asmOperandParse (envFull bt vars) (cursor + branchAdjust)
              ('(' :: (('&' :: hex2Chars b1) ++ [',', 'X', ')'])) =
              some (.indX, ((b1 : Nat) : Int))
            rw [asmOperandParse_indX, term_hex2 _ _ b1 hb1]
            rfl)
          hmode henc]
        rw [hvala]
      · dsimp only
        rw [asm_nonbranch bt vars (cursor + branchAdjust) op
          (("(") ++ dvar ++ (",X)")) .indX b1 [b1] hmem hdoc hnb
          (by
            show asmOperandParse (envFull bt vars) (cursor + branchAdjust)
              ('(' :: (dvar.data ++ [',', 'X', ')'])) =
              some (.indX, ((b1 : Nat) : Int))
            rw [asmOperandParse_indX, term_var bt vars _ dvar b1 hgood hnodup hlv]
            rfl)
          hmode henc]
        rw [hvala]
    · -- IndirectY
      rw [haddr] at hflen
      obtain ⟨a, b1, hi⟩ := List.length_eq_two.mp (by rw [hlen, hflen]; rfl)
      subst hi
      have hvala : op.value = a := by simpa using hval
      have hb1 : b1 < 256 := hbytes b1 (by simp)
      have hmode : shapeToMode op.name .indY ((b1 : Nat) : Int) = op.addrMode := by
        rw [haddr]
        rfl
      have henc := encodeOperand_one op.addrMode b1 (by rw [haddr]; rfl) hb1
      dsimp only
      rw [show [a, b1].getD 1 0 = b1 from rfl]
      rcases hlv : lookupVar vars b1 with _ | dvar
      · dsimp only
        rw [asm_nonbranch bt vars (cursor + branchAdjust) op
          (String.mk ('(' :: '&' :: hex2Chars b1 ++ [')', ',', 'Y'])) .indY b1 [b1]
          hmem hdoc hnb
          (by
            show asmOperandParse (envFull bt vars) (cursor + branchAdjust)
              ('(' :: (('&' :: hex2Chars b1) ++ [')', ',', 'Y'])) =
              some (.indY, ((b1 : Nat) : Int))
            rw [asmOperandParse_indY, term_hex2 _ _ b1 hb1]
            rfl)
          hmode henc]
        rw [hvala]
      · dsimp only
        rw [asm_nonbranch bt vars (cursor + branchAdjust) op
          (("(") ++ dvar ++ ("),Y")) .indY b1 [b1] hmem hdoc hnb
          (by
            show asmOperandParse (envFull bt vars) (cursor + branchAdjust)
              ('(' :: (dvar.data ++ [')', ',', 'Y'])) =
              some (.indY, ((b1 : Nat) : Int))
            rw [asmOperandParse_indY, term_var bt vars _ dvar b1 hgood hnodup hlv]
            rfl)
          hmode henc]
        rw [hvala]
    · -- IndirectZP
      rw [haddr] at hflen
      obtain ⟨a, b1, hi⟩ := List.length_eq_two.mp (by rw [hlen, hflen]; rfl)
      subst hi
      have hvala : op.value = a := by simpa using hval
      have hb1 : b1 < 256 := hbytes b1 (by simp)
      have hzp : hasMode op.name .IndirectZP = true := by
        have h2 := hasMode_self op hmem
        rw [haddr] at h2
        exact h2
      have hmode : shapeToMode op.name .ind ((b1 : Nat) : Int) = op.addrMode := by
        rw [haddr]
        unfold shapeToMode
        (try dsimp only)
        rw [if_pos ⟨by exact_mod_cast hb1, hzp⟩]
      have henc := encodeOperand_one op.addrMode b1 (by rw [haddr]; rfl) hb1
      dsimp only
      rw [show [a, b1].getD 1 0 = b1 from rfl]
      rcases hlv : lookupVar vars b1 with _ | dvar
      · dsimp only
        rw [asm_nonbranch bt vars (cursor + branchAdjust) op
          (String.mk ('(' :: '&' :: hex2Chars b1 ++ [')'])) .ind b1 [b1]
          hmem hdoc hnb
          (by
            show asmOperandParse (envFull bt vars) (cursor + branchAdjust)
              ('(' :: (('&' :: hex2Chars b1) ++ [')'])) =
              some (.ind, ((b1 : Nat) : Int))
            have hf := amp_txt_facts (hex2Chars b1) (hex2Chars_mem b1)
            rw [asmOperandParse_ind _ _ _ hf.2.2.2.2, term_hex2 _ _ b1 hb1]
            rfl)
          hmode henc]
        rw [hvala]
      · dsimp only
        rw [asm_nonbranch bt vars (cursor + branchAdjust) op
          (("(") ++ dvar ++ (")")) .ind b1 [b1] hmem hdoc hnb
          (by
            have hf := var_txt_facts dvar (lookupVar_good vars b1 dvar hgood hlv)
            show asmOperandParse (envFull bt vars) (cursor + branchAdjust)
              ('(' :: (dvar.data ++ [')'])) = some (.ind, ((b1 : Nat) : Int))
            rw [asmOperandParse_ind _ _ _ hf.2.2.2.2.1,
              term_var bt vars _ dvar b1 hgood hnodup hlv]
            rfl)
          hmode henc]
        rw [hvala]
  · -- branch
    obtain ⟨hfind, hmodeN, hlen23⟩ := tf_branch_find op hmem hbj
    have hcont := branch_contains hbj
    have hne4C : instruction.getD 0 0 ≠ 0x4C := by
      intro h
      have h2 := tf_value_4C op hmem (hval.trans h)
      rw [h2] at hbj
      exact absurd hbj (by decide)
    have hne20 : instruction.getD 0 0 ≠ 0x20 := by
      intro h
      have h2 := tf_value_20 op hmem (hval.trans h)
      rw [h2] at hbj
      exact absurd hbj (by decide)
    have hcond : (instruction.getD 0 0 == OpJMPAbsolute ||
        instruction.getD 0 0 == OpJSRAbsolute) = false := by
      rw [Bool.or_eq_false_iff]
      constructor <;> rw [beq_eq_false_iff_ne]
      · exact hne4C
      · exact hne20
    unfold decode
    rw [if_neg (by rw [hcond]; exact Bool.false_ne_true), if_pos (by rw [hbj]; rfl)]
    unfold asmInstr
    rw [if_pos hcont, hfind]
    dsimp only
    rcases hlen23 with h2 | h3
    · rw [h2]
      rw [if_neg (by decide)]
      obtain ⟨a, b1, hi⟩ := List.length_eq_two.mp (by rw [hlen, h2])
      subst hi
      have hvala : op.value = a := by simpa using hval
      have hb1 : b1 < 256 := hbytes b1 (by simp)
      unfold genBranch
      dsimp only
      rw [show signedOffsetOf [a, b1] 2 = signed8 b1 + 2 from rfl]
      rcases hbtl : btLookup bt (branchTarget [a, b1] cursor branchAdjust 2) with _ | i
      · (try dsimp only)
        rw [if_neg (by decide)]
        rw [show (String.mk ('P' :: '%' :: intDecSignedChars (signed8 b1 + 2))).data =
          'P' :: '%' :: intDecSignedChars (signed8 b1 + 2) from rfl]
        rw [parseTerm_rel]
        simp only [Option.map_some']
        rw [rel_byte_eq _ 2 b1 hb1, hvala]
      · (try dsimp only)
        rw [if_neg (by decide)]
        rw [term_label bt vars _ i _ hbtl]
        simp only [Option.map_some']
        rw [branchTarget_eq [a, b1] cursor branchAdjust 2,
          show branchOperandByte [a, b1] 2 = b1 from rfl,
          wrap_byte _ _ b1 hb1 (by push_cast; ring), hvala]
    · rw [h3]
      rw [if_pos (by decide)]
      obtain ⟨a, b1, b2, hi⟩ := List.length_eq_three.mp (by rw [hlen, h3])
      subst hi
      have hvala : op.value = a := by simpa using hval
      have hb1 : b1 < 256 := hbytes b1 (by simp)
      have hb2 : b2 < 256 := hbytes b2 (by simp)
      have hcm : ',' ∉ ('&' :: hex2Chars b1) := by
        intro hc
        rcases List.mem_cons.mp hc with h | h
        · exact absurd h (by decide)
        · obtain ⟨k, hk, hck⟩ := hex2Chars_mem b1 ',' h
          exact absurd hck.symm (digitCh_ne k hk).1
      unfold genBranch
      dsimp only
      rw [show signedOffsetOf [a, b1, b2] 3 = signed8 b2 + 3 from rfl]
      rw [show [a, b1, b2].getD 1 0 = b1 from rfl]
      rcases hbtl : btLookup bt (branchTarget [a, b1, b2] cursor branchAdjust 3) with _ | i
      · (try dsimp only)
        rw [if_pos (by decide)]
        rw [show (String.mk ('&' :: hex2Chars b1 ++ [','] ++
          ('P' :: '%' :: intDecSignedChars (signed8 b2 + 3)))).data =
          ('&' :: hex2Chars b1) ++ ',' ::
            ('P' :: '%' :: intDecSignedChars (signed8 b2 + 3)) from by simp]
        rw [splitOnce_append ',' ('&' :: hex2Chars b1) _ hcm]
        (try dsimp only)
        rw [if_pos (show (('&' :: hex2Chars b1) : List Char).headD ' ' = '&' from rfl)]
        dsimp only [List.tail_cons]
        rw [hexParseChars_hex2 b1 hb1]
        simp only [Option.some_bind]
        rw [if_pos hb1]
        rw [parseTerm_rel]
        simp only [Option.map_some']
        rw [rel_byte_eq _ 3 b2 hb2, hvala]
      · (try dsimp only)
        rw [if_pos (by decide)]
        rw [show ((String.mk ('&' :: hex2Chars b1 ++ [','])) ++ labelName i).data =
          ('&' :: hex2Chars b1) ++ ',' :: (labelName i).data from by
            show ('&' :: hex2Chars b1 ++ [',']) ++ (labelName i).data = _
            simp]
        rw [splitOnce_append ',' ('&' :: hex2Chars b1) _ hcm]
        (try dsimp only)
        rw [if_pos (show (('&' :: hex2Chars b1) : List Char).headD ' ' = '&' from rfl)]
        dsimp only [List.tail_cons]
        rw [hexParseChars_hex2 b1 hb1]
        simp only [Option.some_bind]
        rw [if_pos hb1]
        rw [term_label bt vars _ i _ hbtl]
        simp only [Option.map_some']
        rw [branchTarget_eq [a, b1, b2] cursor branchAdjust 3,
          show branchOperandByte [a, b1, b2] 3 = b2 from rfl,
          wrap_byte _ _ b2 hb2 (by push_cast; ring), hvala]
  · -- jump
    rcases tf_jump_cases op hmem hbj with hopc | hopc | hopc
    · -- JMP absolute (0x4C)
      subst hopc
      obtain ⟨a, b1, b2, hi⟩ := List.length_eq_three.mp (by rw [hlen])
      subst hi
      have ha : a = 0x4C := by simpa using hval.symm
      subst ha
      have hb1 : b1 < 256 := hbytes b1 (by simp)
      have hb2 : b2 < 256 := hbytes b2 (by simp)
      have hge : 0x100 ≤ b2 * 256 + b1 := by
        have h2 := wai_absolute (Or.inl rfl) hwai
        simpa using h2
      have hlt : b2 * 256 + b1 < 0x10000 := by omega
      have hfin : ∀ (operand : String),
          asmOperandParse (envFull bt vars) (cursor + branchAdjust) operand.data =
            some (.abs, (((b2 * 256 + b1) : Nat) : Int)) →
          asmInstr (envFull bt vars) (cursor + branchAdjust)
            (Opcode.mk 0x4C ("JMP") 3 .Absolute).name operand =
            some [0x4C, b1, b2] := by
        intro operand hparse
        rw [asm_nonbranch bt vars (cursor + branchAdjust) ⟨0x4C, ("JMP"), 3, .Absolute⟩
          operand .abs (b2 * 256 + b1) [(b2 * 256 + b1) % 256, (b2 * 256 + b1) / 256]
          (by decide) (by decide) (by decide) hparse
          (by
            unfold shapeToMode
            dsimp only
            rw [if_neg (by
              intro hand
              have h3 := hand.1
              omega)])
          (encodeOperand_two _ _ (by decide) hlt)]
        rw [show (b2 * 256 + b1) % 256 = b1 from by omega,
          show (b2 * 256 + b1) / 256 = b2 from by omega]
      unfold decode
      rw [if_pos (by rfl)]
      unfold genAbsoluteOsCall
      (try dsimp only)
      rw [show [(0x4C : Nat), b1, b2].getD 2 0 * 256 + [(0x4C : Nat), b1, b2].getD 1 0 =
        b2 * 256 + b1 from rfl]
      rcases hos : tblLookup addressToOsCallName (b2 * 256 + b1) with _ | s
      · rcases hbtl : btLookup bt (b2 * 256 + b1) with _ | i
        · (try dsimp only)
          apply hfin
          show asmOperandParse (envFull bt vars) (cursor + branchAdjust)
            ('&' :: hex4Chars (b2 * 256 + b1)) =
            some (.abs, (((b2 * 256 + b1) : Nat) : Int))
          have hf := amp_txt_facts (hex4Chars (b2 * 256 + b1)) (hex4Chars_mem _)
          rw [asmOperandParse_abs _ _ _ hf.1 hf.2.1 hf.2.2.1 hf.2.2.2.1 hf.2.2.2.2,
            term_hex4 _ _ _ hlt]
          rfl
        · (try dsimp only)
          apply hfin
          have hf := label_txt_facts i
          rw [asmOperandParse_abs _ _ _ hf.1 hf.2.1 hf.2.2.1 hf.2.2.2.1 hf.2.2.2.2.1,
            term_label bt vars _ i _ hbtl]
          rfl
      · (try dsimp only)
        apply hfin
        have hf := os_lookup_facts _ s hos
        rw [asmOperandParse_abs _ _ _ hf.1 hf.2.1 hf.2.2.1 hf.2.2.2.1 hf.2.2.2.2.1,
          term_os bt vars _ _ s hos]
        rfl
    · -- JMP indirect (0x6C)
      subst hopc
      obtain ⟨a, b1, b2, hi⟩ := List.length_eq_three.mp (by rw [hlen])
      subst hi
      have ha : a = 0x6C := by simpa using hval.symm
      subst ha
      have hb1 : b1 < 256 := hbytes b1 (by simp)
      have hb2 : b2 < 256 := hbytes b2 (by simp)
      have hlt : b2 * 256 + b1 < 0x10000 := by omega
      have hfin : ∀ (operand : String),
          asmOperandParse (envFull bt vars) (cursor + branchAdjust) operand.data =
            some (.ind, (((b2 * 256 + b1) : Nat) : Int)) →
          asmInstr (envFull bt vars) (cursor + branchAdjust)
            (Opcode.mk 0x6C ("JMP") 3 .Indirect).name operand =
            some [0x6C, b1, b2] := by
        intro operand hparse
        rw [asm_nonbranch bt vars (cursor + branchAdjust) ⟨0x6C, ("JMP"), 3, .Indirect⟩
          operand .ind (b2 * 256 + b1) [(b2 * 256 + b1) % 256, (b2 * 256 + b1) / 256]
          (by decide) (by decide) (by decide) hparse
          (by
            unfold shapeToMode
            dsimp only
            rw [if_neg (by
              intro hand
              exact absurd hand.2 (by decide))])
          (encodeOperand_two _ _ (by decide) hlt)]
        rw [show (b2 * 256 + b1) % 256 = b1 from by omega,
          show (b2 * 256 + b1) / 256 = b2 from by omega]
      unfold decode
      rw [if_neg (by
        rw [show (([(0x6C : Nat), b1, b2].getD 0 0 == OpJMPAbsolute) ||
          ([(0x6C : Nat), b1, b2].getD 0 0 == OpJSRAbsolute)) = false from rfl]
        exact Bool.false_ne_true)]
      rw [if_neg (by decide)]
      (try dsimp only)
      rw [show [(0x6C : Nat), b1, b2].getD 2 0 * 256 + [(0x6C : Nat), b1, b2].getD 1 0 =
        b2 * 256 + b1 from rfl]
      rcases hlv : lookupVar vars (b2 * 256 + b1) with _ | dvar
      · (try dsimp only)
        apply hfin
        show asmOperandParse (envFull bt vars) (cursor + branchAdjust)
          ('(' :: (('&' :: hex4Chars (b2 * 256 + b1)) ++ [')'])) =
          some (.ind, (((b2 * 256 + b1) : Nat) : Int))
        have hf := amp_txt_facts (hex4Chars (b2 * 256 + b1)) (hex4Chars_mem _)
        rw [asmOperandParse_ind _ _ _ hf.2.2.2.2, term_hex4 _ _ _ hlt]
        rfl
      · (try dsimp only)
        apply hfin
        have hf := var_txt_facts dvar (lookupVar_good vars _ dvar hgood hlv)
        show asmOperandParse (envFull bt vars) (cursor + branchAdjust)
          ('(' :: (dvar.data ++ [')'])) = some (.ind, (((b2 * 256 + b1) : Nat) : Int))
        rw [asmOperandParse_ind _ _ _ hf.2.2.2.2.1,
          term_var bt vars _ dvar _ hgood hnodup hlv]
        rfl
    · -- JSR absolute (0x20)
      subst hopc
      obtain ⟨a, b1, b2, hi⟩ := List.length_eq_three.mp (by rw [hlen])
      subst hi
      have ha : a = 0x20 := by simpa using hval.symm
      subst ha
      have hb1 : b1 < 256 := hbytes b1 (by simp)
      have hb2 : b2 < 256 := hbytes b2 (by simp)
      have hge : 0x100 ≤ b2 * 256 + b1 := by
        have h2 := wai_absolute (Or.inl rfl) hwai
        simpa using h2
      have hlt : b2 * 256 + b1 < 0x10000 := by omega
      have hfin : ∀ (operand : String),
          asmOperandParse (envFull bt vars) (cursor + branchAdjust) operand.data =
            some (.abs, (((b2 * 256 + b1) : Nat) : Int)) →
          asmInstr (envFull bt vars) (cursor + branchAdjust)
            (Opcode.mk 0x20 ("JSR") 3 .Absolute).name operand =
            some [0x20, b1, b2] := by
        intro operand hparse
        rw [asm_nonbranch bt vars (cursor + branchAdjust) ⟨0x20, ("JSR"), 3, .Absolute⟩
          operand .abs (b2 * 256 + b1) [(b2 * 256 + b1) % 256, (b2 * 256 + b1) / 256]
          (by decide) (by decide) (by decide) hparse
          (by
            unfold shapeToMode
            dsimp only
            rw [if_neg (by
              intro hand
              have h3 := hand.1
              omega)])
          (encodeOperand_two _ _ (by decide) hlt)]
        rw [show (b2 * 256 + b1) % 256 = b1 from by omega,
          show (b2 * 256 + b1) / 256 = b2 from by omega]
      unfold decode
      rw [if_pos (by rfl)]
      unfold genAbsoluteOsCall
      (try dsimp only)
      rw [show [(0x20 : Nat), b1, b2].getD 2 0 * 256 + [(0x20 : Nat), b1, b2].getD 1 0 =
        b2 * 256 + b1 from rfl]
      rcases hos : tblLookup addressToOsCallName (b2 * 256 + b1) with _ | s
      · rcases hbtl : btLookup bt (b2 * 256 + b1) with _ | i
        · (try dsimp only)
          apply hfin
          show asmOperandParse (envFull bt vars) (cursor + branchAdjust)
            ('&' :: hex4Chars (b2 * 256 + b1)) =
            some (.abs, (((b2 * 256 + b1) : Nat) : Int))
          have hf := amp_txt_facts (hex4Chars (b2 * 256 + b1)) (hex4Chars_mem _)
          rw [asmOperandParse_abs _ _ _ hf.1 hf.2.1 hf.2.2.1 hf.2.2.2.1 hf.2.2.2.2,
            term_hex4 _ _ _ hlt]
          rfl
        · (try dsimp only)
          apply hfin
          have hf := label_txt_facts i
          rw [asmOperandParse_abs _ _ _ hf.1 hf.2.1 hf.2.2.1 hf.2.2.2.1 hf.2.2.2.2.1,
            term_label bt vars _ i _ hbtl]
          rfl
      · (try dsimp only)
        apply hfin
        have hf := os_lookup_facts _ s hos
        rw [asmOperandParse_abs _ _ _ hf.1 hf.2.1 hf.2.2.1 hf.2.2.2.1 hf.2.2.2.2.1,
          term_os bt vars _ _ s hos]
        rfl

/-- Witness: the round trip at a concrete input, `A5 70` disassembled
with a user variable `POS = &70` and rendered as `LDA POS`. -/
theorem c1_amended_round_trip_witness :
    asmInstr (envFull [] [(("POS"), VarDef.mk ("&70") 0x70)]) (0 + 0)
      (Opcode.mk 0xA5 ("LDA") 2 .ZeroPage).name
      (decode [(("POS"), VarDef.mk ("&70") 0x70)] [] 0
        (Opcode.mk 0xA5 ("LDA") 2 .ZeroPage) [0xA5, 0x70] 0) =
      some [0xA5, 0x70] :=
  c1_amended_round_trip [(("POS"), VarDef.mk ("&70") 0x70)] [] 0 0
    (Opcode.mk 0xA5 ("LDA") 2 .ZeroPage) [0xA5, 0x70]
    (by decide) (by decide) (by decide) (by decide) (by decide)
    (by decide) (by decide)

end BbcDisasm
